import Mathlib

/-!
# Verification of `FibonacciHeap.h` (ToniaSanzo/FibonacciHeap)

A shallow embedding of the C++ Fibonacci-heap implementation in
`src/FibonacciHeap.h`, together with proofs and refutations of the
specification claims.

## Modelling conventions

* `fhNode<T>` is modelled by the inductive rose tree `FH.Node`.  The C++
  node's `parent` back-pointer is not stored: parenthood is the tree
  structure itself, and the operations that walk parent pointers
  (`change_priority`'s cut loop, `mark_utility`, `set_degree`) are modelled
  with an explicit ancestor stack (`FH.Ctx` list, a zipper) that mirrors
  the parent chain of the node under consideration.
* Pointer identity of `std::shared_ptr<fhNode<T>>` is modelled by a node
  id (`Node.id`): each `insert` allocates a fresh id from the heap's
  `nextId` counter, mirroring the allocator handing out distinct
  addresses.  `std::find` over the root vector compares pointers, which
  the model renders as a search for the first root with the given id.
* `min_node` is modelled by `Heap.minRef : Option (Nat × Int)`, the id and
  priority of the pointed-to node at the moment the pointer was assigned.
  Every place the C++ assigns `min_node` the model assigns the pair, and
  every place the C++ dereferences `min_node->...` beyond the cached
  priority the model looks the node up by id.
* Undefined behaviour (dereferencing a null `min_node` in `operator+` /
  `operator+=`, or `roots.erase(it)` with `it == roots.end()` when
  `std::find` fails in `delete_min` / `consolidate_tree`) is modelled by
  returning `none` from an `Option`-valued operation.
* The member vector `rank` is always all-null on entry to
  `consolidate_tree` (`clear_rank` nulls every slot on exit, and nothing
  else writes it), so the model passes consolidation a local table
  starting empty; `rank_grow`'s net effect (growing the table to
  `degree + 1` slots, including the `size_t` wrap-around case for an
  empty table) is `growRank`.
* `size` is `std::size_t`; the model uses `Nat` with truncated
  subtraction.  (The only divergence would be a wrap-around on
  `--size` at `size == 0`, and no claim below reads `size` at such a
  state.)
* The payload type `T` is instantiated at `Nat`: the claims only use
  equality of values, which `Nat` provides.
-/

namespace FH

/-- Model of `fhNode<T>` (`src/FibonacciHeap.h`, lines 50-144):
`id` models the node's address (pointer identity), `value` the payload,
`priority` the `long long` key, `marked` the mark bit, `degree` the
`unsigned degree` field, and `children` the vector of child subtrees.
The `parent` back-pointer is represented by the tree structure. -/
inductive Node : Type where
  | mk (id : Nat) (value : Nat) (priority : Int) (marked : Bool)
       (degree : Nat) (children : List Node) : Node

/-- The node's id (models pointer identity). -/
def Node.id : Node → Nat
  | .mk i _ _ _ _ _ => i

/-- The node's payload value. -/
def Node.value : Node → Nat
  | .mk _ v _ _ _ _ => v

/-- The node's priority. -/
def Node.priority : Node → Int
  | .mk _ _ p _ _ _ => p

/-- The node's mark bit. -/
def Node.marked : Node → Bool
  | .mk _ _ _ m _ _ => m

/-- The node's `degree` field. -/
def Node.degree : Node → Nat
  | .mk _ _ _ _ d _ => d

/-- The node's children. -/
def Node.children : Node → List Node
  | .mk _ _ _ _ _ cs => cs

theorem Node.eta (n : Node) :
    Node.mk n.id n.value n.priority n.marked n.degree n.children = n := by
  cases n; rfl

/-- The degree computation loop of `set_degree`
(`src/FibonacciHeap.h`, lines 495-504): starting from `0`, for each child
with `child->degree >= node->degree` set the degree to
`child->degree + 1`.  This computes `max (child.degree + 1)` over the
children (`0` when there are none), i.e. a height, not a child count. -/
def computeDeg (cs : List Node) : Nat :=
  cs.foldl (fun d c => if d ≤ c.degree then c.degree + 1 else d) 0

/-- Min-heap order inside one tree: every node's priority is at most the
priority of each of its direct children (spec §3, the heap invariant). -/
def orderedB : Node → Bool
  | .mk _ _ p _ _ cs => cs.attach.all fun c => decide (p ≤ c.1.priority) && orderedB c.1
decreasing_by simp_wf; have := List.sizeOf_lt_of_mem c.2; omega

/-- Propositional form of `orderedB`. -/
def Ordered (n : Node) : Prop := orderedB n = true

/-- Degree-consistency of a tree: every node's `degree` field equals the
value `set_degree` would compute from its children's degrees (the height
of the node's subtree, given the children are themselves consistent). -/
def degOkB : Node → Bool
  | .mk _ _ _ _ d cs =>
      decide (d = computeDeg cs) && cs.attach.all fun c => degOkB c.1
decreasing_by simp_wf; have := List.sizeOf_lt_of_mem c.2; omega

/-- Propositional form of `degOkB`. -/
def DegOk (n : Node) : Prop := degOkB n = true

/-- All ids occurring in a tree, root first, depth first. -/
def nodeIds : Node → List Nat
  | .mk i _ _ _ _ cs => i :: (cs.attach.map fun c => nodeIds c.1).flatten
decreasing_by simp_wf; have := List.sizeOf_lt_of_mem c.2; omega

/-- All ids occurring in a forest. -/
def forestIds (f : List Node) : List Nat := (f.map nodeIds).flatten

/-- All `(id, priority)` pairs occurring in a tree. -/
def nodePris : Node → List (Nat × Int)
  | .mk i _ p _ _ cs => (i, p) :: (cs.attach.map fun c => nodePris c.1).flatten
decreasing_by simp_wf; have := List.sizeOf_lt_of_mem c.2; omega

/-- All `(id, priority)` pairs occurring in a forest. -/
def forestPris (f : List Node) : List (Nat × Int) := (f.map nodePris).flatten

/-- One ancestor level of a node under consideration: the ancestor's own
fields plus its children split around the position of the spine child
(`pre ++ [hole] ++ post`).  A list of these, innermost first, models the
C++ parent-pointer chain from a node up to its tree root. -/
structure Ctx where
  id : Nat
  value : Nat
  priority : Int
  marked : Bool
  degree : Nat
  pre : List Node
  post : List Node

/-- Re-insert a node into its ancestor's child list. -/
def Ctx.fill (c : Ctx) (n : Node) : Node :=
  .mk c.id c.value c.priority c.marked c.degree (c.pre ++ n :: c.post)

/-- The ancestor with the spine child erased from its child list
(`parent_node->children.erase(it)`). -/
def Ctx.dropHole (c : Ctx) : Node :=
  .mk c.id c.value c.priority c.marked c.degree (c.pre ++ c.post)

/-- Rebuild the tree from a node and its ancestor stack. -/
def plug (n : Node) : List Ctx → Node
  | [] => n
  | c :: rest => plug (c.fill n) rest

/-- `fhNode::search` (`src/FibonacciHeap.h`, lines 103-143), returning in
addition the ancestor stack of the hit.  The arguments `i v p m d` are the
fields of the node whose children are being scanned, `pre` the children
already scanned, `todo` the rest.  For each child: if it matches
`(key, priority)` return it; if its priority exceeds the target, skip its
subtree; otherwise if it has children, search them, and return on a hit;
else continue with the next child. -/
def searchList (key : Nat) (pri : Int) (i v : Nat) (p : Int) (m : Bool) (d : Nat)
    (pre todo : List Node) : Option (Node × List Ctx) :=
  match todo with
  | [] => none
  | c :: rest =>
    if c.value = key ∧ c.priority = pri then some (c, [⟨i, v, p, m, d, pre, rest⟩])
    else if pri < c.priority then searchList key pri i v p m d (pre ++ [c]) rest
    else if c.children.isEmpty then searchList key pri i v p m d (pre ++ [c]) rest
    else
      match searchList key pri c.id c.value c.priority c.marked c.degree [] c.children with
      | some (t, spine) => some (t, spine ++ [⟨i, v, p, m, d, pre, rest⟩])
      | none => searchList key pri i v p m d (pre ++ [c]) rest
termination_by sizeOf todo
decreasing_by
  all_goals simp_wf
  all_goals cases c
  all_goals simp [Node.children] at *
  all_goals omega

/-- `FibonacciHeap::find` (`src/FibonacciHeap.h`, lines 443-484), returning
the index of the root whose tree holds the hit, the hit itself, and its
ancestor stack (empty when the hit is a root). -/
def findGo (key : Nat) (pri : Int) (idx : Nat) :
    List Node → Option (Nat × Node × List Ctx)
  | [] => none
  | r :: rest =>
    if r.value = key ∧ r.priority = pri then some (idx, r, [])
    else if pri < r.priority then findGo key pri (idx + 1) rest
    else if r.children.isEmpty then findGo key pri (idx + 1) rest
    else
      match searchList key pri r.id r.value r.priority r.marked r.degree [] r.children with
      | some (t, spine) => some (idx, t, spine)
      | none => findGo key pri (idx + 1) rest

/-- Entry point of the lookup: scan the root list from index `0`. -/
def findPath (roots : List Node) (key : Nat) (pri : Int) :
    Option (Nat × Node × List Ctx) :=
  findGo key pri 0 roots

/-- The upward propagation of `set_degree`
(`src/FibonacciHeap.h`, lines 486-511) along the ancestor stack: at each
ancestor, recompute its degree from its children (with the updated child
`child` in the hole); if the degree is unchanged, stop, otherwise store it
and continue with that ancestor's parent. -/
def setDegreeCtxs (child : Node) : List Ctx → List Ctx
  | [] => []
  | ctx :: rest =>
    let d := computeDeg (ctx.pre ++ child :: ctx.post)
    if d = ctx.degree then ctx :: rest
    else
      let ctx' : Ctx := { ctx with degree := d }
      ctx' :: setDegreeCtxs (ctx'.fill child) rest

/-- `set_degree(node)` for a node with ancestor stack `spine`: recompute
the node's degree from its children, and if it changed and the node has a
parent, propagate upward. -/
def setDegreeFull (n : Node) (spine : List Ctx) : Node × List Ctx :=
  let d := computeDeg n.children
  let n' := Node.mk n.id n.value n.priority n.marked d n.children
  (n', if d = n.degree then spine else setDegreeCtxs n' spine)

theorem length_setDegreeCtxs (child : Node) (spine : List Ctx) :
    (setDegreeCtxs child spine).length = spine.length := by
  induction spine generalizing child with
  | nil => rfl
  | cons ctx rest ih =>
    rw [setDegreeCtxs]
    by_cases hd : computeDeg (ctx.pre ++ child :: ctx.post) = ctx.degree <;>
      simp [hd, ih]

theorem length_setDegreeFull (n : Node) (spine : List Ctx) :
    (setDegreeFull n spine).2.length = spine.length := by
  rw [setDegreeFull]
  by_cases hd : computeDeg n.children = n.degree <;> simp [hd, length_setDegreeCtxs]

/-- `mark_utility(node)` (`src/FibonacciHeap.h`, lines 522-556) for a node
with ancestor stack `spine`: if the node is a root, do nothing; if it is
unmarked, mark it; otherwise cut it into the root list (appended to
`acc`), clear its mark, recompute the parent's degree, and recurse on the
parent.  Returns the node now under consideration, its stack, and the
roots pushed. -/
def markUtilSpine (n : Node) (spine : List Ctx) (acc : List Node) :
    Node × List Ctx × List Node :=
  match spine with
  | [] => (n, [], acc)
  | ctx :: rest =>
    if n.marked = false then
      (.mk n.id n.value n.priority true n.degree n.children, ctx :: rest, acc)
    else
      let cut := Node.mk n.id n.value n.priority false n.degree n.children
      let pr := setDegreeFull ctx.dropHole rest
      markUtilSpine pr.1 pr.2 (acc ++ [cut])
termination_by spine.length
decreasing_by simp_wf; rw [length_setDegreeFull]; omega

/-- The cut loop of the priority-decrease branch of `change_priority`
(`src/FibonacciHeap.h`, lines 397-413): while the node has a parent whose
priority exceeds the node's, cut the node into the root list (unmarked),
recompute the parent's degree, run `mark_utility` on the parent, and move
up one level.  If `mark_utility` cut the parent, the next loop test fails
because the parent has become a root. -/
def decreaseLoop (curr : Node) (spine : List Ctx) (acc : List Node) :
    Node × List Ctx × List Node :=
  match spine with
  | [] => (curr, [], acc)
  | [ctx] =>
    if curr.priority < ctx.priority then
      -- the parent is a tree root: mark_utility exits, and the loop then
      -- stops because the parent has no parent
      ((setDegreeFull ctx.dropHole []).1, [],
        acc ++ [Node.mk curr.id curr.value curr.priority false curr.degree curr.children])
    else (curr, [ctx], acc)
  | ctx :: c2 :: rest2 =>
    if curr.priority < ctx.priority then
      let cut := Node.mk curr.id curr.value curr.priority false curr.degree curr.children
      let pr := setDegreeFull ctx.dropHole (c2 :: rest2)
      if pr.1.marked = false then
        decreaseLoop (.mk pr.1.id pr.1.value pr.1.priority true pr.1.degree pr.1.children)
          pr.2 (acc ++ [cut])
      else
        -- mark_utility cuts the marked parent (cascading); afterwards the
        -- loop stops because the new current node is a root
        markUtilSpine pr.1 pr.2 (acc ++ [cut])
    else (curr, ctx :: c2 :: rest2, acc)
termination_by spine.length
decreasing_by simp_wf; rw [length_setDegreeFull]; simp

/-- The child scan of the priority-increase branch once the node has been
cut into the root list: `set_degree` recomputes only the node's own degree
(no parent) and `mark_utility` exits immediately, so the remaining
offending children are cut and appended after it.  Returns the node's
final value and the roots pushed after it. -/
def increaseRooted (i v : Nat) (p : Int) (m : Bool) (d : Nat)
    (kept todo accPost : List Node) : Node × List Node :=
  match todo with
  | [] => (.mk i v p m d kept, accPost)
  | c :: rest =>
    if c.priority < p then
      let cut := Node.mk c.id c.value c.priority false c.degree c.children
      increaseRooted i v p m (computeDeg (kept ++ rest)) kept rest (accPost ++ [cut])
    else increaseRooted i v p m d (kept ++ [c]) rest accPost

/-- The child scan of the priority-increase branch of `change_priority`
(`src/FibonacciHeap.h`, lines 417-437) while the node is still inside its
tree: each child whose priority is below the node's is cut into the root
list (unmarked), the node's degree is recomputed (propagating upward if
changed), and `mark_utility` runs on the node — marking it on first loss,
and on second loss cutting the node itself into the root list and
cascading, after which the scan continues with the node as a root.
Returns the rebuilt tree and the roots pushed, in push order. -/
def increaseInTree (i v : Nat) (p : Int) (m : Bool) (d : Nat)
    (kept todo : List Node) (spine : List Ctx) (acc : List Node) :
    Node × List Node :=
  match todo with
  | [] => (plug (.mk i v p m d kept) spine, acc)
  | c :: rest =>
    if c.priority < p then
      let cut := Node.mk c.id c.value c.priority false c.degree c.children
      let d' := computeDeg (kept ++ rest)
      let curr' := Node.mk i v p m d' (kept ++ rest)
      let spine1 := if d' = d then spine else setDegreeCtxs curr' spine
      match spine1 with
      | [] => increaseInTree i v p m d' kept rest [] (acc ++ [cut])
      | ctx1 :: rest1 =>
        if m = false then
          increaseInTree i v p true d' kept rest (ctx1 :: rest1) (acc ++ [cut])
        else
          let pr := setDegreeFull ctx1.dropHole rest1
          let mu := markUtilSpine pr.1 pr.2 []
          let fin := increaseRooted i v p false d' kept rest []
          (plug mu.1 mu.2.1, acc ++ [cut] ++ [fin.1] ++ mu.2.2 ++ fin.2)
    else increaseInTree i v p m d (kept ++ [c]) rest spine acc
termination_by todo.length

/-- Model of `FibonacciHeap<T>` (`src/FibonacciHeap.h`, lines 147-624).
`minRef` models `min_node` as the id and priority of the pointed-to node
at the time of the assignment (see the module comment); `nextId` models
the allocator handing out fresh addresses to `insert`. -/
structure Heap where
  roots : List Node
  minRef : Option (Nat × Int)
  size : Nat
  nextId : Nat

/-- A default-constructed `FibonacciHeap` (empty collection).  The
parameter is the model's allocator state: the first id `insert` will
hand out. -/
def emptyHeap (n : Nat) : Heap :=
  { roots := [], minRef := none, size := 0, nextId := n }

/-- `FibonacciHeap::insert` (`src/FibonacciHeap.h`, lines 189-212):
append a fresh singleton to the root list, update `min_node` when it is
null or its priority exceeds the new one, and bump the size. -/
def insertOp (h : Heap) (v : Nat) (p : Int) : Heap :=
  { roots := h.roots ++ [Node.mk h.nextId v p false 0 []]
    minRef := match h.minRef with
      | none => some (h.nextId, p)
      | some mr => if mr.2 > p then some (h.nextId, p) else some mr
    size := h.size + 1
    nextId := h.nextId + 1 }

/-- `FibonacciHeap::set_min` (`src/FibonacciHeap.h`, lines 338-347): null
the pointer, then scan the roots, updating to each root whose priority is
at most the current minimum's (so ties resolve to the last minimal root). -/
def setMinOp (h : Heap) : Heap :=
  { h with minRef := h.roots.foldl (fun acc r =>
      match acc with
      | none => some (r.id, r.priority)
      | some mr => if r.priority ≤ mr.2 then some (r.id, r.priority) else acc) none }

/-- `FibonacciHeap::rank_grow` (`src/FibonacciHeap.h`, lines 319-328):
called when `degree >= rank.size()`, it pushes
`degree - (rank.size() - 1)` null slots; both for a non-empty table and
(via the `size_t` wrap-around of `0 - 1`) for an empty one this grows the
table to exactly `degree + 1` slots. -/
def growRank (rank : List (Option Node)) (d : Nat) : List (Option Node) :=
  if rank.length ≤ d then rank ++ List.replicate (d + 1 - rank.length) none else rank

/-- The consolidation loop of `FibonacciHeap::consolidate_tree`
(`src/FibonacciHeap.h`, lines 242-317).  For the root at `idx`: grow the
table to cover its degree; if the slot for its degree is empty, register
it and advance; otherwise link the two same-degree roots — the root with
the smaller priority becomes the parent (ties favour the root at `idx`),
its degree is set to `absorbed.degree + 1` when its own degree is not
larger, the merged tree replaces the root at `idx`, the absorbed root's
old position (located by `std::find`, i.e. pointer identity) is erased,
the slot is cleared, and the index steps back to re-examine the merged
tree.  `std::find` is modelled by `List.findIdx` on the node's id
(pointer identity); when it fails it returns `roots.length`, i.e. the
iterator `roots.end()`, and `roots.erase(it)` is undefined behaviour,
modelled as `none`. -/
def consolidateGo (roots : List Node) (idx : Nat) (rank : List (Option Node)) :
    Option (List Node) :=
  if hidx : idx < roots.length then
    match ((growRank rank roots[idx].degree)[roots[idx].degree]?).getD none with
    | none => consolidateGo roots (idx + 1)
        ((growRank rank roots[idx].degree).set roots[idx].degree (some roots[idx]))
    | some s =>
      if hj : roots.findIdx (fun r => r.id == s.id) < roots.length then
        if s.priority < roots[idx].priority then
          consolidateGo
            ((roots.set idx (Node.mk s.id s.value s.priority s.marked
                (if s.degree ≤ roots[idx].degree then roots[idx].degree + 1 else s.degree)
                (s.children ++ [roots[idx]]))).eraseIdx
              (roots.findIdx (fun r => r.id == s.id)))
            (idx - 1) ((growRank rank roots[idx].degree).set roots[idx].degree none)
        else
          consolidateGo
            ((roots.set idx (Node.mk roots[idx].id roots[idx].value roots[idx].priority
                roots[idx].marked
                (if roots[idx].degree ≤ s.degree then s.degree + 1 else roots[idx].degree)
                (roots[idx].children ++ [s]))).eraseIdx
              (roots.findIdx (fun r => r.id == s.id)))
            (idx - 1) ((growRank rank roots[idx].degree).set roots[idx].degree none)
      else none
  else some roots
termination_by 2 * roots.length - idx
decreasing_by
  · simp_wf; omega
  · rw [List.length_eraseIdx_of_lt (by simpa using hj)]; simp; omega
  · rw [List.length_eraseIdx_of_lt (by simpa using hj)]; simp; omega

/-- `FibonacciHeap::consolidate_tree`: run the loop from index `0`.  The
member table `rank` is all-null on entry (see the module comment), so the
model starts from an empty local table; `clear_rank` at the end only
nulls the slots and needs no modelling. -/
def consolidate (roots : List Node) : Option (List Node) :=
  consolidateGo roots 0 []

mutual

/-- Locate the node with id `i` in a tree and erase its child list
(`min_node->children.clear()` after the meld), returning the updated tree
and the erased children. -/
def clearChildrenTree (i : Nat) : Node → Option (Node × List Node)
  | .mk j v p m d cs =>
    if j = i then some (.mk j v p m d [], cs)
    else
      match clearChildrenList i cs with
      | some (cs', out) => some (.mk j v p m d cs', out)
      | none => none

/-- Forest version of `clearChildrenTree`: first tree containing the id
wins; `none` when the id is absent (a dangling pointer). -/
def clearChildrenList (i : Nat) : List Node → Option (List Node × List Node)
  | [] => none
  | n :: rest =>
    match clearChildrenTree i n with
    | some (n', out) => some (n' :: rest, out)
    | none =>
      match clearChildrenList i rest with
      | some (rest', out) => some (n :: rest', out)
      | none => none

end

mutual

/-- Find the node with id `i` in a tree (pointer dereference by id). -/
def findByIdTree (i : Nat) : Node → Option Node
  | .mk j v p m d cs =>
    if j = i then some (.mk j v p m d cs) else findByIdList i cs

/-- Find the node with id `i` in a forest. -/
def findByIdList (i : Nat) : List Node → Option Node
  | [] => none
  | n :: rest =>
    match findByIdTree i n with
    | some x => some x
    | none => findByIdList i rest

end

/-- `FibonacciHeap::delete_min` (`src/FibonacciHeap.h`, lines 214-240):
a no-op on a null `min_node`; otherwise meld the minimum node's children
into the root list (marks are NOT cleared), clear its child list, erase
the node from the root list by pointer identity (`std::find` — if the
pointed-to node is not a root this is `erase(end())`, undefined
behaviour, modelled as `none`), decrement the size, recompute `min_node`
with `set_min`, and consolidate. -/
def deleteMin (h : Heap) : Option Heap :=
  match h.minRef with
  | none => some h
  | some mr =>
    match clearChildrenList mr.1 h.roots with
    | none => none
    | some (forest1, kids) =>
      let roots1 := forest1 ++ kids
      match roots1.findIdx? (fun r => r.id == mr.1) with
      | none => none
      | some j =>
        let h1 := setMinOp { h with roots := roots1.eraseIdx j, size := h.size - 1 }
        match consolidate h1.roots with
        | none => none
        | some roots2 => some { h1 with roots := roots2 }

/-- `FibonacciHeap::extract_min` (`src/FibonacciHeap.h`, lines 558-569):
capture `min_node`, run `delete_min`, and return the captured node — the
model returns its observable `(value, priority)` (the child list has just
been cleared).  The first component is `none` exactly when `min_node`
was null. -/
def extractMin (h : Heap) : Option (Nat × Int) × Option Heap :=
  (match h.minRef with
   | none => none
   | some mr => (findByIdList mr.1 h.roots).map fun n => (n.value, n.priority),
   deleteMin h)

/-- `FibonacciHeap::change_priority` (`src/FibonacciHeap.h`, lines
376-441): locate the node by `(key, old_priority)`; if absent, return
with the heap untouched.  Otherwise overwrite its priority, run the
decrease cut-loop when the priority dropped or the child scan when it
rose, and finally recompute `min_node` with `set_min`.
The body once `find` has located the node is `changePriorityFound`: the
node `n` at root index `ri` with ancestor stack `spine` has its priority
overwritten with `newP`; the decrease cut-loop runs when the priority
dropped, the child scan when it rose, and `set_min` runs at the end. -/
def changePriorityFound (h : Heap) (ri : Nat) (n : Node) (spine : List Ctx)
    (oldP newP : Int) : Heap :=
  if newP < oldP then
    (fun r => setMinOp { h with roots := (h.roots.set ri (plug r.1 r.2.1)) ++ r.2.2 })
      (decreaseLoop (Node.mk n.id n.value newP n.marked n.degree n.children) spine [])
  else if oldP < newP then
    (fun r => setMinOp { h with roots := (h.roots.set ri r.1) ++ r.2 })
      (increaseInTree n.id n.value newP n.marked n.degree [] n.children spine [])
  else
    setMinOp
      { h with
        roots := h.roots.set ri
          (plug (Node.mk n.id n.value newP n.marked n.degree n.children) spine) }

def changePriority (h : Heap) (key : Nat) (oldP newP : Int) : Heap :=
  match findPath h.roots key oldP with
  | none => h
  | some (ri, n, spine) => changePriorityFound h ri n spine oldP newP

/-- `FibonacciHeap::operator+` (`src/FibonacciHeap.h`, lines 580-601):
copy the left heap, keep the smaller of the two cached minimums, and
append the right heap's roots.  Both `min_node` pointers are dereferenced
unconditionally, so either operand being empty is undefined behaviour
(`none`).  Note the sizes are NOT summed: the result keeps `a.size`. -/
def heapAdd (a b : Heap) : Option Heap :=
  match b.minRef with
  | none => none
  | some bm =>
    match a.minRef with
    | none => none
    | some am =>
      some { roots := a.roots ++ b.roots
             minRef := if bm.2 < am.2 then some bm else some am
             size := a.size
             nextId := max a.nextId b.nextId }

/-- `FibonacciHeap::operator+=` (`src/FibonacciHeap.h`, lines 603-623):
identical to `operator+` but mutating the left heap in place; it has the
same null dereferences and the same missing size update. -/
def heapAddAssign (a b : Heap) : Option Heap :=
  match b.minRef with
  | none => none
  | some bm =>
    match a.minRef with
    | none => none
    | some am =>
      some { roots := a.roots ++ b.roots
             minRef := if bm.2 < am.2 then some bm else some am
             size := a.size
             nextId := max a.nextId b.nextId }

/-- The heap states reachable through the public interface, starting from
a default-constructed heap (with an arbitrary allocator state `n`).
`extract_min` changes the state exactly as `delete_min` and is covered by
that case; `delete(key, pri)` is `change_priority` to a very low priority
followed by `extract_min`, so it is covered by composition.  The union
cases carry the hypothesis that the two operand heaps use disjoint node
ids, which models the C++ guarantee that separately allocated nodes have
distinct addresses. -/
inductive Reachable : Heap → Prop where
  | empty (n : Nat) : Reachable (emptyHeap n)
  | insert {h} (v : Nat) (p : Int) : Reachable h → Reachable (insertOp h v p)
  | deleteMin {h h'} : Reachable h → deleteMin h = some h' → Reachable h'
  | changePriority {h} (k : Nat) (oldP newP : Int) :
      Reachable h → Reachable (changePriority h k oldP newP)
  | union {a b c} : Reachable a → Reachable b →
      List.Disjoint (forestIds a.roots) (forestIds b.roots) →
      heapAdd a b = some c → Reachable c
  | unionAssign {a b c} : Reachable a → Reachable b →
      List.Disjoint (forestIds a.roots) (forestIds b.roots) →
      heapAddAssign a b = some c → Reachable c

/-! ## Basic lemmas about the tree predicates -/

theorem Ordered_mk {i v : Nat} {p : Int} {m : Bool} {d : Nat} {cs : List Node} :
    Ordered (.mk i v p m d cs) ↔ ∀ c ∈ cs, p ≤ c.priority ∧ Ordered c := by
  rw [Ordered, orderedB]
  simp [List.all_eq_true, Ordered]

theorem DegOk_mk {i v : Nat} {p : Int} {m : Bool} {d : Nat} {cs : List Node} :
    DegOk (.mk i v p m d cs) ↔ d = computeDeg cs ∧ ∀ c ∈ cs, DegOk c := by
  rw [DegOk, degOkB]
  simp [List.all_eq_true, DegOk]

theorem nodeIds_mk {i v : Nat} {p : Int} {m : Bool} {d : Nat} {cs : List Node} :
    nodeIds (.mk i v p m d cs) = i :: (cs.map nodeIds).flatten := by
  rw [nodeIds]
  congr 1
  rw [← List.attach_map_val cs (fun c => nodeIds c)]

theorem nodePris_mk {i v : Nat} {p : Int} {m : Bool} {d : Nat} {cs : List Node} :
    nodePris (.mk i v p m d cs) = (i, p) :: (cs.map nodePris).flatten := by
  rw [nodePris]
  congr 1
  rw [← List.attach_map_val cs (fun c => nodePris c)]

theorem computeDeg_append_singleton (cs : List Node) (c : Node) :
    computeDeg (cs ++ [c]) =
      if computeDeg cs ≤ c.degree then c.degree + 1 else computeDeg cs := by
  simp [computeDeg, List.foldl_append]

/-- `computeDeg` only reads the children's degree fields. -/
theorem computeDeg_eq_of_map_degree_eq {cs cs' : List Node}
    (h : cs.map Node.degree = cs'.map Node.degree) : computeDeg cs = computeDeg cs' := by
  have key : ∀ l : List Node, computeDeg l =
      (l.map Node.degree).foldl (fun d x => if d ≤ x then x + 1 else d) 0 := by
    intro l
    rw [computeDeg, List.foldl_map]
  rw [key, key, h]

/-- `Ordered` ignores the id, value, mark and degree fields at the root. -/
theorem Ordered_mk_iff_mk {i i' v v' : Nat} {p : Int} {m m' : Bool} {d d' : Nat}
    {cs : List Node} :
    Ordered (.mk i v p m d cs) ↔ Ordered (.mk i' v' p m' d' cs) := by
  rw [Ordered_mk, Ordered_mk]

/-! ## Concrete heaps used in the claim checks

The well-founded-recursion definitions are made semireducible so that
ground facts about concrete heaps can be checked by kernel reduction. -/

unseal searchList consolidateGo markUtilSpine decreaseLoop increaseInTree
unseal orderedB degOkB nodeIds nodePris

/-- Three inserts (priorities 1, 4, 0). -/
def hA0 : Heap := insertOp (insertOp (insertOp (emptyHeap 0) 0 1) 1 4) 2 0

/-- The result of `delete_min` on `hA0`: one tree `(id 0, priority 1)` of
degree 1. -/
def hA : Heap := ⟨[.mk 0 0 1 false 1 [.mk 1 1 4 false 0 []]], some (0, 1), 2, 3⟩

theorem hA_eq : deleteMin hA0 = some hA := rfl

/-- Five inserts (priorities 1, 5, 6, 7, 0). -/
def hB0 : Heap :=
  insertOp (insertOp (insertOp (insertOp (insertOp (emptyHeap 10) 3 1) 4 5) 5 6) 6 7) 7 0

/-- The result of `delete_min` on `hB0`: one tree `(id 10, priority 1)` of
degree 2. -/
def hB : Heap :=
  ⟨[.mk 10 3 1 false 2 [.mk 11 4 5 false 0 [],
      .mk 12 5 6 false 1 [.mk 13 6 7 false 0 []]]], some (10, 1), 4, 15⟩

theorem hB_eq : deleteMin hB0 = some hB := rfl

/-- Three inserts (priorities 3, 9, 0). -/
def hC0 : Heap := insertOp (insertOp (insertOp (emptyHeap 20) 8 3) 9 9) 10 0

/-- The result of `delete_min` on `hC0`: one tree `(id 20, priority 3)` of
degree 1. -/
def hC : Heap :=
  ⟨[.mk 20 8 3 false 1 [.mk 21 9 9 false 0 []]], some (20, 3), 2, 23⟩

theorem hC_eq : deleteMin hC0 = some hC := rfl

/-- A singleton heap `(id 30, priority 0)`. -/
def hD : Heap := insertOp (emptyHeap 30) 11 0

/-- `hA += hB`. -/
def hAB : Heap :=
  ⟨[.mk 0 0 1 false 1 [.mk 1 1 4 false 0 []],
    .mk 10 3 1 false 2 [.mk 11 4 5 false 0 [],
      .mk 12 5 6 false 1 [.mk 13 6 7 false 0 []]]], some (0, 1), 2, 15⟩

theorem hAB_eq : heapAddAssign hA hB = some hAB := rfl

/-- `hA += hB += hC`. -/
def hABC : Heap :=
  ⟨[.mk 0 0 1 false 1 [.mk 1 1 4 false 0 []],
    .mk 10 3 1 false 2 [.mk 11 4 5 false 0 [],
      .mk 12 5 6 false 1 [.mk 13 6 7 false 0 []]],
    .mk 20 8 3 false 1 [.mk 21 9 9 false 0 []]], some (0, 1), 2, 23⟩

theorem hABC_eq : heapAddAssign hAB hC = some hABC := rfl

/-- `hA += hB += hC += hD`: nine elements, roots of degrees 1, 2, 1, 0 with
priorities 1, 1, 3, 0, and cached minimum `(30, 0)`.  (Its `size` field is
2, exhibiting the `operator+=` size bug, but all nine nodes are present.)  -/
def unionHeap : Heap :=
  ⟨[.mk 0 0 1 false 1 [.mk 1 1 4 false 0 []],
    .mk 10 3 1 false 2 [.mk 11 4 5 false 0 [],
      .mk 12 5 6 false 1 [.mk 13 6 7 false 0 []]],
    .mk 20 8 3 false 1 [.mk 21 9 9 false 0 []],
    .mk 30 11 0 false 0 []], some (30, 0), 2, 31⟩

theorem unionHeap_eq : heapAddAssign hABC hD = some unionHeap := rfl

/-- `delete_min` on `unionHeap`: the two tied roots of priority 1 collide
during consolidation; the later one (id 10) is the cached minimum, ends up
registered in the degree table, and is absorbed as a child of the root
id 0 by the tie-breaking rule, leaving `min_node` pointing at a non-root. -/
def badHeap : Heap :=
  ⟨[.mk 0 0 1 false 3 [.mk 1 1 4 false 0 [],
      .mk 20 8 3 false 1 [.mk 21 9 9 false 0 []],
      .mk 10 3 1 false 2 [.mk 11 4 5 false 0 [],
        .mk 12 5 6 false 1 [.mk 13 6 7 false 0 []]]]], some (10, 1), 1, 31⟩

theorem badHeap_eq : deleteMin unionHeap = some badHeap := rfl

theorem reachable_hA : Reachable hA :=
  .deleteMin (.insert 2 0 (.insert 1 4 (.insert 0 1 (.empty 0)))) hA_eq

theorem reachable_hB : Reachable hB :=
  .deleteMin (.insert 7 0 (.insert 6 7 (.insert 5 6 (.insert 4 5 (.insert 3 1
    (.empty 10)))))) hB_eq

theorem reachable_hC : Reachable hC :=
  .deleteMin (.insert 10 0 (.insert 9 9 (.insert 8 3 (.empty 20)))) hC_eq

theorem reachable_hD : Reachable hD := .insert 11 0 (.empty 30)

theorem reachable_unionHeap : Reachable unionHeap :=
  .unionAssign
    (.unionAssign
      (.unionAssign reachable_hA reachable_hB (List.disjoint_left.mpr (by decide)) hAB_eq)
      reachable_hC (List.disjoint_left.mpr (by decide)) hABC_eq)
    reachable_hD (List.disjoint_left.mpr (by decide)) unionHeap_eq

theorem reachable_badHeap : Reachable badHeap :=
  .deleteMin reachable_unionHeap badHeap_eq

/-- Five inserts (priorities 1, 5, 6, 7, 0). -/
def hG0 : Heap :=
  insertOp (insertOp (insertOp (insertOp (insertOp (emptyHeap 0) 0 1) 1 5) 2 6) 3 7) 4 0

/-- The result of `delete_min` on `hG0`: one tree `(id 0, priority 1)` of
degree 2 whose children are `(id 1, priority 5)` and `(id 2, priority 6)`
with child `(id 3, priority 7)`. -/
def hG1 : Heap :=
  ⟨[.mk 0 0 1 false 2 [.mk 1 1 5 false 0 [],
      .mk 2 2 6 false 1 [.mk 3 3 7 false 0 []]]], some (0, 1), 4, 5⟩

theorem hG1_eq : deleteMin hG0 = some hG1 := rfl

/-- `change_priority(3, 7, 0)` on `hG1`: the grandchild id 3 is cut to the
root list, `set_degree` recomputes the degree of id 0 as a height (1)
although it still has two children, and id 2 is marked. -/
def c5Heap : Heap :=
  ⟨[.mk 0 0 1 false 1 [.mk 1 1 5 false 0 [], .mk 2 2 6 true 0 []],
    .mk 3 3 0 false 0 []], some (3, 0), 4, 5⟩

theorem c5Heap_eq : changePriority hG1 3 7 0 = c5Heap := rfl

/-- Insert `(id 5, priority 4)` into `c5Heap`. -/
def hG2 : Heap :=
  ⟨[.mk 0 0 1 false 1 [.mk 1 1 5 false 0 [], .mk 2 2 6 true 0 []],
    .mk 3 3 0 false 0 [], .mk 5 5 4 false 0 []], some (3, 0), 5, 6⟩

theorem hG2_eq : insertOp c5Heap 5 4 = hG2 := rfl

/-- `delete_min` on `hG2` removes the root id 3 (priority 0). -/
def hG3 : Heap :=
  ⟨[.mk 0 0 1 false 1 [.mk 1 1 5 false 0 [], .mk 2 2 6 true 0 []],
    .mk 5 5 4 false 0 []], some (0, 1), 4, 6⟩

theorem hG3_eq : deleteMin hG2 = some hG3 := rfl

/-- `delete_min` on `hG3` removes the root id 0 (priority 1) and melds its
children — including the still-marked id 2 — into the root list;
consolidation leaves id 2 as a marked root. -/
def c7Heap : Heap :=
  ⟨[.mk 5 5 4 false 1 [.mk 1 1 5 false 0 []], .mk 2 2 6 true 0 []],
    some (5, 4), 3, 6⟩

theorem c7Heap_eq : deleteMin hG3 = some c7Heap := rfl

theorem reachable_hG1 : Reachable hG1 :=
  .deleteMin (.insert 4 0 (.insert 3 7 (.insert 2 6 (.insert 1 5 (.insert 0 1
    (.empty 0)))))) hG1_eq

theorem reachable_c5Heap : Reachable c5Heap :=
  c5Heap_eq ▸ Reachable.changePriority 3 7 0 reachable_hG1

theorem reachable_c7Heap : Reachable c7Heap :=
  .deleteMin (.deleteMin (hG2_eq ▸ Reachable.insert 5 4 reachable_c5Heap) hG3_eq) c7Heap_eq

/-- The one-element heap `(value 5, priority 7)`, used by the C9 checks. -/
def exH9 : Heap := insertOp (emptyHeap 0) 5 7

/-- The one-element heap `(value 0, priority 2)`, used by the C4/C10 checks. -/
def exHeapA : Heap := insertOp (emptyHeap 0) 0 2

/-- The one-element heap `(value 1, priority 1)`, used by the C4/C10 checks. -/
def exHeapB : Heap := insertOp (emptyHeap 10) 1 1

/-! ## Claim theorems: error handling and union (C4, C9, C10) -/

/-- **C4, counterexample-style code-bug witness**: the claim says
`union(a,b).size() == a.size() + b.size()` for `operator+` and
`operator+=`.  The code never adds the right operand's size: for the
one-element heaps `exHeapA` and `exHeapB` both unions report size `1`,
not `2`. -/
theorem c4_union_size_not_summed :
    exHeapA.size = 1 ∧ exHeapB.size = 1 ∧
    (heapAdd exHeapA exHeapB).map Heap.size = some 1 ∧
    (heapAddAssign exHeapA exHeapB).map Heap.size = some 1 :=
  ⟨rfl, rfl, rfl, rfl⟩

/-- **C10, code-bug witness**: the claim says `operator+`/`operator+=`
are well-defined for empty operands and never dereference an absent
cached minimum.  Both operators dereference `min_node->priority` of both
operands unconditionally, so every union with an empty operand is a null
dereference (undefined behaviour, modelled as `none`). -/
theorem c10_union_empty_heap_ub :
    heapAdd exHeapA (emptyHeap 10) = none ∧
    heapAdd (emptyHeap 0) exHeapB = none ∧
    heapAddAssign exHeapA (emptyHeap 10) = none ∧
    heapAddAssign (emptyHeap 0) (emptyHeap 10) = none :=
  ⟨rfl, rfl, rfl, rfl⟩

/-- **C9 (amended)**: when `change_priority` is called with a
`(key, old_priority)` pair matching no live node, the heap is left
completely unchanged — same roots, same size, same cached minimum.  (The
not-found outcome is however not reported to the caller: the member
function returns `void`; see `c9_counterexample`.) -/
theorem c9_not_found_heap_unchanged (h : Heap) (key : Nat) (oldP newP : Int)
    (hfind : findPath h.roots key oldP = none) :
    changePriority h key oldP newP = h := by
  unfold changePriority
  rw [hfind]

/-- Witness for `c9_not_found_heap_unchanged`: the heap `exH9` holds only
`(value 5, priority 7)`, so looking up `(6, 3)` fails and
`change_priority` leaves the heap unchanged. -/
theorem c9_not_found_heap_unchanged_witness :
    findPath exH9.roots 6 3 = none ∧ changePriority exH9 6 3 4 = exH9 :=
  ⟨rfl, c9_not_found_heap_unchanged exH9 6 3 4 rfl⟩

/-- **C9, counterexample** to the reporting half of the claim: the claim
says the not-found outcome is "reported to the caller".  The C++ function
returns `void` and writes nothing else a caller could observe, so its
only caller-visible outcome is the heap state: a successful no-op call
(`(5, 7)` is present) and a not-found call (`(6, 3)` is absent) both
return exactly the unchanged heap and are indistinguishable to the
caller. -/
theorem c9_counterexample :
    changePriority exH9 5 7 7 = exH9 ∧ changePriority exH9 6 3 4 = exH9 :=
  ⟨rfl, rfl⟩

/-! ## Claim theorems: counterexamples from reachable heaps (C3, C5, C6, C7) -/

/-- **C3, counterexample**: `badHeap` is reachable (nine inserts, four
delete-mins and three unions), yet its cached minimum is `(id 10,
priority 1)` while its root list consists of the single tree with id 0:
`min_node` does not refer to a root of the root list.  (The tie between
the two roots of priority 1 makes `set_min` pick the later one, and
consolidation then absorbs it under the earlier one.) -/
theorem c3_counterexample :
    Reachable badHeap ∧ badHeap.minRef = some (10, 1) ∧
    badHeap.roots.map Node.id = [0] ∧ (10 : Nat) ∉ badHeap.roots.map Node.id :=
  ⟨reachable_badHeap, rfl, rfl, by decide⟩

/-- **C6, counterexample (code-bug witness)**: `unionHeap` is a reachable
heap with nine elements.  The first `extract_min` succeeds (removing
priority 0 and producing `badHeap`, whose cached minimum is a non-root,
see `c3_counterexample`); the second `extract_min` then fails to find
`min_node` in the root list and calls `roots.erase(roots.end())` —
undefined behaviour — instead of returning the remaining elements, so
extracting all nine elements does not yield them in sorted order. -/
theorem c6_counterexample :
    Reachable unionHeap ∧ (forestIds unionHeap.roots).length = 9 ∧
    deleteMin unionHeap = some badHeap ∧ (extractMin badHeap).2 = none :=
  ⟨reachable_unionHeap, rfl, badHeap_eq, rfl⟩

/-- **C5, counterexample**: `c5Heap` is reachable, and its first root
(id 0) has `degree = 1` but two direct children: after a cut,
`set_degree` recomputes the degree as `max(child.degree) + 1` — the
number of tree layers below the node (as the field's own comment in the
source says) — not the number of direct children. -/
theorem c5_counterexample :
    Reachable c5Heap ∧
    c5Heap.roots.map (fun r => (r.degree, r.children.length)) = [(1, 2), (0, 0)] :=
  ⟨reachable_c5Heap, rfl⟩

/-- **C7, counterexample**: `c7Heap` is reachable and its root list is
`[(id 5, unmarked), (id 2, marked)]` — a marked tree root.  `delete_min`
melds the minimum's children into the root list without clearing their
marks, and consolidation links trees without clearing the absorbed
root's mark, so "every tree root in the root list is unmarked" is false;
moreover the marked id 2 (a non-root child of id 5 after consolidation in
the follow-up states) has not lost a child since it last became a
non-root. -/
theorem c7_counterexample :
    Reachable c7Heap ∧
    c7Heap.roots.map (fun r => (r.id, r.marked)) = [(5, false), (2, true)] :=
  ⟨reachable_c7Heap, rfl⟩

/-! ## Toolkit: heap order through the zipper -/

/-- Re-rooting a node (changing id, value, mark or degree but keeping
priority and children) does not affect heap order. -/
theorem Ordered_remk {n : Node} {i' v' : Nat} {m' : Bool} {d' : Nat} :
    Ordered (.mk i' v' n.priority m' d' n.children) ↔ Ordered n := by
  cases n
  exact Ordered_mk_iff_mk

/-- The local heap-order facts of one ancestor level: the ancestor is at
most each of its other children, and those subtrees are ordered. -/
def ctxLocalOrd (c : Ctx) : Prop :=
  ∀ x ∈ c.pre ++ c.post, c.priority ≤ x.priority ∧ Ordered x

/-- Heap order of an ancestor stack, excluding the hole: each level is
locally ordered and each level's priority is at least the one above. -/
def spineOrdered : List Ctx → Prop
  | [] => True
  | c :: rest => ctxLocalOrd c ∧ spineOrdered rest ∧
      ∀ c2 ∈ rest.head?, c2.priority ≤ c.priority

theorem Ordered_fill {c : Ctx} {n : Node} :
    Ordered (c.fill n) ↔ ctxLocalOrd c ∧ c.priority ≤ n.priority ∧ Ordered n := by
  rw [Ctx.fill, Ordered_mk, ctxLocalOrd]
  constructor
  · intro h
    refine ⟨fun x hx => ?_, (h n (by simp)).1, (h n (by simp)).2⟩
    rcases List.mem_append.1 hx with hx | hx
    · exact h x (by simp [hx])
    · exact h x (by simp [hx])
  · intro ⟨hl, hpn, hn⟩ x hx
    rcases List.mem_append.1 hx with hx | hx
    · exact hl x (by simp [hx])
    · rcases List.mem_cons.1 hx with rfl | hx
      · exact ⟨hpn, hn⟩
      · exact hl x (by simp [hx])

theorem Ordered_dropHole {c : Ctx} : Ordered c.dropHole ↔ ctxLocalOrd c := by
  rw [Ctx.dropHole, Ordered_mk, ctxLocalOrd]

theorem dropHole_priority (c : Ctx) : c.dropHole.priority = c.priority := rfl

theorem fill_priority (c : Ctx) (n : Node) : (c.fill n).priority = c.priority := rfl

/-- Full decomposition of heap order of a plugged tree. -/
theorem Ordered_plug {spine : List Ctx} {n : Node} :
    Ordered (plug n spine) ↔
      Ordered n ∧ spineOrdered spine ∧ ∀ c ∈ spine.head?, c.priority ≤ n.priority := by
  induction spine generalizing n with
  | nil => simp [plug, spineOrdered]
  | cons c rest ih =>
    rw [plug, ih, Ordered_fill, spineOrdered]
    cases rest with
    | nil => simp [spineOrdered]; tauto
    | cons c2 rest2 => simp [fill_priority]; tauto

theorem head_pri_setDegreeCtxs (ch : Node) (spine : List Ctx) :
    (setDegreeCtxs ch spine).head?.map Ctx.priority = spine.head?.map Ctx.priority := by
  cases spine with
  | nil => rfl
  | cons c rest =>
    rw [setDegreeCtxs]
    by_cases hd : computeDeg (c.pre ++ ch :: c.post) = c.degree <;> simp [hd]

theorem head_pri_cond_iff {o o' : Option Ctx}
    (h : o.map Ctx.priority = o'.map Ctx.priority) (q : Int) :
    (∀ c ∈ o, c.priority ≤ q) ↔ (∀ c ∈ o', c.priority ≤ q) := by
  cases o <;> cases o' <;> simp_all

theorem spineOrdered_setDegreeCtxs (ch : Node) (spine : List Ctx) :
    spineOrdered (setDegreeCtxs ch spine) ↔ spineOrdered spine := by
  induction spine generalizing ch with
  | nil => rfl
  | cons c rest ih =>
    rw [setDegreeCtxs]
    by_cases hd : computeDeg (c.pre ++ ch :: c.post) = c.degree
    · simp [hd]
    · simp only [hd, if_false, spineOrdered]
      rw [ih, head_pri_cond_iff (head_pri_setDegreeCtxs _ rest) c.priority]
      exact Iff.rfl


theorem setDegreeFull_fst (n : Node) (spine : List Ctx) :
    (setDegreeFull n spine).1 =
      Node.mk n.id n.value n.priority n.marked (computeDeg n.children) n.children := rfl

theorem setDegreeFull_snd_headPri (n : Node) (spine : List Ctx) :
    (setDegreeFull n spine).2.head?.map Ctx.priority = spine.head?.map Ctx.priority := by
  rw [setDegreeFull]
  by_cases hd : computeDeg n.children = n.degree <;> simp [hd, head_pri_setDegreeCtxs]

theorem setDegreeFull_snd_spineOrdered (n : Node) (spine : List Ctx) :
    spineOrdered (setDegreeFull n spine).2 ↔ spineOrdered spine := by
  rw [setDegreeFull]
  by_cases hd : computeDeg n.children = n.degree <;> simp [hd, spineOrdered_setDegreeCtxs]

theorem Ordered_setDegreeFull_fst {n : Node} {spine : List Ctx} :
    Ordered (setDegreeFull n spine).1 ↔ Ordered n := by
  rw [setDegreeFull_fst]
  exact Ordered_remk

/-- `mark_utility` preserves heap order: the remaining tree is ordered and
every subtree it pushes to the root list is ordered. -/
theorem markUtil_ordered (n : Node) (spine : List Ctx) (acc : List Node)
    (hn : Ordered n) (hs : spineOrdered spine)
    (hl : ∀ c ∈ spine.head?, c.priority ≤ n.priority)
    (ha : ∀ r ∈ acc, Ordered r) :
    Ordered (plug (markUtilSpine n spine acc).1 (markUtilSpine n spine acc).2.1) ∧
      ∀ r ∈ (markUtilSpine n spine acc).2.2, Ordered r := by
  revert hn hs hl ha
  induction n, spine, acc using markUtilSpine.induct with
  | case1 n acc =>
    intro hn _ _ ha
    rw [markUtilSpine]
    exact ⟨by simpa [plug] using hn, ha⟩
  | case2 n acc ctx rest hm =>
    intro hn hs hl ha
    rw [markUtilSpine, if_pos hm]
    refine ⟨Ordered_plug.2 ⟨?_, hs, ?_⟩, ha⟩
    · exact (Ordered_remk (n := n)).2 hn
    · exact hl
  | case3 n acc ctx rest hm cut pr ih =>
    intro hn hs hl ha
    rw [markUtilSpine, if_neg hm]
    obtain ⟨hloc, hrest, hchain⟩ := hs
    refine ih ?_ ?_ ?_ ?_
    · exact Ordered_setDegreeFull_fst.2 (Ordered_dropHole.2 hloc)
    · exact (setDegreeFull_snd_spineOrdered _ _).2 hrest
    · rw [head_pri_cond_iff (setDegreeFull_snd_headPri _ _) _]
      exact hchain
    · intro r hr
      rcases List.mem_append.1 hr with hr | hr
      · exact ha r hr
      · rcases List.mem_singleton.1 hr with rfl
        exact (Ordered_remk (n := n)).2 hn

/-- The decrease-branch cut loop preserves heap order.  No relation is
assumed between the current node and its parent: the loop's own test
provides it on the no-cut path. -/
theorem decreaseLoop_ordered (curr : Node) (spine : List Ctx) (acc : List Node)
    (hn : Ordered curr) (hs : spineOrdered spine) (ha : ∀ r ∈ acc, Ordered r) :
    Ordered (plug (decreaseLoop curr spine acc).1 (decreaseLoop curr spine acc).2.1) ∧
      ∀ r ∈ (decreaseLoop curr spine acc).2.2, Ordered r := by
  revert hn hs ha
  induction curr, spine, acc using decreaseLoop.induct with
  | case1 curr acc =>
    intro hn _ ha
    rw [decreaseLoop]
    exact ⟨by simpa [plug] using hn, ha⟩
  | case2 curr acc ctx hlt =>
    intro hn hs ha
    rw [decreaseLoop, if_pos hlt]
    obtain ⟨hloc, -, -⟩ := hs
    refine ⟨by simpa [plug] using Ordered_setDegreeFull_fst.2 (Ordered_dropHole.2 hloc), ?_⟩
    intro r hr
    rcases List.mem_append.1 hr with hr | hr
    · exact ha r hr
    · rcases List.mem_singleton.1 hr with rfl
      exact (Ordered_remk (n := curr)).2 hn
  | case3 curr acc ctx hlt =>
    intro hn hs ha
    rw [decreaseLoop, if_neg hlt]
    refine ⟨Ordered_plug.2 ⟨hn, hs, ?_⟩, ha⟩
    simpa using le_of_not_lt hlt
  | case4 curr acc ctx c2 rest2 hlt cut pr hm ih =>
    intro hn hs ha
    rw [decreaseLoop, if_pos hlt, if_pos hm]
    obtain ⟨hloc, hrest, hchain⟩ := hs
    apply ih
    · exact (Ordered_remk (n := pr.1)).2 (Ordered_setDegreeFull_fst.2 (Ordered_dropHole.2 hloc))
    · exact (setDegreeFull_snd_spineOrdered _ _).2 hrest
    · intro r hr
      rcases List.mem_append.1 hr with hr | hr
      · exact ha r hr
      · rcases List.mem_singleton.1 hr with rfl
        exact (Ordered_remk (n := curr)).2 hn
  | case5 curr acc ctx c2 rest2 hlt pr hm =>
    intro hn hs ha
    rw [decreaseLoop, if_pos hlt, if_neg hm]
    obtain ⟨hloc, hrest, hchain⟩ := hs
    apply markUtil_ordered
    · exact Ordered_setDegreeFull_fst.2 (Ordered_dropHole.2 hloc)
    · exact (setDegreeFull_snd_spineOrdered _ _).2 hrest
    · rw [head_pri_cond_iff (setDegreeFull_snd_headPri _ _)]
      simpa using hchain
    · intro r hr
      rcases List.mem_append.1 hr with hr | hr
      · exact ha r hr
      · rcases List.mem_singleton.1 hr with rfl
        exact (Ordered_remk (n := curr)).2 hn
  | case6 curr acc ctx c2 rest2 hlt =>
    intro hn hs ha
    rw [decreaseLoop, if_neg hlt]
    refine ⟨Ordered_plug.2 ⟨hn, hs, ?_⟩, ha⟩
    simpa using le_of_not_lt hlt

theorem plug_append (n : Node) (s1 s2 : List Ctx) :
    plug n (s1 ++ s2) = plug (plug n s1) s2 := by
  induction s1 generalizing n with
  | nil => rfl
  | cons c rest ih => rw [List.cons_append, plug, plug, ih]

/-- The increase-branch child scan after the node has become a root
preserves heap order. -/
theorem increaseRooted_ordered (i v : Nat) (p : Int) (m : Bool) (d : Nat)
    (kept todo accPost : List Node)
    (hk : ∀ c ∈ kept, p ≤ c.priority ∧ Ordered c) (ht : ∀ c ∈ todo, Ordered c)
    (ha : ∀ r ∈ accPost, Ordered r) :
    Ordered (increaseRooted i v p m d kept todo accPost).1 ∧
      ∀ r ∈ (increaseRooted i v p m d kept todo accPost).2, Ordered r := by
  induction todo generalizing d kept accPost with
  | nil =>
    rw [increaseRooted]
    exact ⟨Ordered_mk.2 hk, ha⟩
  | cons c rest ih =>
    rw [increaseRooted]
    by_cases hc : c.priority < p
    · rw [if_pos hc]
      refine ih _ _ _ hk (fun x hx => ht x (by simp [hx])) ?_
      intro r hr
      rcases List.mem_append.1 hr with hr | hr
      · exact ha r hr
      · rcases List.mem_singleton.1 hr with rfl
        exact (Ordered_remk (n := c)).2 (ht c (by simp))
    · rw [if_neg hc]
      refine ih _ _ _ ?_ (fun x hx => ht x (by simp [hx])) ha
      intro x hx
      rcases List.mem_append.1 hx with hx | hx
      · exact hk x hx
      · rcases List.mem_singleton.1 hx with rfl
        exact ⟨le_of_not_lt hc, ht x (by simp)⟩

theorem spineOrdered_ite {d' d : Nat} {spine : List Ctx} {curr' : Node}
    (hs : spineOrdered spine) :
    spineOrdered (if d' = d then spine else setDegreeCtxs curr' spine) := by
  by_cases h : d' = d <;> simp [h, spineOrdered_setDegreeCtxs, hs]

theorem headPri_ite {d' d : Nat} {spine : List Ctx} {curr' : Node} :
    (if d' = d then spine else setDegreeCtxs curr' spine).head?.map Ctx.priority =
      spine.head?.map Ctx.priority := by
  by_cases h : d' = d <;> simp [h, head_pri_setDegreeCtxs]

/-- Zeta-expanded unfolding of the `c :: rest` case of `increaseInTree`,
convenient for case analyses. -/
theorem increaseInTree_cons_eq (i v : Nat) (p : Int) (m : Bool) (d : Nat)
    (kept : List Node) (c : Node) (rest : List Node) (spine : List Ctx)
    (acc : List Node) :
    increaseInTree i v p m d kept (c :: rest) spine acc =
      if c.priority < p then
        match (if computeDeg (kept ++ rest) = d then spine
            else setDegreeCtxs (Node.mk i v p m (computeDeg (kept ++ rest))
              (kept ++ rest)) spine) with
        | [] => increaseInTree i v p m (computeDeg (kept ++ rest)) kept rest []
            (acc ++ [Node.mk c.id c.value c.priority false c.degree c.children])
        | ctx1 :: rest1 =>
          if m = false then
            increaseInTree i v p true (computeDeg (kept ++ rest)) kept rest
              (ctx1 :: rest1)
              (acc ++ [Node.mk c.id c.value c.priority false c.degree c.children])
          else
            (plug (markUtilSpine (setDegreeFull ctx1.dropHole rest1).1
                    (setDegreeFull ctx1.dropHole rest1).2 []).1
                  (markUtilSpine (setDegreeFull ctx1.dropHole rest1).1
                    (setDegreeFull ctx1.dropHole rest1).2 []).2.1,
              acc ++ [Node.mk c.id c.value c.priority false c.degree c.children]
                ++ [(increaseRooted i v p false (computeDeg (kept ++ rest)) kept rest []).1]
                ++ (markUtilSpine (setDegreeFull ctx1.dropHole rest1).1
                    (setDegreeFull ctx1.dropHole rest1).2 []).2.2
                ++ (increaseRooted i v p false (computeDeg (kept ++ rest)) kept rest []).2)
      else increaseInTree i v p m d (kept ++ [c]) rest spine acc := rfl

/-- The increase-branch child scan preserves heap order, including the
case in which `mark_utility` cuts the scanned node itself. -/
theorem increaseInTree_ordered (i v : Nat) (p : Int) (m : Bool) (d : Nat)
    (kept todo : List Node) (spine : List Ctx) (acc : List Node)
    (hk : ∀ c ∈ kept, p ≤ c.priority ∧ Ordered c) (ht : ∀ c ∈ todo, Ordered c)
    (hs : spineOrdered spine) (hl : ∀ c ∈ spine.head?, c.priority ≤ p)
    (ha : ∀ r ∈ acc, Ordered r) :
    Ordered (increaseInTree i v p m d kept todo spine acc).1 ∧
      ∀ r ∈ (increaseInTree i v p m d kept todo spine acc).2, Ordered r := by
  induction todo generalizing m d kept spine acc with
  | nil =>
    rw [increaseInTree]
    exact ⟨Ordered_plug.2 ⟨Ordered_mk.2 hk, hs, hl⟩, ha⟩
  | cons c rest ih =>
    rw [increaseInTree_cons_eq]
    by_cases hc : c.priority < p
    · rw [if_pos hc]
      have hcut : Ordered (Node.mk c.id c.value c.priority false c.degree c.children) :=
        (Ordered_remk (n := c)).2 (ht c (by simp))
      have hacc : ∀ r ∈ acc ++ [Node.mk c.id c.value c.priority false c.degree c.children],
          Ordered r := by
        intro r hr
        rcases List.mem_append.1 hr with hr | hr
        · exact ha r hr
        · rcases List.mem_singleton.1 hr with rfl
          exact hcut
      have hrest : ∀ x ∈ rest, Ordered x := fun x hx => ht x (by simp [hx])
      rcases hsp : (if computeDeg (kept ++ rest) = d then spine
          else setDegreeCtxs (Node.mk i v p m (computeDeg (kept ++ rest))
            (kept ++ rest)) spine) with _ | ⟨ctx1, rest1⟩
      · exact ih m _ kept [] _ hk hrest trivial (by simp) hacc
      · have hso1 : spineOrdered (ctx1 :: rest1) := hsp ▸ spineOrdered_ite hs
        have hhp1 : (ctx1 :: rest1).head?.map Ctx.priority = spine.head?.map Ctx.priority :=
          hsp ▸ headPri_ite
        have hl1 : ∀ c2 ∈ (ctx1 :: rest1).head?, c2.priority ≤ p :=
          (head_pri_cond_iff hhp1 p).2 hl
        by_cases hm : m = false
        · subst hm
          exact ih true _ kept (ctx1 :: rest1) _ hk hrest hso1 hl1 hacc
        · have hmt : m = true := by cases m <;> simp_all
          subst hmt
          obtain ⟨hloc1, hrest1, hchain1⟩ := hso1
          have hmu := markUtil_ordered (setDegreeFull ctx1.dropHole rest1).1
            (setDegreeFull ctx1.dropHole rest1).2 []
            (Ordered_setDegreeFull_fst.2 (Ordered_dropHole.2 hloc1))
            ((setDegreeFull_snd_spineOrdered _ _).2 hrest1)
            (by rw [head_pri_cond_iff (setDegreeFull_snd_headPri _ _)]; simpa using hchain1)
            (by simp)
          have hfin := increaseRooted_ordered i v p false (computeDeg (kept ++ rest))
            kept rest [] hk hrest (by simp)
          refine ⟨hmu.1, ?_⟩
          intro r hr
          have hr' : r ∈ acc ∨
              r = Node.mk c.id c.value c.priority false c.degree c.children ∨
              r = (increaseRooted i v p false (computeDeg (kept ++ rest)) kept rest []).1 ∨
              r ∈ (markUtilSpine (setDegreeFull ctx1.dropHole rest1).1
                    (setDegreeFull ctx1.dropHole rest1).2 []).2.2 ∨
              r ∈ (increaseRooted i v p false (computeDeg (kept ++ rest)) kept rest []).2 := by
            simpa [List.mem_append, List.mem_singleton, or_assoc] using hr
          rcases hr' with hr' | hr' | hr' | hr' | hr'
          · exact ha r hr'
          · subst hr'; exact hcut
          · subst hr'; exact hfin.1
          · exact hmu.2 r hr'
          · exact hfin.2 r hr'
    · rw [if_neg hc]
      refine ih m d _ spine acc ?_ (fun x hx => ht x (by simp [hx])) hs hl ha
      intro x hx
      rcases List.mem_append.1 hx with hx | hx
      · exact hk x hx
      · rcases List.mem_singleton.1 hx with rfl
        exact ⟨le_of_not_lt hc, ht x (by simp)⟩

/-- `search` returns a node together with a faithful decomposition of the
scanned node: plugging the hit back into its ancestor stack rebuilds the
node whose children were scanned, and the hit matches the search key. -/
theorem searchList_spec (key : Nat) (pri : Int) :
    ∀ i v : Nat, ∀ p : Int, ∀ m : Bool, ∀ d : Nat, ∀ pre todo : List Node,
      ∀ t : Node, ∀ spine : List Ctx,
        searchList key pri i v p m d pre todo = some (t, spine) →
          plug t spine = Node.mk i v p m d (pre ++ todo) ∧
            t.value = key ∧ t.priority = pri := by
  intro i v p m d pre todo
  induction i, v, p, m, d, pre, todo using searchList.induct key pri with
  | case1 i v p m d pre =>
    intro t spine h
    rw [searchList] at h
    exact absurd h (by simp)
  | case2 i v p m d pre c rest hhit =>
    intro t spine h
    rw [searchList, if_pos hhit] at h
    cases h
    exact ⟨rfl, hhit.1, hhit.2⟩
  | case3 i v p m d pre c rest hhit hpr ih =>
    intro t spine h
    rw [searchList, if_neg hhit, if_pos hpr] at h
    obtain ⟨h1, h2, h3⟩ := ih t spine h
    refine ⟨?_, h2, h3⟩
    rw [h1]
    simp
  | case4 i v p m d pre c rest hhit hpr hemp ih =>
    intro t spine h
    rw [searchList, if_neg hhit, if_neg hpr, if_pos hemp] at h
    obtain ⟨h1, h2, h3⟩ := ih t spine h
    refine ⟨?_, h2, h3⟩
    rw [h1]
    simp
  | case5 i v p m d pre c rest hhit hpr hemp t0 spine0 hrec ih =>
    intro t spine h
    rw [searchList, if_neg hhit, if_neg hpr, if_neg hemp, hrec] at h
    cases h
    obtain ⟨h1, h2, h3⟩ := ih t0 spine0 hrec
    refine ⟨?_, h2, h3⟩
    rw [plug_append, h1]
    simp only [List.nil_append]
    rw [Node.eta c]
    rfl
  | case6 i v p m d pre c rest hhit hpr hemp hrec ihInner ih =>
    intro t spine h
    rw [searchList, if_neg hhit, if_neg hpr, if_neg hemp, hrec] at h
    obtain ⟨h1, h2, h3⟩ := ih t spine h
    refine ⟨?_, h2, h3⟩
    rw [h1]
    simp

/-- `find` returns the index of the scanned root and a faithful
decomposition of it. -/
theorem findGo_spec (key : Nat) (pri : Int) :
    ∀ todo : List Node, ∀ idx ri : Nat, ∀ t : Node, ∀ spine : List Ctx,
      findGo key pri idx todo = some (ri, t, spine) →
        idx ≤ ri ∧ todo[ri - idx]? = some (plug t spine) ∧
          t.value = key ∧ t.priority = pri := by
  intro todo
  induction todo with
  | nil => intro idx ri t spine h; rw [findGo] at h; exact absurd h (by simp)
  | cons r rest ih =>
    intro idx ri t spine h
    rw [findGo] at h
    by_cases hhit : r.value = key ∧ r.priority = pri
    · rw [if_pos hhit] at h
      cases h
      exact ⟨le_rfl, by simp [plug], hhit.1, hhit.2⟩
    · rw [if_neg hhit] at h
      by_cases hpr : pri < r.priority
      · rw [if_pos hpr] at h
        obtain ⟨hle, hget, hv, hp⟩ := ih (idx + 1) ri t spine h
        refine ⟨by omega, ?_, hv, hp⟩
        have heq : ri - idx = (ri - (idx + 1)) + 1 := by omega
        rw [heq]
        simpa using hget
      · rw [if_neg hpr] at h
        by_cases hemp : r.children.isEmpty
        · rw [if_pos hemp] at h
          obtain ⟨hle, hget, hv, hp⟩ := ih (idx + 1) ri t spine h
          refine ⟨by omega, ?_, hv, hp⟩
          have heq : ri - idx = (ri - (idx + 1)) + 1 := by omega
          rw [heq]
          simpa using hget
        · rw [if_neg hemp] at h
          cases hrec : searchList key pri r.id r.value r.priority r.marked r.degree [] r.children with
          | some pr =>
            obtain ⟨t0, spine0⟩ := pr
            rw [hrec] at h
            cases h
            obtain ⟨h1, h2, h3⟩ := searchList_spec key pri _ _ _ _ _ _ _ _ _ hrec
            refine ⟨le_rfl, ?_, h2, h3⟩
            rw [h1]
            simp only [List.nil_append, Nat.sub_self]
            rw [Node.eta r]
            simp
          | none =>
            rw [hrec] at h
            obtain ⟨hle, hget, hv, hp⟩ := ih (idx + 1) ri t spine h
            refine ⟨by omega, ?_, hv, hp⟩
            have heq : ri - idx = (ri - (idx + 1)) + 1 := by omega
            rw [heq]
            simpa using hget

/-- `find` (`findPath`) returns a faithful decomposition of a root. -/
theorem findPath_spec {roots : List Node} {key : Nat} {pri : Int} {ri : Nat}
    {t : Node} {spine : List Ctx}
    (h : findPath roots key pri = some (ri, t, spine)) :
    roots[ri]? = some (plug t spine) ∧ t.value = key ∧ t.priority = pri := by
  obtain ⟨-, hget, hv, hp⟩ := findGo_spec key pri roots 0 ri t spine h
  exact ⟨by simpa using hget, hv, hp⟩
theorem setMinOp_roots (x : Heap) : (setMinOp x).roots = x.roots := rfl

theorem setMinOp_size (x : Heap) : (setMinOp x).size = x.size := rfl

/-- Unfoldings of the three branches of `changePriorityFound`. -/
theorem changePriorityFound_dec {h : Heap} {ri : Nat} {n : Node} {spine : List Ctx}
    {oldP newP : Int} (h1 : newP < oldP) :
    changePriorityFound h ri n spine oldP newP =
      (fun r => setMinOp { h with roots := (h.roots.set ri (plug r.1 r.2.1)) ++ r.2.2 })
        (decreaseLoop (Node.mk n.id n.value newP n.marked n.degree n.children) spine []) := by
  rw [changePriorityFound, if_pos h1]

theorem changePriorityFound_inc {h : Heap} {ri : Nat} {n : Node} {spine : List Ctx}
    {oldP newP : Int} (h1 : ¬newP < oldP) (h2 : oldP < newP) :
    changePriorityFound h ri n spine oldP newP =
      (fun r => setMinOp { h with roots := (h.roots.set ri r.1) ++ r.2 })
        (increaseInTree n.id n.value newP n.marked n.degree [] n.children spine []) := by
  rw [changePriorityFound, if_neg h1, if_pos h2]

theorem changePriorityFound_same {h : Heap} {ri : Nat} {n : Node} {spine : List Ctx}
    {oldP newP : Int} (h1 : ¬newP < oldP) (h2 : ¬oldP < newP) :
    changePriorityFound h ri n spine oldP newP =
      setMinOp
        { h with
          roots := h.roots.set ri
            (plug (Node.mk n.id n.value newP n.marked n.degree n.children) spine) } := by
  rw [changePriorityFound, if_neg h1, if_neg h2]

/-- `changePriorityFound` preserves heap order given a decomposition of an
ordered root. -/
theorem changePriorityFound_ordered (h : Heap) (ri : Nat) (n : Node) (spine : List Ctx)
    (oldP newP : Int) (hpri : n.priority = oldP)
    (hord : ∀ t ∈ h.roots, Ordered t) (hRord : Ordered (plug n spine)) :
    ∀ t ∈ (changePriorityFound h ri n spine oldP newP).roots, Ordered t := by
  obtain ⟨hn, hs, hl⟩ := Ordered_plug.1 hRord
  by_cases h1 : newP < oldP
  · rw [changePriorityFound_dec h1]
    have hn1 : Ordered (Node.mk n.id n.value newP n.marked n.degree n.children) := by
      cases n with
      | mk ni nv np nm nd ncs =>
        simp only [Node.id, Node.value, Node.marked, Node.degree, Node.children,
          Node.priority] at *
        rw [Ordered_mk] at hn ⊢
        intro c hc
        exact ⟨le_trans (le_of_lt (hpri ▸ h1)) (hn c hc).1, (hn c hc).2⟩
    have hd := decreaseLoop_ordered (Node.mk n.id n.value newP n.marked n.degree n.children)
      spine [] hn1 hs (by simp)
    intro t ht
    rw [setMinOp_roots] at ht
    rcases List.mem_append.1 ht with ht | ht
    · rcases List.mem_or_eq_of_mem_set ht with ht | rfl
      · exact hord t ht
      · exact hd.1
    · exact hd.2 t ht
  · by_cases h2 : oldP < newP
    · rw [changePriorityFound_inc h1 h2]
      have hcs : ∀ c ∈ n.children, Ordered c := by
        cases n with
        | mk ni nv np nm nd ncs =>
          simp only [Node.children]
          rw [Ordered_mk] at hn
          exact fun c hc => (hn c hc).2
      have hl' : ∀ c ∈ spine.head?, c.priority ≤ newP := fun c hc =>
        le_trans (hpri ▸ hl c hc) (le_of_lt h2)
      have hi := increaseInTree_ordered n.id n.value newP n.marked n.degree [] n.children
        spine [] (by simp) hcs hs hl' (by simp)
      intro t ht
      rw [setMinOp_roots] at ht
      rcases List.mem_append.1 ht with ht | ht
      · rcases List.mem_or_eq_of_mem_set ht with ht | rfl
        · exact hord t ht
        · exact hi.1
      · exact hi.2 t ht
    · rw [changePriorityFound_same h1 h2]
      have hsame : Node.mk n.id n.value newP n.marked n.degree n.children = n := by
        rw [le_antisymm (le_of_not_lt h2) (le_of_not_lt h1), ← hpri]
        exact Node.eta n
      intro t ht
      rw [setMinOp_roots] at ht
      rcases List.mem_or_eq_of_mem_set ht with ht | rfl
      · exact hord t ht
      · rw [hsame]
        exact hRord

/-- `change_priority` preserves heap order in every tree of the heap. -/
theorem changePriority_ordered (h : Heap) (key : Nat) (oldP newP : Int)
    (hord : ∀ t ∈ h.roots, Ordered t) :
    ∀ t ∈ (changePriority h key oldP newP).roots, Ordered t := by
  rcases hf : findPath h.roots key oldP with _ | ⟨ri, n, spine⟩
  · rw [changePriority, hf]
    exact hord
  · rw [changePriority, hf]
    obtain ⟨hroot, hval, hpri⟩ := findPath_spec hf
    exact changePriorityFound_ordered h ri n spine oldP newP hpri hord
      (hord _ (List.getElem?_mem hroot))
/-- Linking two ordered trees with the smaller-priority root as parent
yields an ordered tree, whatever degree is assigned. -/
theorem Ordered_link {w l : Node} (hw : Ordered w) (hl : Ordered l)
    (hpl : w.priority ≤ l.priority) (d' : Nat) :
    Ordered (Node.mk w.id w.value w.priority w.marked d' (w.children ++ [l])) := by
  cases w with
  | mk wi wv wp wm wd wcs =>
    simp only [Node.priority, Node.children, Node.id, Node.value, Node.marked] at *
    rw [Ordered_mk] at hw ⊢
    intro c hc
    rcases List.mem_append.1 hc with hc | hc
    · exact hw c hc
    · rcases List.mem_singleton.1 hc with rfl
      exact ⟨hpl, hl⟩

/-- Clearing the children of the node with a given id preserves heap
order everywhere, keeps the root priorities of the forest, and hands back
ordered subtrees. -/
theorem clearChildren_ordered (i : Nat) :
    ∀ l : List Node, ∀ res : List Node × List Node,
      clearChildrenList i l = some res → (∀ t ∈ l, Ordered t) →
        (∀ t ∈ res.1, Ordered t) ∧ res.1.map Node.priority = l.map Node.priority ∧
          ∀ k ∈ res.2, Ordered k := by
  have tree : ∀ n : Node, ∀ res : Node × List Node,
      clearChildrenTree i n = some res → Ordered n →
        Ordered res.1 ∧ res.1.priority = n.priority ∧ ∀ k ∈ res.2, Ordered k := by
    intro a
    refine clearChildrenTree.induct i
      (fun n => ∀ res : Node × List Node,
        clearChildrenTree i n = some res → Ordered n →
          Ordered res.1 ∧ res.1.priority = n.priority ∧ ∀ k ∈ res.2, Ordered k)
      (fun l => ∀ res : List Node × List Node,
        clearChildrenList i l = some res → (∀ t ∈ l, Ordered t) →
          (∀ t ∈ res.1, Ordered t) ∧ res.1.map Node.priority = l.map Node.priority ∧
            ∀ k ∈ res.2, Ordered k)
      ?_ ?_ ?_ ?_ ?_ ?_ ?_ a
    · intro v p m d cs res h hn
      rw [clearChildrenTree, if_pos rfl] at h
      cases h
      refine ⟨Ordered_mk.2 (by simp), rfl, ?_⟩
      rw [Ordered_mk] at hn
      exact fun k hk => (hn k hk).2
    · intro i1 v p m d cs hne cs' out0 hcl ih res h hn
      rw [clearChildrenTree, if_neg hne, hcl] at h
      cases h
      rw [Ordered_mk] at hn
      obtain ⟨h1, h2, h3⟩ := ih (cs', out0) hcl (fun t ht => (hn t ht).2)
      refine ⟨?_, rfl, h3⟩
      rw [Ordered_mk]
      intro c hc
      refine ⟨?_, h1 c hc⟩
      have hmem : c.priority ∈ cs'.map Node.priority := List.mem_map_of_mem _ hc
      rw [h2] at hmem
      obtain ⟨c0, hc0, hpc0⟩ := List.mem_map.1 hmem
      exact hpc0 ▸ (hn c0 hc0).1
    · intro i1 v p m d cs hne hcl ih res h hn
      rw [clearChildrenTree, if_neg hne, hcl] at h
      exact absurd h (by simp)
    · intro res h ho
      rw [clearChildrenList] at h
      exact absurd h (by simp)
    · intro c rest n' out hct ih res h ho
      rw [clearChildrenList, hct] at h
      cases h
      obtain ⟨h1, h2, h3⟩ := ih (n', out) hct (ho c (by simp))
      refine ⟨?_, ?_, h3⟩
      · intro t ht
        rcases List.mem_cons.1 ht with rfl | ht
        · exact h1
        · exact ho t (by simp [ht])
      · simpa using h2
    · intro c rest hct cs' out0 hcl ih1 ih2 res h ho
      rw [clearChildrenList, hct, hcl] at h
      cases h
      obtain ⟨h1, h2, h3⟩ := ih2 (cs', out0) hcl (fun t ht => ho t (by simp [ht]))
      refine ⟨?_, ?_, h3⟩
      · intro t ht
        rcases List.mem_cons.1 ht with rfl | ht
        · exact ho t (by simp)
        · exact h1 t ht
      · simpa using h2
    · intro c rest hct hcl ih1 ih2 res h ho
      rw [clearChildrenList, hct, hcl] at h
      exact absurd h (by simp)
  intro l
  induction l with
  | nil =>
    intro res h ho
    rw [clearChildrenList] at h
    exact absurd h (by simp)
  | cons c rest ih =>
    intro res h ho
    rw [clearChildrenList] at h
    cases hct : clearChildrenTree i c with
    | some pr =>
      obtain ⟨n', out0⟩ := pr
      rw [hct] at h
      cases h
      obtain ⟨h1, h2, h3⟩ := tree c (n', out0) hct (ho c (by simp))
      refine ⟨?_, ?_, h3⟩
      · intro t ht
        rcases List.mem_cons.1 ht with rfl | ht
        · exact h1
        · exact ho t (by simp [ht])
      · simpa using h2
    | none =>
      rw [hct] at h
      cases hcl : clearChildrenList i rest with
      | some pr =>
        obtain ⟨rest', out0⟩ := pr
        rw [hcl] at h
        cases h
        obtain ⟨h1, h2, h3⟩ := ih (rest', out0) hcl (fun t ht => ho t (by simp [ht]))
        refine ⟨?_, ?_, h3⟩
        · intro t ht
          rcases List.mem_cons.1 ht with rfl | ht
          · exact ho t (by simp)
          · exact h1 t ht
        · simpa using h2
      | none =>
        rw [hcl] at h
        exact absurd h (by simp)

/-- Membership in the grown rank table: every slot is an old slot or a
freshly appended null. -/
theorem mem_growRank {rank : List (Option Node)} {d : Nat} {os : Option Node}
    (h : os ∈ growRank rank d) : os ∈ rank ∨ os = none := by
  rw [growRank] at h
  by_cases hgr : rank.length ≤ d
  · rw [if_pos hgr] at h
    rcases List.mem_append.1 h with hm | hm
    · exact Or.inl hm
    · exact Or.inr (List.eq_of_mem_replicate hm)
  · rw [if_neg hgr] at h
    exact Or.inl h

/-- A non-null slot read from the grown table was already a slot of the
original table. -/
theorem growRank_slot_some {rank : List (Option Node)} {d : Nat} {s : Node}
    (h : ((growRank rank d)[d]?).getD none = some s) : some s ∈ rank := by
  rcases hg : (growRank rank d)[d]? with _ | os
  · rw [hg] at h
    exact absurd h (by simp)
  · rw [hg] at h
    simp only [Option.getD_some] at h
    subst h
    rcases mem_growRank (List.getElem?_mem hg) with hm | hm
    · exact hm
    · exact absurd hm (by simp)

/-- Writing an ordered (or null) entry into the grown table keeps every
slot ordered. -/
theorem rank_set_ord {rank : List (Option Node)} {d d' : Nat} {v : Option Node}
    (hrk : ∀ os ∈ rank, ∀ x : Node, os = some x → Ordered x)
    (hv : ∀ x : Node, v = some x → Ordered x) :
    ∀ os ∈ (growRank rank d).set d' v, ∀ x : Node, os = some x → Ordered x := by
  intro os hos x hx
  rcases List.mem_or_eq_of_mem_set hos with hos | rfl
  · rcases mem_growRank hos with hm | rfl
    · exact hrk os hm x hx
    · exact absurd hx (by simp)
  · exact hv x hx

/-- Consolidation preserves heap order: every link makes the root with
the not-larger priority the parent. -/
theorem consolidateGo_ordered :
    ∀ roots : List Node, ∀ idx : Nat, ∀ rank : List (Option Node),
      (∀ t ∈ roots, Ordered t) →
        (∀ os ∈ rank, ∀ s : Node, os = some s → Ordered s) →
        ∀ out : List Node, consolidateGo roots idx rank = some out →
          ∀ t ∈ out, Ordered t := by
  intro roots idx rank
  induction roots, idx, rank using consolidateGo.induct with
  | case1 roots idx rank hidx hslot ih =>
    intro hro hrk out hout
    rw [consolidateGo, dif_pos hidx] at hout
    simp only [hslot] at hout
    refine ih hro (rank_set_ord hrk ?_) out hout
    intro x hx
    cases hx
    exact hro _ (List.mem_iff_getElem.mpr ⟨idx, hidx, rfl⟩)
  | case2 roots idx rank hidx s hslot hj hlt ih =>
    intro hro hrk out hout
    rw [consolidateGo, dif_pos hidx] at hout
    simp only [hslot] at hout
    rw [dif_pos hj, if_pos hlt] at hout
    have hsOrd : Ordered s := hrk _ (growRank_slot_some hslot) s rfl
    have hw : Ordered (Node.mk s.id s.value s.priority s.marked
        (if s.degree ≤ roots[idx].degree then roots[idx].degree + 1 else s.degree)
        (s.children ++ [roots[idx]])) :=
      Ordered_link hsOrd (hro _ (List.mem_iff_getElem.mpr ⟨idx, hidx, rfl⟩))
        (le_of_lt hlt) _
    refine ih ?_ (rank_set_ord hrk (fun x hx => absurd hx (by simp))) out hout
    intro x hx2
    have hx3 := (List.eraseIdx_sublist _ _).mem hx2
    rcases List.mem_or_eq_of_mem_set hx3 with hx3 | rfl
    · exact hro x hx3
    · exact hw
  | case3 roots idx rank hidx s hslot hj hlt ih =>
    intro hro hrk out hout
    rw [consolidateGo, dif_pos hidx] at hout
    simp only [hslot] at hout
    rw [dif_pos hj, if_neg hlt] at hout
    have hsOrd : Ordered s := hrk _ (growRank_slot_some hslot) s rfl
    have htOrd : Ordered roots[idx] := hro _ (List.mem_iff_getElem.mpr ⟨idx, hidx, rfl⟩)
    have hw : Ordered (Node.mk roots[idx].id roots[idx].value roots[idx].priority
        roots[idx].marked
        (if roots[idx].degree ≤ s.degree then s.degree + 1 else roots[idx].degree)
        (roots[idx].children ++ [s])) :=
      Ordered_link htOrd hsOrd (le_of_not_lt hlt) _
    refine ih ?_ (rank_set_ord hrk (fun x hx => absurd hx (by simp))) out hout
    intro x hx2
    have hx3 := (List.eraseIdx_sublist _ _).mem hx2
    rcases List.mem_or_eq_of_mem_set hx3 with hx3 | rfl
    · exact hro x hx3
    · exact hw
  | case4 roots idx rank hidx s hslot hj =>
    intro hro hrk out hout
    rw [consolidateGo, dif_pos hidx] at hout
    simp only [hslot] at hout
    rw [dif_neg hj] at hout
    exact absurd hout (by simp)
  | case5 roots idx rank hidx =>
    intro hro hrk out hout
    rw [consolidateGo, dif_neg hidx] at hout
    cases hout
    exact hro

/-- `insert` preserves heap order: the new root is a leaf. -/
theorem insertOp_ordered {h : Heap} (v : Nat) (p : Int)
    (hord : ∀ t ∈ h.roots, Ordered t) :
    ∀ t ∈ (insertOp h v p).roots, Ordered t := by
  intro t ht
  rcases List.mem_append.1 ht with ht | ht
  · exact hord t ht
  · rcases List.mem_singleton.1 ht with rfl
    exact Ordered_mk.2 (by simp)

/-- `delete_min` preserves heap order: the melded children are ordered
subtrees, erasure keeps a sublist, and consolidation links by priority. -/
theorem deleteMin_ordered {h h' : Heap} (hd : deleteMin h = some h')
    (hord : ∀ t ∈ h.roots, Ordered t) : ∀ t ∈ h'.roots, Ordered t := by
  rw [deleteMin] at hd
  rcases hmr : h.minRef with _ | mr
  · simp only [hmr] at hd
    cases hd
    exact hord
  · simp only [hmr] at hd
    rcases hcl : clearChildrenList mr.1 h.roots with _ | ⟨forest1, kids⟩
    · simp only [hcl] at hd
      exact Option.noConfusion hd
    · simp only [hcl] at hd
      rcases hfi : (forest1 ++ kids).findIdx? (fun r => r.id == mr.1) with _ | j
      · simp only [hfi] at hd
        exact Option.noConfusion hd
      · simp only [hfi, setMinOp_roots] at hd
        rcases hcons : consolidate ((forest1 ++ kids).eraseIdx j) with _ | roots2
        · simp only [hcons] at hd
          exact Option.noConfusion hd
        · simp only [hcons] at hd
          cases hd
          have hsub : ∀ t ∈ (forest1 ++ kids).eraseIdx j, Ordered t := by
            intro x hxm
            have hxm2 := (List.eraseIdx_sublist _ j).mem hxm
            rcases List.mem_append.1 hxm2 with hm | hm
            · exact (clearChildren_ordered mr.1 h.roots (forest1, kids) hcl hord).1 _ hm
            · exact (clearChildren_ordered mr.1 h.roots (forest1, kids) hcl hord).2.2 _ hm
          exact consolidateGo_ordered _ 0 [] hsub (by simp) roots2 hcons

/-- The reachable shape of a successful union: roots are concatenated. -/
theorem heapAdd_roots {a b c : Heap} (h : heapAdd a b = some c) :
    c.roots = a.roots ++ b.roots := by
  rw [heapAdd] at h
  rcases hb : b.minRef with _ | bm
  · simp only [hb] at h
    exact Option.noConfusion h
  · simp only [hb] at h
    rcases ha : a.minRef with _ | am
    · simp only [ha] at h
      exact Option.noConfusion h
    · simp only [ha] at h
      cases h
      rfl

/-- `operator+=` computes exactly what `operator+` computes. -/
theorem heapAddAssign_eq_heapAdd (a b : Heap) : heapAddAssign a b = heapAdd a b := by
  rw [heapAdd, heapAddAssign]

/-- Every heap reachable through the public interface has ordered trees. -/
theorem reachable_ordered {h : Heap} (hr : Reachable h) :
    ∀ t ∈ h.roots, Ordered t := by
  induction hr with
  | empty n => intro t ht; exact absurd ht (by simp [emptyHeap])
  | insert v p hr ih => exact insertOp_ordered v p ih
  | deleteMin hr hd ih => exact deleteMin_ordered hd ih
  | changePriority k oldP newP hr ih => exact changePriority_ordered _ k oldP newP ih
  | union hra hrb hdisj hadd iha ihb =>
    rw [heapAdd_roots hadd]
    intro t ht
    rcases List.mem_append.1 ht with hm | hm
    · exact iha t hm
    · exact ihb t hm
  | unionAssign hra hrb hdisj hadd iha ihb =>
    rw [heapAddAssign_eq_heapAdd] at hadd
    rw [heapAdd_roots hadd]
    intro t ht
    rcases List.mem_append.1 ht with hm | hm
    · exact iha t hm
    · exact ihb t hm

/-- C1: after every public operation returns (any reachable heap state),
the min-heap order holds: for every node in the heap and every one of its
direct children, the node's priority is less than or equal to the child's
priority — i.e. every tree in the root list satisfies `Ordered`. -/
theorem c1_heap_order {h : Heap} (hr : Reachable h) :
    ∀ t ∈ h.roots, Ordered t :=
  reachable_ordered hr

theorem c1_heap_order_witness :
    Ordered (Node.mk 0 0 1 false 1 [Node.mk 1 1 4 false 0 []]) :=
  c1_heap_order reachable_hA (Node.mk 0 0 1 false 1 [Node.mk 1 1 4 false 0 []])
    (by simp [hA])

/-! ## Id and priority multisets

The C++ nodes are heap-allocated and globally distinct; the operations
move nodes between the root list, child lists and the rank table but
never duplicate or invent them.  The lemmas below track the multiset of
ids (and of `(id, priority)` pairs) through each operation. -/

theorem forestIds_append (a b : List Node) :
    forestIds (a ++ b) = forestIds a ++ forestIds b := by
  simp [forestIds]

theorem forestPris_append (a b : List Node) :
    forestPris (a ++ b) = forestPris a ++ forestPris b := by
  simp [forestPris]

theorem forestIds_cons (n : Node) (l : List Node) :
    forestIds (n :: l) = nodeIds n ++ forestIds l := by
  simp [forestIds]

theorem forestPris_cons (n : Node) (l : List Node) :
    forestPris (n :: l) = nodePris n ++ forestPris l := by
  simp [forestPris]

/-- The ids a context contributes: its own and those of the sibling
forests around the hole. -/
def ctxIds (c : Ctx) : List Nat := c.id :: (forestIds c.pre ++ forestIds c.post)

/-- The ids contributed by a whole ancestor stack. -/
def spineIds (spine : List Ctx) : List Nat := (spine.map ctxIds).flatten

theorem nodeIds_fill (c : Ctx) (n : Node) :
    nodeIds (c.fill n) = c.id :: (forestIds c.pre ++ (nodeIds n ++ forestIds c.post)) := by
  rw [Ctx.fill, nodeIds_mk]
  simp [forestIds]

theorem nodeIds_dropHole (c : Ctx) :
    nodeIds c.dropHole = c.id :: (forestIds c.pre ++ forestIds c.post) := by
  rw [Ctx.dropHole, nodeIds_mk]
  simp [forestIds]

theorem plug_ids (n : Node) (spine : List Ctx) :
    (↑(nodeIds (plug n spine)) : Multiset Nat) = ↑(nodeIds n) + ↑(spineIds spine) := by
  induction spine generalizing n with
  | nil => simp [plug, spineIds]
  | cons c rest ih =>
    rw [plug, ih, nodeIds_fill]
    simp only [spineIds, List.map_cons, List.flatten_cons, ctxIds]
    simp only [← Multiset.coe_add, ← List.append_assoc, ← List.cons_append]
    abel

/-- The `(id, priority)` pairs a context contributes. -/
def ctxPris (c : Ctx) : List (Nat × Int) :=
  (c.id, c.priority) :: (forestPris c.pre ++ forestPris c.post)

/-- The pairs contributed by a whole ancestor stack. -/
def spinePris (spine : List Ctx) : List (Nat × Int) := (spine.map ctxPris).flatten

theorem nodePris_fill (c : Ctx) (n : Node) :
    nodePris (c.fill n) =
      (c.id, c.priority) :: (forestPris c.pre ++ (nodePris n ++ forestPris c.post)) := by
  rw [Ctx.fill, nodePris_mk]
  simp [forestPris]

theorem plug_pris (n : Node) (spine : List Ctx) :
    (↑(nodePris (plug n spine)) : Multiset (Nat × Int)) =
      ↑(nodePris n) + ↑(spinePris spine) := by
  induction spine generalizing n with
  | nil => simp [plug, spinePris]
  | cons c rest ih =>
    rw [plug, ih, nodePris_fill]
    simp only [spinePris, List.map_cons, List.flatten_cons, ctxPris]
    simp only [← Multiset.coe_add, ← List.append_assoc, ← List.cons_append]
    abel

theorem flatten_map_set {α β : Type} (f : α → List β) (l : List α) (i : Nat) (x : α)
    (h : i < l.length) :
    (↑((l.set i x).map f).flatten : Multiset β) + ↑(f l[i]) =
      ↑(l.map f).flatten + ↑(f x) := by
  induction l generalizing i with
  | nil => simp at h
  | cons a rest ih =>
    cases i with
    | zero =>
      simp only [List.set_cons_zero, List.map_cons, List.flatten_cons, List.getElem_cons_zero]
      simp only [← Multiset.coe_add]
      abel
    | succ i =>
      simp only [List.set_cons_succ, List.map_cons, List.flatten_cons,
        List.getElem_cons_succ]
      have h' : i < rest.length := by simpa using h
      have h2 := ih i h'
      simp only [← Multiset.coe_add] at h2 ⊢
      rw [add_assoc, h2, ← add_assoc]

theorem flatten_map_eraseIdx {α β : Type} (f : α → List β) (l : List α) (j : Nat)
    (h : j < l.length) :
    (↑((l.eraseIdx j).map f).flatten : Multiset β) + ↑(f l[j]) =
      ↑(l.map f).flatten := by
  induction l generalizing j with
  | nil => simp at h
  | cons a rest ih =>
    cases j with
    | zero =>
      simp only [List.eraseIdx_cons_zero, List.map_cons, List.flatten_cons,
        List.getElem_cons_zero]
      simp only [← Multiset.coe_add]
      abel
    | succ j =>
      simp only [List.eraseIdx_cons_succ, List.map_cons, List.flatten_cons,
        List.getElem_cons_succ]
      have h' : j < rest.length := by simpa using h
      have h2 := ih j h'
      simp only [← Multiset.coe_add] at h2 ⊢
      rw [add_assoc, h2]

theorem forestIds_set (l : List Node) (i : Nat) (x : Node) (h : i < l.length) :
    (↑(forestIds (l.set i x)) : Multiset Nat) + ↑(nodeIds l[i]) =
      ↑(forestIds l) + ↑(nodeIds x) :=
  flatten_map_set nodeIds l i x h

theorem forestIds_eraseIdx (l : List Node) (j : Nat) (h : j < l.length) :
    (↑(forestIds (l.eraseIdx j)) : Multiset Nat) + ↑(nodeIds l[j]) = ↑(forestIds l) :=
  flatten_map_eraseIdx nodeIds l j h

theorem forestPris_set (l : List Node) (i : Nat) (x : Node) (h : i < l.length) :
    (↑(forestPris (l.set i x)) : Multiset (Nat × Int)) + ↑(nodePris l[i]) =
      ↑(forestPris l) + ↑(nodePris x) :=
  flatten_map_set nodePris l i x h

theorem forestPris_eraseIdx (l : List Node) (j : Nat) (h : j < l.length) :
    (↑(forestPris (l.eraseIdx j)) : Multiset (Nat × Int)) + ↑(nodePris l[j]) =
      ↑(forestPris l) :=
  flatten_map_eraseIdx nodePris l j h

/-- A tree's id list is the first projection of its pair list. -/
theorem nodeIds_eq_pris_fst : ∀ n : Node, nodeIds n = (nodePris n).map Prod.fst := by
  intro n
  induction n using nodeIds.induct with
  | _ i v p m d cs ih =>
    rw [nodeIds_mk, nodePris_mk]
    simp only [List.map_cons, List.map_flatten, List.map_map]
    congr 1
    congr 1
    exact List.map_congr_left fun c hc => ih ⟨c, hc⟩

/-- A forest's id list is the first projection of its pair list. -/
theorem forestIds_eq_pris_fst (l : List Node) :
    forestIds l = (forestPris l).map Prod.fst := by
  simp only [forestIds, forestPris, List.map_flatten, List.map_map]
  congr 1
  exact List.map_congr_left fun c hc => nodeIds_eq_pris_fst c

/-- `min_node->children.clear()` preserves the `(id, priority)` multiset:
the pairs split between the rebuilt forest and the detached children. -/
theorem clearChildren_pris (i : Nat) :
    ∀ l : List Node, ∀ res : List Node × List Node,
      clearChildrenList i l = some res →
        (↑(forestPris res.1) : Multiset (Nat × Int)) + ↑(forestPris res.2) =
          ↑(forestPris l) := by
  have tree : ∀ n : Node, ∀ res : Node × List Node,
      clearChildrenTree i n = some res →
        (↑(nodePris res.1) : Multiset (Nat × Int)) + ↑(forestPris res.2) =
          ↑(nodePris n) := by
    intro a
    refine clearChildrenTree.induct i
      (fun n => ∀ res : Node × List Node,
        clearChildrenTree i n = some res →
          (↑(nodePris res.1) : Multiset (Nat × Int)) + ↑(forestPris res.2) =
            ↑(nodePris n))
      (fun l => ∀ res : List Node × List Node,
        clearChildrenList i l = some res →
          (↑(forestPris res.1) : Multiset (Nat × Int)) + ↑(forestPris res.2) =
            ↑(forestPris l))
      ?_ ?_ ?_ ?_ ?_ ?_ ?_ a
    · intro v p m d cs res h
      rw [clearChildrenTree, if_pos rfl] at h
      cases h
      rw [nodePris_mk, nodePris_mk]
      simp only [List.map_nil, List.flatten_nil]
      rw [Multiset.coe_add]
      rfl
    · intro i1 v p m d cs hne cs' out0 hcl ih res h
      rw [clearChildrenTree, if_neg hne, hcl] at h
      cases h
      have h1 := ih (cs', out0) hcl
      rw [nodePris_mk, nodePris_mk]
      have e1 : (cs'.map nodePris).flatten = forestPris cs' := rfl
      have e2 : (cs.map nodePris).flatten = forestPris cs := rfl
      rw [e1, e2]
      simp only [← Multiset.cons_coe, Multiset.cons_add]
      rw [h1]
    · intro i1 v p m d cs hne hcl ih res h
      rw [clearChildrenTree, if_neg hne, hcl] at h
      exact absurd h (by simp)
    · intro res h
      rw [clearChildrenList] at h
      exact absurd h (by simp)
    · intro c rest n' out hct ih res h
      rw [clearChildrenList, hct] at h
      cases h
      have h1 := ih (n', out) hct
      simp only [forestPris_cons, ← Multiset.coe_add] at h1 ⊢
      rw [add_right_comm, h1]
    · intro c rest hct cs' out0 hcl ih1 ih2 res h
      rw [clearChildrenList, hct, hcl] at h
      cases h
      have h1 := ih2 (cs', out0) hcl
      simp only [forestPris_cons, ← Multiset.coe_add] at h1 ⊢
      rw [add_assoc, h1]
    · intro c rest hct hcl ih1 ih2 res h
      rw [clearChildrenList, hct, hcl] at h
      exact absurd h (by simp)
  intro l
  induction l with
  | nil =>
    intro res h
    rw [clearChildrenList] at h
    exact absurd h (by simp)
  | cons c rest ih =>
    intro res h
    rw [clearChildrenList] at h
    cases hct : clearChildrenTree i c with
    | some pr =>
      obtain ⟨n', out0⟩ := pr
      rw [hct] at h
      cases h
      have h1 := tree c (n', out0) hct
      simp only [forestPris_cons, ← Multiset.coe_add] at h1 ⊢
      rw [add_right_comm, h1]
    | none =>
      rw [hct] at h
      cases hcl : clearChildrenList i rest with
      | some pr =>
        obtain ⟨rest', out0⟩ := pr
        rw [hcl] at h
        cases h
        have h1 := ih (rest', out0) hcl
        simp only [forestPris_cons, ← Multiset.coe_add] at h1 ⊢
        rw [add_assoc, h1]
      | none =>
        rw [hcl] at h
        exact absurd h (by simp)

/-- Id-multiset version of `clearChildren_pris`. -/
theorem clearChildren_ids (i : Nat) (l : List Node) (res : List Node × List Node)
    (h : clearChildrenList i l = some res) :
    (↑(forestIds res.1) : Multiset Nat) + ↑(forestIds res.2) = ↑(forestIds l) := by
  have := congrArg (Multiset.map Prod.fst) (clearChildren_pris i l res h)
  simp only [Multiset.map_add, Multiset.map_coe] at this
  simpa only [forestIds_eq_pris_fst] using this

theorem nodeIds_eta (n : Node) :
    nodeIds n = n.id :: (n.children.map nodeIds).flatten := by
  cases n with
  | mk i v p m d cs => rw [nodeIds_mk]; rfl

theorem nodePris_eta (n : Node) :
    nodePris n = (n.id, n.priority) :: (n.children.map nodePris).flatten := by
  cases n with
  | mk i v p m d cs => rw [nodePris_mk]; rfl

theorem growRank_length (rank : List (Option Node)) (d : Nat) :
    d < (growRank rank d).length := by
  rw [growRank]
  by_cases hgr : rank.length ≤ d <;> simp [hgr] <;> omega

/-- Growing the table does not change any slot that already existed. -/
theorem growRank_getElem?_pres {rank : List (Option Node)} {d0 d : Nat}
    {os : Option Node} (h : rank[d]? = some os) :
    (growRank rank d0)[d]? = some os := by
  rw [growRank]
  by_cases hgr : rank.length ≤ d0
  · have hd : d < rank.length := by
      by_contra hcon
      rw [List.getElem?_eq_none (by omega)] at h
      cases h
    rw [if_pos hgr, List.getElem?_append, if_pos hd]
    exact h
  · rw [if_neg hgr]
    exact h

/-- A non-null slot of the grown table was a non-null slot of the
original table (the appended slots are all null). -/
theorem growRank_getElem?_some {rank : List (Option Node)} {d0 d : Nat} {s : Node}
    (h : (growRank rank d0)[d]? = some (some s)) : rank[d]? = some (some s) := by
  rw [growRank] at h
  by_cases hgr : rank.length ≤ d0
  · rw [if_pos hgr, List.getElem?_append] at h
    by_cases hd : d < rank.length
    · rw [if_pos hd] at h
      exact h
    · rw [if_neg hd, List.getElem?_replicate] at h
      split at h
      · cases h
      · cases h
  · rw [if_neg hgr] at h
    exact h

/-- Reading the slot for the probed degree: a hit means the original
table held that entry there. -/
theorem growRank_slot_eq {rank : List (Option Node)} {d0 : Nat} {s : Node}
    (h : ((growRank rank d0)[d0]?).getD none = some s) :
    rank[d0]? = some (some s) := by
  rcases hg : (growRank rank d0)[d0]? with _ | os
  · rw [hg] at h
    exact absurd h (by simp)
  · rw [hg] at h
    simp only [Option.getD_some] at h
    subst h
    exact growRank_getElem?_some hg

/-- The top-level root ids form a sub-multiset of all forest ids. -/
theorem rootIds_le_forestIds (l : List Node) :
    (↑(l.map Node.id) : Multiset Nat) ≤ ↑(forestIds l) := by
  induction l with
  | nil => simp [forestIds]
  | cons x rest ih =>
    rw [forestIds_cons, nodeIds_eta]
    simp only [List.map_cons, ← Multiset.cons_coe, List.cons_append]
    refine Multiset.cons_le_cons x.id ?_
    calc (↑(rest.map Node.id) : Multiset Nat) ≤ ↑(forestIds rest) := ih
      _ ≤ ↑((x.children.map nodeIds).flatten) + ↑(forestIds rest) := le_add_self
      _ = ↑((x.children.map nodeIds).flatten ++ forestIds rest) := Multiset.coe_add _ _

/-- With globally distinct ids, a root position is determined by the
root's id. -/
theorem rootId_inj {l : List Node} (hnd : (forestIds l).Nodup)
    {k1 k2 : Nat} (h1 : k1 < l.length) (h2 : k2 < l.length)
    (hid : (l[k1]).id = (l[k2]).id) : k1 = k2 := by
  have hmap : (l.map Node.id).Nodup := by
    have := Multiset.nodup_of_le (rootIds_le_forestIds l)
      (Multiset.coe_nodup.2 hnd)
    exact Multiset.coe_nodup.1 this
  have hk1 : k1 < (l.map Node.id).length := by simpa using h1
  have hk2 : k2 < (l.map Node.id).length := by simpa using h2
  have e1 : (l.map Node.id)[k1] = (l[k1]).id := by simp
  have e2 : (l.map Node.id)[k2] = (l[k2]).id := by simp
  have := hmap.getElem_inj_iff.1 (e1.trans (hid.trans e2.symm))
  exact this

theorem link_ids (s t : Node) (d' : Nat) :
    (↑(nodeIds (Node.mk s.id s.value s.priority s.marked d' (s.children ++ [t]))) :
      Multiset Nat) = ↑(nodeIds s) + ↑(nodeIds t) := by
  rw [nodeIds_mk, nodeIds_eta s]
  simp only [List.map_append, List.flatten_append, List.map_cons, List.map_nil,
    List.flatten_cons, List.flatten_nil, List.append_nil]
  simp only [← Multiset.cons_coe, ← Multiset.coe_add, Multiset.cons_add]

theorem link_pris (s t : Node) (d' : Nat) :
    (↑(nodePris (Node.mk s.id s.value s.priority s.marked d' (s.children ++ [t]))) :
      Multiset (Nat × Int)) = ↑(nodePris s) + ↑(nodePris t) := by
  rw [nodePris_mk, nodePris_eta s]
  simp only [List.map_append, List.flatten_append, List.map_cons, List.map_nil,
    List.flatten_cons, List.flatten_nil, List.append_nil]
  simp only [← Multiset.cons_coe, ← Multiset.coe_add, Multiset.cons_add]

/-- Bookkeeping for one link step of the consolidation loop: locating the
registered partner `s` (it is the root at the index `std::find` returns,
strictly left of the cursor), and the invariants of the loop state after
the merged tree `w` replaces the cursor root and `s`'s old slot is
erased. -/
theorem merge_aux (roots : List Node) (idx : Nat) (rank : List (Option Node))
    (s t w : Node)
    (hnd : (forestIds roots).Nodup)
    (h2 : ∀ d s2, rank[d]? = some (some s2) →
      s2.degree = d ∧ ∃ k, k < idx ∧ roots[k]? = some s2)
    (h3 : ∀ k s0, roots[k]? = some s0 → k < idx →
      rank[s0.degree]? = some (some s0))
    (ht : roots[idx]? = some t)
    (hslot : rank[t.degree]? = some (some s))
    (hidw : (↑(nodeIds w) : Multiset Nat) = ↑(nodeIds s) + ↑(nodeIds t))
    (hprw : (↑(nodePris w) : Multiset (Nat × Int)) = ↑(nodePris s) + ↑(nodePris t)) :
    roots[roots.findIdx (fun r => r.id == s.id)]? = some s ∧
    roots.findIdx (fun r => r.id == s.id) < idx ∧
    (↑(forestPris ((roots.set idx w).eraseIdx
        (roots.findIdx (fun r => r.id == s.id)))) : Multiset (Nat × Int)) =
      ↑(forestPris roots) ∧
    (forestIds ((roots.set idx w).eraseIdx
        (roots.findIdx (fun r => r.id == s.id)))).Nodup ∧
    (∀ d s2, (((growRank rank t.degree).set t.degree none))[d]? = some (some s2) →
      s2.degree = d ∧ ∃ k, k < idx - 1 ∧
        ((roots.set idx w).eraseIdx (roots.findIdx (fun r => r.id == s.id)))[k]? =
          some s2) ∧
    (∀ k s0,
      ((roots.set idx w).eraseIdx (roots.findIdx (fun r => r.id == s.id)))[k]? =
        some s0 → k < idx - 1 →
      ((growRank rank t.degree).set t.degree none)[s0.degree]? = some (some s0)) := by
  obtain ⟨hsdeg, k, hkidx, hk⟩ := h2 t.degree s hslot
  obtain ⟨hklen, hkeq⟩ := List.getElem?_eq_some_iff.mp hk
  obtain ⟨hilen, hieq⟩ := List.getElem?_eq_some_iff.mp ht
  have hjlen : roots.findIdx (fun r => r.id == s.id) < roots.length := by
    rw [List.findIdx_lt_length]
    exact ⟨s, List.getElem?_mem hk, by simp⟩
  have hjid : (roots[roots.findIdx (fun r => r.id == s.id)]).id = s.id := by
    have := List.findIdx_getElem (w := hjlen)
    simpa using this
  have hjk : roots.findIdx (fun r => r.id == s.id) = k := by
    refine rootId_inj hnd hjlen hklen ?_
    rw [hjid, hkeq]
  set j := roots.findIdx (fun r => r.id == s.id) with hjdef
  have hjidx : j < idx := hjk ▸ hkidx
  have hjne : idx ≠ j := by omega
  have hjget : roots[j]? = some s := hjk ▸ hk
  have hslen : (roots.set idx w).length = roots.length := by simp
  have hjlen2 : j < (roots.set idx w).length := by omega
  have hsetj : (roots.set idx w)[j] = roots[j] := List.getElem_set_ne hjne _
  -- multiset bookkeeping
  have e1 := forestPris_set roots idx w hilen
  have e2 := forestPris_eraseIdx (roots.set idx w) j hjlen2
  have e1i := forestIds_set roots idx w hilen
  have e2i := forestIds_eraseIdx (roots.set idx w) j hjlen2
  rw [hsetj] at e2 e2i
  obtain ⟨hjlen3, hjeq⟩ := List.getElem?_eq_some_iff.mp hjget
  rw [hjeq] at e2 e2i
  rw [hieq] at e1 e1i
  have eP : (↑(forestPris ((roots.set idx w).eraseIdx j)) : Multiset (Nat × Int)) =
      ↑(forestPris roots) := by
    have h5 : (↑(forestPris ((roots.set idx w).eraseIdx j)) : Multiset (Nat × Int)) +
        ↑(nodePris s) + ↑(nodePris t) =
        ↑(forestPris roots) + ↑(nodePris s) + ↑(nodePris t) := by
      rw [e2, add_right_comm, e1, hprw]
      abel
    exact add_right_cancel (add_right_cancel h5)
  have eI : (↑(forestIds ((roots.set idx w).eraseIdx j)) : Multiset Nat) =
      ↑(forestIds roots) := by
    have h5 : (↑(forestIds ((roots.set idx w).eraseIdx j)) : Multiset Nat) +
        ↑(nodeIds s) + ↑(nodeIds t) =
        ↑(forestIds roots) + ↑(nodeIds s) + ↑(nodeIds t) := by
      rw [e2i, add_right_comm, e1i, hidw]
      abel
    exact add_right_cancel (add_right_cancel h5)
  have hnd' : (forestIds ((roots.set idx w).eraseIdx j)).Nodup := by
    rw [← Multiset.coe_nodup] at hnd ⊢
    rw [eI]
    exact hnd
  have hglen : t.degree < (growRank rank t.degree).length := growRank_length rank t.degree
  refine ⟨hjget, hjidx, eP, hnd', ?_, ?_⟩
  · -- H2 for the next state
    intro d s2 hds2
    by_cases hd : t.degree = d
    · subst hd
      rw [List.getElem?_set_self hglen] at hds2
      cases hds2
    · rw [List.getElem?_set_ne hd] at hds2
      have hr2 := growRank_getElem?_some hds2
      obtain ⟨hs2deg, k2, hk2idx, hk2⟩ := h2 d s2 hr2
      refine ⟨hs2deg, ?_⟩
      obtain ⟨hk2len, hk2eq⟩ := List.getElem?_eq_some_iff.mp hk2
      have hs2ne : s2 ≠ s := by
        intro hcon
        rw [hcon] at hs2deg
        exact hd (hsdeg.symm.trans hs2deg)
      have hk2j : k2 ≠ j := by
        intro hcon
        apply hs2ne
        have h9 : roots[k2]? = roots[j]? := by rw [hcon]
        rw [hk2, hjget] at h9
        exact Option.some.inj h9
      have hk2i : k2 ≠ idx := by omega
      have hget : ((roots.set idx w))[k2]? = some s2 := by
        rw [List.getElem?_set_ne (by omega)]
        exact hk2
      by_cases hlt : k2 < j
      · exact ⟨k2, by omega, by
          rw [List.getElem?_eraseIdx_of_lt _ _ _ hlt]
          exact hget⟩
      · refine ⟨k2 - 1, by omega, ?_⟩
        rw [List.getElem?_eraseIdx_of_ge _ _ _ (by omega)]
        have : k2 - 1 + 1 = k2 := by omega
        rw [this]
        exact hget
  · -- H3 for the next state
    intro k' s0 hk0 hk'lt
    have hkk : ∃ k0, k0 < idx ∧ k0 ≠ j ∧ roots[k0]? = some s0 := by
      by_cases hlt : k' < j
      · refine ⟨k', by omega, by omega, ?_⟩
        rw [List.getElem?_eraseIdx_of_lt _ _ _ hlt] at hk0
        rwa [List.getElem?_set_ne (by omega)] at hk0
      · refine ⟨k' + 1, by omega, by omega, ?_⟩
        rw [List.getElem?_eraseIdx_of_ge _ _ _ (by omega)] at hk0
        rwa [List.getElem?_set_ne (by omega)] at hk0
    obtain ⟨k0, hk0idx, hk0j, hget0⟩ := hkk
    have hreg := h3 k0 s0 hget0 hk0idx
    have hs0ne : s0.degree ≠ t.degree := by
      intro hcon
      rw [hcon, hslot] at hreg
      cases hreg
      obtain ⟨h0len, h0eq⟩ := List.getElem?_eq_some_iff.mp hget0
      exact hk0j (rootId_inj hnd h0len hjlen (by rw [h0eq, hjid]))
    rw [List.getElem?_set_ne (fun hc => hs0ne hc.symm)]
    exact growRank_getElem?_pres hreg

/-- The consolidation loop: under the loop invariant (globally distinct
ids; every non-null rank slot holds a root left of the cursor whose
degree indexes the slot; every root left of the cursor is registered),
the loop preserves the `(id, priority)` multiset of the forest, ends with
pairwise distinct root degrees, and every final root priority is the
priority of some initial root. -/
theorem consolidateGo_main :
    ∀ roots : List Node, ∀ idx : Nat, ∀ rank : List (Option Node),
      (forestIds roots).Nodup →
      (∀ d s2, rank[d]? = some (some s2) →
        s2.degree = d ∧ ∃ k, k < idx ∧ roots[k]? = some s2) →
      (∀ k s0, roots[k]? = some s0 → k < idx →
        rank[s0.degree]? = some (some s0)) →
      ∀ out, consolidateGo roots idx rank = some out →
        (↑(forestPris out) : Multiset (Nat × Int)) = ↑(forestPris roots) ∧
        (out.map Node.degree).Nodup ∧
        ∀ x ∈ out, ∃ y ∈ roots, y.priority = x.priority := by
  intro roots idx rank
  induction roots, idx, rank using consolidateGo.induct with
  | case1 roots idx rank hidx hslot ih =>
    intro hnd h2 h3 out hout
    rw [consolidateGo, dif_pos hidx] at hout
    simp only [hslot] at hout
    have hglen := growRank_length rank (roots[idx].degree)
    have ht0 : roots[idx]? = some roots[idx] := List.getElem?_eq_some_iff.mpr ⟨hidx, rfl⟩
    refine ih hnd ?_ ?_ out hout
    · intro d s hds
      by_cases hd : roots[idx].degree = d
      · subst hd
        rw [List.getElem?_set_self hglen] at hds
        cases hds
        exact ⟨rfl, idx, by omega, ht0⟩
      · rw [List.getElem?_set_ne hd] at hds
        obtain ⟨hdeg, k, hkidx, hk⟩ := h2 d s (growRank_getElem?_some hds)
        exact ⟨hdeg, k, by omega, hk⟩
    · intro k s0 hget hklt
      by_cases hk : k = idx
      · subst hk
        rw [ht0] at hget
        cases hget
        rw [List.getElem?_set_self hglen]
      · have hreg := h3 k s0 hget (by omega)
        have hs0ne : s0.degree ≠ roots[idx].degree := by
          intro hcon
          rw [hcon] at hreg
          rw [growRank_getElem?_pres hreg] at hslot
          exact absurd hslot (by simp)
        rw [List.getElem?_set_ne (fun hc => hs0ne hc.symm)]
        exact growRank_getElem?_pres hreg
  | case2 roots idx rank hidx s hslot hj hlt ih =>
    intro hnd h2 h3 out hout
    rw [consolidateGo, dif_pos hidx] at hout
    simp only [hslot] at hout
    rw [dif_pos hj, if_pos hlt] at hout
    have ht0 : roots[idx]? = some roots[idx] := List.getElem?_eq_some_iff.mpr ⟨hidx, rfl⟩
    obtain ⟨hjget, hjidx, eP, hnd', h2', h3'⟩ :=
      merge_aux roots idx rank s (roots[idx])
        (Node.mk s.id s.value s.priority s.marked
          (if s.degree ≤ roots[idx].degree then roots[idx].degree + 1 else s.degree)
          (s.children ++ [roots[idx]]))
        hnd h2 h3 ht0 (growRank_slot_eq hslot) (link_ids s roots[idx] _)
        (link_pris s roots[idx] _)
    obtain ⟨q1, q2, q3⟩ := ih hnd' h2' h3' out hout
    refine ⟨q1.trans eP, q2, ?_⟩
    intro x hx
    obtain ⟨y, hy, hypri⟩ := q3 x hx
    have hy2 := (List.eraseIdx_sublist _ _).mem hy
    rcases List.mem_or_eq_of_mem_set hy2 with hy2 | rfl
    · exact ⟨y, hy2, hypri⟩
    · exact ⟨s, List.getElem?_mem hjget, hypri⟩
  | case3 roots idx rank hidx s hslot hj hlt ih =>
    intro hnd h2 h3 out hout
    rw [consolidateGo, dif_pos hidx] at hout
    simp only [hslot] at hout
    rw [dif_pos hj, if_neg hlt] at hout
    have ht0 : roots[idx]? = some roots[idx] := List.getElem?_eq_some_iff.mpr ⟨hidx, rfl⟩
    obtain ⟨hjget, hjidx, eP, hnd', h2', h3'⟩ :=
      merge_aux roots idx rank s (roots[idx])
        (Node.mk roots[idx].id roots[idx].value roots[idx].priority roots[idx].marked
          (if roots[idx].degree ≤ s.degree then s.degree + 1 else roots[idx].degree)
          (roots[idx].children ++ [s]))
        hnd h2 h3 ht0 (growRank_slot_eq hslot)
        ((link_ids roots[idx] s _).trans (add_comm _ _))
        ((link_pris roots[idx] s _).trans (add_comm _ _))
    obtain ⟨q1, q2, q3⟩ := ih hnd' h2' h3' out hout
    refine ⟨q1.trans eP, q2, ?_⟩
    intro x hx
    obtain ⟨y, hy, hypri⟩ := q3 x hx
    have hy2 := (List.eraseIdx_sublist _ _).mem hy
    rcases List.mem_or_eq_of_mem_set hy2 with hy2 | rfl
    · exact ⟨y, hy2, hypri⟩
    · exact ⟨roots[idx], List.getElem?_mem ht0, hypri⟩
  | case4 roots idx rank hidx s hslot hj =>
    intro hnd h2 h3 out hout
    rw [consolidateGo, dif_pos hidx] at hout
    simp only [hslot] at hout
    rw [dif_neg hj] at hout
    exact absurd hout (by simp)
  | case5 roots idx rank hidx =>
    intro hnd h2 h3 out hout
    rw [consolidateGo, dif_neg hidx] at hout
    cases hout
    refine ⟨rfl, ?_, fun x hx => ⟨x, hx, rfl⟩⟩
    refine List.nodup_iff_injective_get.mpr ?_
    rintro ⟨ka, hka⟩ ⟨kb, hkb⟩ heq
    have hka' : ka < roots.length := by simpa using hka
    have hkb' : kb < roots.length := by simpa using hkb
    simp only [List.get_eq_getElem, List.getElem_map] at heq
    have ra := h3 ka roots[ka] (List.getElem?_eq_some_iff.mpr ⟨hka', rfl⟩) (by omega)
    have rb := h3 kb roots[kb] (List.getElem?_eq_some_iff.mpr ⟨hkb', rfl⟩) (by omega)
    rw [heq] at ra
    rw [ra] at rb
    have hab : roots[ka] = roots[kb] := by
      have h9 := Option.some.inj (Option.some.inj rb)
      exact h9
    have := rootId_inj hnd hka' hkb' (by rw [hab])
    exact Fin.ext this

theorem nodeIds_remk (n : Node) (v : Nat) (p : Int) (m : Bool) (d : Nat) :
    nodeIds (Node.mk n.id v p m d n.children) = nodeIds n := by
  rw [nodeIds_mk, nodeIds_eta n]

theorem spineIds_cons (c : Ctx) (rest : List Ctx) :
    spineIds (c :: rest) = ctxIds c ++ spineIds rest := by
  simp [spineIds]

theorem spineIds_setDegreeCtxs (child : Node) (spine : List Ctx) :
    spineIds (setDegreeCtxs child spine) = spineIds spine := by
  induction spine generalizing child with
  | nil => rfl
  | cons ctx rest ih =>
    rw [setDegreeCtxs]
    by_cases hd : computeDeg (ctx.pre ++ child :: ctx.post) = ctx.degree
    · simp only [hd, if_true]
    · simp only [hd, if_false]
      rw [spineIds_cons, spineIds_cons, ih]
      rfl

theorem spineIds_ite {d' d : Nat} {spine : List Ctx} {curr' : Node} :
    spineIds (if d' = d then spine else setDegreeCtxs curr' spine) = spineIds spine := by
  by_cases h : d' = d <;> simp [h, spineIds_setDegreeCtxs]

theorem setDegreeFull_fst_ids (n : Node) (spine : List Ctx) :
    nodeIds (setDegreeFull n spine).1 = nodeIds n :=
  nodeIds_remk n n.value n.priority n.marked (computeDeg n.children)

theorem setDegreeFull_snd_ids (n : Node) (spine : List Ctx) :
    spineIds (setDegreeFull n spine).2 = spineIds spine := by
  rw [setDegreeFull]
  by_cases hd : computeDeg n.children = n.degree <;> simp [hd, spineIds_setDegreeCtxs]

theorem nodeIds_dropHole_ctx (c : Ctx) : nodeIds c.dropHole = ctxIds c :=
  nodeIds_dropHole c

/-- `mark_utility` only moves nodes: the ids of the current node, its
ancestor stack and the pushed roots are preserved as a multiset. -/
theorem markUtilSpine_ids (n : Node) (spine : List Ctx) (acc : List Node) :
    (↑(nodeIds (markUtilSpine n spine acc).1) : Multiset Nat) +
      ↑(spineIds (markUtilSpine n spine acc).2.1) +
      ↑(forestIds (markUtilSpine n spine acc).2.2) =
      ↑(nodeIds n) + ↑(spineIds spine) + ↑(forestIds acc) := by
  induction n, spine, acc using markUtilSpine.induct with
  | case1 n acc =>
    rw [markUtilSpine]
  | case2 n acc ctx rest hm =>
    rw [markUtilSpine, if_pos hm]
    rw [nodeIds_remk]
  | case3 n acc ctx rest hm cut pr ih =>
    rw [markUtilSpine, if_neg hm]
    rw [ih]
    rw [setDegreeFull_fst_ids, setDegreeFull_snd_ids, nodeIds_dropHole_ctx,
      forestIds_append, spineIds_cons]
    have hcut : forestIds [Node.mk n.id n.value n.priority false n.degree n.children] =
        nodeIds n := by
      rw [forestIds_cons, nodeIds_remk]
      simp [forestIds]
    rw [hcut]
    simp only [← Multiset.coe_add]
    abel

/-- The decrease-branch cut loop preserves the id multiset. -/
theorem decreaseLoop_ids (curr : Node) (spine : List Ctx) (acc : List Node) :
    (↑(nodeIds (decreaseLoop curr spine acc).1) : Multiset Nat) +
      ↑(spineIds (decreaseLoop curr spine acc).2.1) +
      ↑(forestIds (decreaseLoop curr spine acc).2.2) =
      ↑(nodeIds curr) + ↑(spineIds spine) + ↑(forestIds acc) := by
  induction curr, spine, acc using decreaseLoop.induct with
  | case1 curr acc =>
    rw [decreaseLoop]
  | case2 curr acc ctx hlt =>
    rw [decreaseLoop, if_pos hlt]
    rw [setDegreeFull_fst_ids, nodeIds_dropHole_ctx, forestIds_append, spineIds_cons]
    have hcut : forestIds [Node.mk curr.id curr.value curr.priority false curr.degree
        curr.children] = nodeIds curr := by
      rw [forestIds_cons, nodeIds_remk]
      simp [forestIds]
    rw [hcut]
    simp only [spineIds, List.map_nil, List.flatten_nil, ← Multiset.coe_add]
    abel
  | case3 curr acc ctx hlt =>
    rw [decreaseLoop, if_neg hlt]
  | case4 curr acc ctx c2 rest2 hlt cut pr hm ih =>
    rw [decreaseLoop, if_pos hlt, if_pos hm]
    rw [ih]
    rw [nodeIds_remk, setDegreeFull_fst_ids, setDegreeFull_snd_ids, nodeIds_dropHole_ctx,
      forestIds_append, spineIds_cons]
    have hcut : forestIds [Node.mk curr.id curr.value curr.priority false curr.degree
        curr.children] = nodeIds curr := by
      rw [forestIds_cons, nodeIds_remk]
      simp [forestIds]
    rw [hcut]
    simp only [spineIds_cons, ← Multiset.coe_add]
    abel
  | case5 curr acc ctx c2 rest2 hlt pr hm =>
    rw [decreaseLoop, if_pos hlt, if_neg hm]
    rw [markUtilSpine_ids]
    rw [setDegreeFull_fst_ids, setDegreeFull_snd_ids, nodeIds_dropHole_ctx,
      forestIds_append, spineIds_cons]
    have hcut : forestIds [Node.mk curr.id curr.value curr.priority false curr.degree
        curr.children] = nodeIds curr := by
      rw [forestIds_cons, nodeIds_remk]
      simp [forestIds]
    rw [hcut]
    simp only [spineIds_cons, ← Multiset.coe_add]
    abel
  | case6 curr acc ctx c2 rest2 hlt =>
    rw [decreaseLoop, if_neg hlt]

/-- The rooted child scan of the increase branch preserves the id
multiset. -/
theorem increaseRooted_ids (i v : Nat) (p : Int) (m : Bool) (d : Nat)
    (kept todo accPost : List Node) :
    (↑(nodeIds (increaseRooted i v p m d kept todo accPost).1) : Multiset Nat) +
      ↑(forestIds (increaseRooted i v p m d kept todo accPost).2) =
      ↑(nodeIds (Node.mk i v p m d (kept ++ todo))) + ↑(forestIds accPost) := by
  induction todo generalizing d kept accPost with
  | nil =>
    rw [increaseRooted]
    simp
  | cons c rest ih =>
    rw [increaseRooted]
    by_cases hc : c.priority < p
    · rw [if_pos hc, ih, nodeIds_mk, nodeIds_mk]
      have e0 : forestIds ([] : List Node) = [] := rfl
      have e1 : ((kept ++ rest).map nodeIds).flatten = forestIds (kept ++ rest) := rfl
      have e2 : ((kept ++ c :: rest).map nodeIds).flatten = forestIds (kept ++ c :: rest) := rfl
      rw [e1, e2]
      simp only [forestIds_append, forestIds_cons, nodeIds_remk, e0, List.append_nil]
      simp only [← Multiset.cons_coe, ← Multiset.coe_add, Multiset.cons_add]
      congr 1
      abel
    · rw [if_neg hc]
      rw [ih]
      have e3 : (kept ++ [c]) ++ rest = kept ++ c :: rest := by simp
      rw [e3]

/-- The id list of a one-tree forest. -/
theorem forestIds_singleton (x : Node) : forestIds [x] = nodeIds x := by
  rw [forestIds_cons]
  simp [forestIds]

/-- The in-tree child scan of the increase branch preserves the id
multiset of the node's tree, its ancestor stack and the pushed roots. -/
theorem increaseInTree_ids (i v : Nat) (p : Int) (m : Bool) (d : Nat)
    (kept todo : List Node) (spine : List Ctx) (acc : List Node) :
    (↑(nodeIds (increaseInTree i v p m d kept todo spine acc).1) : Multiset Nat) +
      ↑(forestIds (increaseInTree i v p m d kept todo spine acc).2) =
      ↑(nodeIds (Node.mk i v p m d (kept ++ todo))) + ↑(spineIds spine) +
        ↑(forestIds acc) := by
  induction todo generalizing m d kept spine acc with
  | nil =>
    rw [increaseInTree, plug_ids]
    simp only [List.append_nil, ← Multiset.coe_add]
  | cons c rest ih =>
    rw [increaseInTree_cons_eq]
    have hsplit : ∀ m' : Bool, ∀ d1 d2 : Nat,
        (↑(nodeIds (Node.mk i v p m' d1 (kept ++ c :: rest))) : Multiset Nat) =
        ↑(nodeIds (Node.mk i v p m' d2 (kept ++ rest))) + ↑(nodeIds c) := by
      intro m' d1 d2
      rw [nodeIds_mk, nodeIds_mk]
      have e1 : ((kept ++ rest).map nodeIds).flatten = forestIds (kept ++ rest) := rfl
      have e2 : ((kept ++ c :: rest).map nodeIds).flatten =
          forestIds (kept ++ c :: rest) := rfl
      rw [e1, e2, forestIds_append, forestIds_append, forestIds_cons]
      simp only [← Multiset.cons_coe, ← Multiset.coe_add, Multiset.cons_add]
      congr 1
      abel
    by_cases hc : c.priority < p
    · rw [if_pos hc]
      rcases hsp : (if computeDeg (kept ++ rest) = d then spine
          else setDegreeCtxs (Node.mk i v p m (computeDeg (kept ++ rest))
            (kept ++ rest)) spine) with _ | ⟨ctx1, rest1⟩
      · have hspid : spineIds spine = [] := by
          have h9 : spineIds (if computeDeg (kept ++ rest) = d then spine
              else setDegreeCtxs (Node.mk i v p m (computeDeg (kept ++ rest))
                (kept ++ rest)) spine) = spineIds spine := spineIds_ite
          rw [hsp] at h9
          exact h9.symm
        show (↑(nodeIds (increaseInTree i v p m (computeDeg (kept ++ rest)) kept rest []
            (acc ++ [Node.mk c.id c.value c.priority false c.degree c.children])).1) :
              Multiset Nat) +
            ↑(forestIds (increaseInTree i v p m (computeDeg (kept ++ rest)) kept rest []
            (acc ++ [Node.mk c.id c.value c.priority false c.degree c.children])).2) = _
        rw [ih]
        rw [forestIds_append, forestIds_singleton, nodeIds_remk,
          hsplit m d (computeDeg (kept ++ rest)), hspid]
        simp only [spineIds, List.map_nil, List.flatten_nil, ← Multiset.coe_add]
        abel
      · have hspid : spineIds (ctx1 :: rest1) = spineIds spine := by
          have h9 : spineIds (if computeDeg (kept ++ rest) = d then spine
              else setDegreeCtxs (Node.mk i v p m (computeDeg (kept ++ rest))
                (kept ++ rest)) spine) = spineIds spine := spineIds_ite
          rw [hsp] at h9
          exact h9
        by_cases hm : m = false
        · subst hm
          show (↑(nodeIds (increaseInTree i v p true (computeDeg (kept ++ rest)) kept rest
              (ctx1 :: rest1)
              (acc ++ [Node.mk c.id c.value c.priority false c.degree c.children])).1) :
                Multiset Nat) +
              ↑(forestIds (increaseInTree i v p true (computeDeg (kept ++ rest)) kept rest
              (ctx1 :: rest1)
              (acc ++ [Node.mk c.id c.value c.priority false c.degree c.children])).2) = _
          rw [ih]
          rw [forestIds_append, forestIds_singleton, nodeIds_remk,
            hsplit false d (computeDeg (kept ++ rest)), ← hspid]
          have hone : (↑(nodeIds (Node.mk i v p true (computeDeg (kept ++ rest))
              (kept ++ rest))) : Multiset Nat) =
              ↑(nodeIds (Node.mk i v p false (computeDeg (kept ++ rest)) (kept ++ rest))) := by
            rw [nodeIds_mk, nodeIds_mk]
          rw [hone]
          simp only [← Multiset.coe_add]
          abel
        · have hmt : m = true := by cases m <;> simp_all
          subst hmt
          show (↑(nodeIds (plug (markUtilSpine (setDegreeFull ctx1.dropHole rest1).1
                  (setDegreeFull ctx1.dropHole rest1).2 []).1
                (markUtilSpine (setDegreeFull ctx1.dropHole rest1).1
                  (setDegreeFull ctx1.dropHole rest1).2 []).2.1)) : Multiset Nat) +
              ↑(forestIds (acc ++ [Node.mk c.id c.value c.priority false c.degree c.children]
                ++ [(increaseRooted i v p false (computeDeg (kept ++ rest)) kept rest []).1]
                ++ (markUtilSpine (setDegreeFull ctx1.dropHole rest1).1
                    (setDegreeFull ctx1.dropHole rest1).2 []).2.2
                ++ (increaseRooted i v p false (computeDeg (kept ++ rest)) kept rest []).2)) = _
          rw [plug_ids]
          have hmu := markUtilSpine_ids (setDegreeFull ctx1.dropHole rest1).1
            (setDegreeFull ctx1.dropHole rest1).2 []
          rw [setDegreeFull_fst_ids, setDegreeFull_snd_ids, nodeIds_dropHole_ctx] at hmu
          have hmu2 : (↑(nodeIds (markUtilSpine (setDegreeFull ctx1.dropHole rest1).1
                (setDegreeFull ctx1.dropHole rest1).2 []).1) : Multiset Nat) +
              ↑(spineIds (markUtilSpine (setDegreeFull ctx1.dropHole rest1).1
                (setDegreeFull ctx1.dropHole rest1).2 []).2.1) +
              ↑(forestIds (markUtilSpine (setDegreeFull ctx1.dropHole rest1).1
                (setDegreeFull ctx1.dropHole rest1).2 []).2.2) =
              ↑(ctxIds ctx1) + ↑(spineIds rest1) := by
            rw [hmu]
            simp [forestIds]
          have hfin := increaseRooted_ids i v p false (computeDeg (kept ++ rest)) kept rest []
          have hfin2 : (↑(nodeIds (increaseRooted i v p false (computeDeg (kept ++ rest))
                kept rest []).1) : Multiset Nat) +
              ↑(forestIds (increaseRooted i v p false (computeDeg (kept ++ rest))
                kept rest []).2) =
              ↑(nodeIds (Node.mk i v p false (computeDeg (kept ++ rest)) (kept ++ rest))) := by
            rw [hfin]
            simp [forestIds]
          rw [← hspid, spineIds_cons, hsplit true d (computeDeg (kept ++ rest))]
          have hone : (↑(nodeIds (Node.mk i v p true (computeDeg (kept ++ rest))
              (kept ++ rest))) : Multiset Nat) =
              ↑(nodeIds (Node.mk i v p false (computeDeg (kept ++ rest)) (kept ++ rest))) := by
            rw [nodeIds_mk, nodeIds_mk]
          rw [hone]
          simp only [forestIds_append, forestIds_singleton, nodeIds_remk]
          simp only [← Multiset.coe_add]
          calc _ = ((↑(nodeIds (markUtilSpine (setDegreeFull ctx1.dropHole rest1).1
                (setDegreeFull ctx1.dropHole rest1).2 []).1) : Multiset Nat) +
              ↑(spineIds (markUtilSpine (setDegreeFull ctx1.dropHole rest1).1
                (setDegreeFull ctx1.dropHole rest1).2 []).2.1) +
              ↑(forestIds (markUtilSpine (setDegreeFull ctx1.dropHole rest1).1
                (setDegreeFull ctx1.dropHole rest1).2 []).2.2)) +
              ((↑(nodeIds (increaseRooted i v p false (computeDeg (kept ++ rest))
                kept rest []).1) : Multiset Nat) +
              ↑(forestIds (increaseRooted i v p false (computeDeg (kept ++ rest))
                kept rest []).2)) +
              (↑(forestIds acc) + ↑(nodeIds c)) := by abel
            _ = _ := by
              rw [hmu2, hfin2]
              abel
    · rw [if_neg hc]
      rw [ih]
      have e3 : (kept ++ [c]) ++ rest = kept ++ c :: rest := by simp
      rw [e3]

/-- `consolidate_tree` as called (empty table): the invariants of the
loop hold vacuously at entry. -/
theorem consolidate_main {roots out : List Node} (hnd : (forestIds roots).Nodup)
    (h : consolidate roots = some out) :
    (↑(forestPris out) : Multiset (Nat × Int)) = ↑(forestPris roots) ∧
    (out.map Node.degree).Nodup ∧
    ∀ x ∈ out, ∃ y ∈ roots, y.priority = x.priority := by
  refine consolidateGo_main roots 0 [] hnd ?_ ?_ out h
  · intro d s2 hds
    simp at hds
  · intro k s0 hget hk
    omega

/-- Id version of the consolidation multiset preservation. -/
theorem consolidate_ids {roots out : List Node} (hnd : (forestIds roots).Nodup)
    (h : consolidate roots = some out) :
    (↑(forestIds out) : Multiset Nat) = ↑(forestIds roots) := by
  have := congrArg (Multiset.map Prod.fst) (consolidate_main hnd h).1
  simp only [Multiset.map_coe] at this
  simpa only [forestIds_eq_pris_fst] using this

/-- `change_priority` preserves the id multiset of the heap's forest. -/
theorem changePriority_ids (h : Heap) (key : Nat) (oldP newP : Int) :
    (↑(forestIds (changePriority h key oldP newP).roots) : Multiset Nat) =
      ↑(forestIds h.roots) := by
  rcases hf : findPath h.roots key oldP with _ | ⟨ri, n, spine⟩
  · rw [changePriority, hf]
  · rw [changePriority]
    simp only [hf]
    obtain ⟨hroot, hval, hpri⟩ := findPath_spec hf
    obtain ⟨hrilen, hrieq⟩ := List.getElem?_eq_some_iff.mp hroot
    have hplug : (↑(nodeIds (h.roots[ri])) : Multiset Nat) =
        ↑(nodeIds n) + ↑(spineIds spine) := by
      rw [hrieq, plug_ids]
    by_cases h1 : newP < oldP
    · rw [changePriorityFound_dec h1, setMinOp_roots]
      set dl := decreaseLoop (Node.mk n.id n.value newP n.marked n.degree n.children)
        spine [] with hdldef
      have hdl2 : (↑(nodeIds dl.1) : Multiset Nat) + ↑(spineIds dl.2.1) +
          ↑(forestIds dl.2.2) = ↑(nodeIds n) + ↑(spineIds spine) := by
        have h9 := decreaseLoop_ids
          (Node.mk n.id n.value newP n.marked n.degree n.children) spine []
        rw [nodeIds_remk] at h9
        calc (↑(nodeIds dl.1) : Multiset Nat) + ↑(spineIds dl.2.1) + ↑(forestIds dl.2.2)
            = ↑(nodeIds n) + ↑(spineIds spine) + ↑(forestIds ([] : List Node)) := h9
          _ = ↑(nodeIds n) + ↑(spineIds spine) := by simp [forestIds]
      have hset := forestIds_set h.roots ri (plug dl.1 dl.2.1) hrilen
      have keyX : (↑(forestIds (h.roots.set ri (plug dl.1 dl.2.1))) : Multiset Nat) +
          ↑(forestIds dl.2.2) + ↑(nodeIds h.roots[ri]) =
          ↑(forestIds h.roots) + ↑(nodeIds h.roots[ri]) := by
        calc (↑(forestIds (h.roots.set ri (plug dl.1 dl.2.1))) : Multiset Nat) +
            ↑(forestIds dl.2.2) + ↑(nodeIds h.roots[ri])
            = (↑(forestIds (h.roots.set ri (plug dl.1 dl.2.1))) +
              ↑(nodeIds h.roots[ri])) + ↑(forestIds dl.2.2) := by abel
          _ = (↑(forestIds h.roots) + ↑(nodeIds (plug dl.1 dl.2.1))) +
              ↑(forestIds dl.2.2) := by rw [hset]
          _ = ↑(forestIds h.roots) + (↑(nodeIds dl.1) + ↑(spineIds dl.2.1) +
              ↑(forestIds dl.2.2)) := by rw [plug_ids]; abel
          _ = ↑(forestIds h.roots) + (↑(nodeIds n) + ↑(spineIds spine)) := by rw [hdl2]
          _ = ↑(forestIds h.roots) + ↑(nodeIds h.roots[ri]) := by rw [hplug]
      rw [forestIds_append]
      simp only [← Multiset.coe_add]
      exact add_right_cancel keyX
    · by_cases h2 : oldP < newP
      · rw [changePriorityFound_inc h1 h2, setMinOp_roots]
        set it := increaseInTree n.id n.value newP n.marked n.degree [] n.children
          spine [] with hitdef
        have hit2 : (↑(nodeIds it.1) : Multiset Nat) + ↑(forestIds it.2) =
            ↑(nodeIds n) + ↑(spineIds spine) := by
          have h9 := increaseInTree_ids n.id n.value newP n.marked n.degree [] n.children
            spine []
          rw [List.nil_append, nodeIds_remk] at h9
          calc (↑(nodeIds it.1) : Multiset Nat) + ↑(forestIds it.2)
              = ↑(nodeIds n) + ↑(spineIds spine) + ↑(forestIds ([] : List Node)) := h9
            _ = ↑(nodeIds n) + ↑(spineIds spine) := by simp [forestIds]
        have hset := forestIds_set h.roots ri it.1 hrilen
        have keyX : (↑(forestIds (h.roots.set ri it.1)) : Multiset Nat) +
            ↑(forestIds it.2) + ↑(nodeIds h.roots[ri]) =
            ↑(forestIds h.roots) + ↑(nodeIds h.roots[ri]) := by
          calc (↑(forestIds (h.roots.set ri it.1)) : Multiset Nat) +
              ↑(forestIds it.2) + ↑(nodeIds h.roots[ri])
              = (↑(forestIds (h.roots.set ri it.1)) + ↑(nodeIds h.roots[ri])) +
                ↑(forestIds it.2) := by abel
            _ = (↑(forestIds h.roots) + ↑(nodeIds it.1)) + ↑(forestIds it.2) := by rw [hset]
            _ = ↑(forestIds h.roots) + (↑(nodeIds it.1) + ↑(forestIds it.2)) := by abel
            _ = ↑(forestIds h.roots) + (↑(nodeIds n) + ↑(spineIds spine)) := by rw [hit2]
            _ = ↑(forestIds h.roots) + ↑(nodeIds h.roots[ri]) := by rw [hplug]
        rw [forestIds_append]
        simp only [← Multiset.coe_add]
        exact add_right_cancel keyX
      · rw [changePriorityFound_same h1 h2, setMinOp_roots]
        have hset := forestIds_set h.roots ri
          (plug (Node.mk n.id n.value newP n.marked n.degree n.children) spine) hrilen
        have hpl2 : (↑(nodeIds (plug (Node.mk n.id n.value newP n.marked n.degree
            n.children) spine)) : Multiset Nat) = ↑(nodeIds (h.roots[ri])) := by
          rw [plug_ids, nodeIds_remk, hplug]
        rw [hpl2] at hset
        exact add_right_cancel hset

/-- Well-formedness of the model's pointer identities: all node ids in
the heap are distinct, and all are below the allocator's next id. -/
def InvIds (hp : Heap) : Prop :=
  (forestIds hp.roots).Nodup ∧ ∀ i ∈ forestIds hp.roots, i < hp.nextId

theorem insertOp_invIds {h : Heap} (v : Nat) (p : Int) (hi : InvIds h) :
    InvIds (insertOp h v p) := by
  obtain ⟨hnd, hb⟩ := hi
  have hids : forestIds (insertOp h v p).roots = forestIds h.roots ++ [h.nextId] := by
    show forestIds (h.roots ++ [Node.mk h.nextId v p false 0 []]) = _
    rw [forestIds_append, forestIds_singleton, nodeIds_mk]
    simp
  constructor
  · rw [hids]
    rw [List.nodup_append]
    refine ⟨hnd, by simp, ?_⟩
    rw [List.disjoint_singleton]
    intro hc
    exact absurd (hb _ hc) (by omega)
  · intro i hi2
    rw [hids] at hi2
    show i < h.nextId + 1
    rcases List.mem_append.1 hi2 with hm | hm
    · exact lt_trans (hb i hm) (by omega)
    · rcases List.mem_singleton.1 hm with rfl
      omega

theorem deleteMin_invIds {h h' : Heap} (hd : deleteMin h = some h') (hi : InvIds h) :
    InvIds h' := by
  obtain ⟨hnd, hb⟩ := hi
  rw [deleteMin] at hd
  rcases hmr : h.minRef with _ | mr
  · simp only [hmr] at hd
    cases hd
    exact ⟨hnd, hb⟩
  · simp only [hmr] at hd
    rcases hcl : clearChildrenList mr.1 h.roots with _ | ⟨forest1, kids⟩
    · simp only [hcl] at hd
      exact Option.noConfusion hd
    · simp only [hcl] at hd
      rcases hfi : (forest1 ++ kids).findIdx? (fun r => r.id == mr.1) with _ | j
      · simp only [hfi] at hd
        exact Option.noConfusion hd
      · simp only [hfi, setMinOp_roots] at hd
        obtain ⟨hjlen, -⟩ := List.findIdx?_eq_some_iff_findIdx_eq.mp hfi
        have e1 : (↑(forestIds (forest1 ++ kids)) : Multiset Nat) =
            ↑(forestIds h.roots) := by
          rw [forestIds_append]
          simp only [← Multiset.coe_add]
          exact clearChildren_ids mr.1 h.roots (forest1, kids) hcl
        have e2 := forestIds_eraseIdx (forest1 ++ kids) j (by simpa using hjlen)
        have hle : (↑(forestIds ((forest1 ++ kids).eraseIdx j)) : Multiset Nat) ≤
            ↑(forestIds h.roots) := by
          rw [← e1, ← e2, add_comm]
          exact le_add_self
        have hnd2 : (forestIds ((forest1 ++ kids).eraseIdx j)).Nodup := by
          rw [← Multiset.coe_nodup] at hnd ⊢
          exact Multiset.nodup_of_le hle hnd
        rcases hcons : consolidate ((forest1 ++ kids).eraseIdx j) with _ | roots2
        · simp only [hcons] at hd
          exact Option.noConfusion hd
        · simp only [hcons] at hd
          cases hd
          have e3 := consolidate_ids hnd2 hcons
          constructor
          · show (forestIds roots2).Nodup
            rw [← Multiset.coe_nodup] at hnd ⊢
            rw [e3]
            exact Multiset.nodup_of_le hle hnd
          · intro i hi2
            show i < h.nextId
            refine hb i ?_
            have hi3 : i ∈ (↑(forestIds roots2) : Multiset Nat) := by simpa using hi2
            rw [e3] at hi3
            have := Multiset.mem_of_le hle hi3
            simpa using this

theorem changePriority_nextId (h : Heap) (key : Nat) (oldP newP : Int) :
    (changePriority h key oldP newP).nextId = h.nextId := by
  rcases hf : findPath h.roots key oldP with _ | ⟨ri, n, spine⟩
  · rw [changePriority, hf]
  · rw [changePriority]
    simp only [hf]
    by_cases h1 : newP < oldP
    · rw [changePriorityFound_dec h1]
      rfl
    · by_cases h2 : oldP < newP
      · rw [changePriorityFound_inc h1 h2]
        rfl
      · rw [changePriorityFound_same h1 h2]
        rfl

theorem changePriority_invIds {h : Heap} (key : Nat) (oldP newP : Int)
    (hi : InvIds h) : InvIds (changePriority h key oldP newP) := by
  obtain ⟨hnd, hb⟩ := hi
  have e := changePriority_ids h key oldP newP
  constructor
  · rw [← Multiset.coe_nodup] at hnd ⊢
    rw [e]
    exact hnd
  · intro i hi2
    rw [changePriority_nextId]
    refine hb i ?_
    have hi3 : i ∈ (↑(forestIds (changePriority h key oldP newP).roots) : Multiset Nat) := by
      simpa using hi2
    rw [e] at hi3
    simpa using hi3

theorem heapAdd_invIds {a b c : Heap} (hadd : heapAdd a b = some c)
    (hdisj : List.Disjoint (forestIds a.roots) (forestIds b.roots))
    (hia : InvIds a) (hib : InvIds b) : InvIds c := by
  have hroots := heapAdd_roots hadd
  have hnext : c.nextId = max a.nextId b.nextId := by
    rw [heapAdd] at hadd
    rcases hbm : b.minRef with _ | bm
    · simp only [hbm] at hadd
      exact Option.noConfusion hadd
    · simp only [hbm] at hadd
      rcases ham : a.minRef with _ | am
      · simp only [ham] at hadd
        exact Option.noConfusion hadd
      · simp only [ham] at hadd
        cases hadd
        rfl
  constructor
  · rw [hroots, forestIds_append, List.nodup_append]
    exact ⟨hia.1, hib.1, hdisj⟩
  · intro i hi2
    rw [hroots, forestIds_append] at hi2
    rw [hnext]
    rcases List.mem_append.1 hi2 with hm | hm
    · exact lt_of_lt_of_le (hia.2 i hm) (le_max_left _ _)
    · exact lt_of_lt_of_le (hib.2 i hm) (le_max_right _ _)

/-- Every reachable heap has globally distinct, allocator-bounded ids. -/
theorem reachable_invIds {h : Heap} (hr : Reachable h) : InvIds h := by
  induction hr with
  | empty n => exact ⟨by simp [emptyHeap, forestIds], by simp [emptyHeap, forestIds]⟩
  | insert v p hr ih => exact insertOp_invIds v p ih
  | deleteMin hr hd ih => exact deleteMin_invIds hd ih
  | changePriority k oldP newP hr ih => exact changePriority_invIds k oldP newP ih
  | union hra hrb hdisj hadd iha ihb => exact heapAdd_invIds hadd hdisj iha ihb
  | unionAssign hra hrb hdisj hadd iha ihb =>
    rw [heapAddAssign_eq_heapAdd] at hadd
    exact heapAdd_invIds hadd hdisj iha ihb

/-- A root's own `(id, priority)` pair occurs in the forest pairs. -/
theorem rootPair_mem_forestPris {r : Node} {l : List Node} (h : r ∈ l) :
    (r.id, r.priority) ∈ forestPris l := by
  induction l with
  | nil => cases h
  | cons x rest ih =>
    rw [forestPris_cons]
    rcases List.mem_cons.1 h with rfl | h
    · rw [nodePris_eta]
      simp
    · exact List.mem_append.2 (Or.inr (ih h))

/-- A forest has pairs exactly when it has trees. -/
theorem forestPris_eq_nil_iff (l : List Node) : forestPris l = [] ↔ l = [] := by
  cases l with
  | nil => simp [forestPris]
  | cons x rest =>
    simp only [forestPris_cons, nodePris_eta]
    simp

/-- Specification of `set_min`'s scan (`FibonacciHeap.h`, lines 338-347),
generalised over the accumulator. -/
theorem minFold_spec : ∀ (l : List Node) (acc : Option (Nat × Int)),
    (l.foldl (fun acc r =>
      match acc with
      | none => some (r.id, r.priority)
      | some mr => if r.priority ≤ mr.2 then some (r.id, r.priority) else acc) acc = none
      ↔ (acc = none ∧ l = [])) ∧
    ∀ mr, l.foldl (fun acc r =>
      match acc with
      | none => some (r.id, r.priority)
      | some mr => if r.priority ≤ mr.2 then some (r.id, r.priority) else acc) acc =
        some mr →
      ((∃ r ∈ l, mr = (r.id, r.priority)) ∨ acc = some mr) ∧
      (∀ t ∈ l, mr.2 ≤ t.priority) ∧
      (∀ m0, acc = some m0 → mr.2 ≤ m0.2) := by
  intro l
  induction l with
  | nil =>
    intro acc
    constructor
    · simp
    · intro mr hmr
      rw [List.foldl_nil] at hmr
      exact ⟨Or.inr hmr, by simp, fun m0 h0 => by rw [h0] at hmr; cases hmr; exact le_refl _⟩
  | cons r rest ih =>
    intro acc
    rw [List.foldl_cons]
    rcases acc with _ | m0
    all_goals simp only []
    · constructor
      · rw [(ih (some (r.id, r.priority))).1]
        simp
      · intro mr hmr
        obtain ⟨hor, hmin, hacc⟩ := (ih (some (r.id, r.priority))).2 mr hmr
        have hr2 : mr.2 ≤ r.priority := hacc (r.id, r.priority) rfl
        constructor
        · rcases hor with ⟨r2, hr2m, he⟩ | he
          · exact Or.inl ⟨r2, by simp [hr2m], he⟩
          · exact Or.inl ⟨r, by simp, (Option.some.inj he).symm⟩
        refine ⟨?_, by simp⟩
        intro t ht
        rcases List.mem_cons.1 ht with rfl | ht
        · exact hr2
        · exact hmin t ht
    · by_cases hle : r.priority ≤ m0.2
      · rw [if_pos hle]
        constructor
        · rw [(ih (some (r.id, r.priority))).1]
          simp
        · intro mr hmr
          obtain ⟨hor, hmin, hacc⟩ := (ih (some (r.id, r.priority))).2 mr hmr
          have hr2 : mr.2 ≤ r.priority := hacc (r.id, r.priority) rfl
          constructor
          · rcases hor with ⟨r2, hr2m, he⟩ | he
            · exact Or.inl ⟨r2, by simp [hr2m], he⟩
            · exact Or.inl ⟨r, by simp, (Option.some.inj he).symm⟩
          refine ⟨?_, ?_⟩
          · intro t ht
            rcases List.mem_cons.1 ht with rfl | ht
            · exact hr2
            · exact hmin t ht
          · intro m1 h1
            cases h1
            exact le_trans hr2 hle
      · rw [if_neg hle]
        constructor
        · rw [(ih (some m0)).1]
          simp
        · intro mr hmr
          obtain ⟨hor, hmin, hacc⟩ := (ih (some m0)).2 mr hmr
          have hr2 : mr.2 ≤ m0.2 := hacc m0 rfl
          constructor
          · rcases hor with ⟨r2, hr2m, he⟩ | he
            · exact Or.inl ⟨r2, by simp [hr2m], he⟩
            · exact Or.inr he
          refine ⟨?_, ?_⟩
          · intro t ht
            rcases List.mem_cons.1 ht with rfl | ht
            · exact le_trans hr2 (le_of_lt (lt_of_not_le hle))
            · exact hmin t ht
          · intro m1 h1
            cases h1
            exact hr2

/-- Specification of `setMinOp`: the recomputed reference is empty iff the
root list is, and otherwise holds a root's pair of minimal priority. -/
theorem setMinOp_minRef_spec (hp : Heap) :
    ((setMinOp hp).minRef = none ↔ hp.roots = []) ∧
    ∀ mr, (setMinOp hp).minRef = some mr →
      (∃ r ∈ hp.roots, mr = (r.id, r.priority)) ∧ ∀ t ∈ hp.roots, mr.2 ≤ t.priority := by
  constructor
  · show (hp.roots.foldl _ none = none ↔ _)
    rw [(minFold_spec hp.roots none).1]
    simp
  · intro mr hmr
    obtain ⟨hor, hmin, -⟩ := (minFold_spec hp.roots none).2 mr hmr
    rcases hor with hor | hor
    · exact ⟨hor, hmin⟩
    · exact absurd hor (by simp)

/-- The weak cached-minimum invariant the code actually maintains:
`min_node` is null exactly when the heap is empty, and otherwise holds
the id and current priority of a live node whose priority is at most
every root's (the node need not itself be a root). -/
def MinOk (hp : Heap) : Prop :=
  (hp.minRef = none ↔ hp.roots = []) ∧
  ∀ mr, hp.minRef = some mr →
    mr ∈ forestPris hp.roots ∧ ∀ t ∈ hp.roots, mr.2 ≤ t.priority

/-- Any heap just passed through `set_min` satisfies the invariant. -/
theorem setMinOp_minOk (hp : Heap) : MinOk (setMinOp hp) := by
  obtain ⟨hiff, hsome⟩ := setMinOp_minRef_spec hp
  constructor
  · rw [hiff]
    rw [setMinOp_roots]
  · intro mr hmr
    obtain ⟨⟨r, hrm, rfl⟩, hmin⟩ := hsome mr hmr
    rw [setMinOp_roots]
    exact ⟨rootPair_mem_forestPris hrm, hmin⟩

theorem insertOp_minOk {h : Heap} (v : Nat) (p : Int) (hm : MinOk h) :
    MinOk (insertOp h v p) := by
  obtain ⟨hiff, hsome⟩ := hm
  constructor
  · refine iff_of_false ?_ ?_
    · rcases hm0 : h.minRef with _ | m0
      · simp [insertOp, hm0]
      · by_cases hgt : m0.2 > p <;> simp [insertOp, hm0, hgt]
    · simp [insertOp]
  · intro mr hmr
    rcases hm0 : h.minRef with _ | m0
    · have he : (insertOp h v p).minRef = some (h.nextId, p) := by simp [insertOp, hm0]
      rw [he] at hmr
      cases hmr
      have hroots : h.roots = [] := hiff.mp hm0
      constructor
      · have hmem : Node.mk h.nextId v p false 0 [] ∈ (insertOp h v p).roots := by
          simp [insertOp]
        exact rootPair_mem_forestPris hmem
      · intro t ht
        have ht2 : t ∈ h.roots ++ [Node.mk h.nextId v p false 0 []] := ht
        rw [hroots] at ht2
        rcases List.mem_singleton.1 (by simpa using ht2) with rfl
        exact le_refl _
    · obtain ⟨hm0mem, hm0min⟩ := hsome m0 hm0
      by_cases hgt : m0.2 > p
      · have he : (insertOp h v p).minRef = some (h.nextId, p) := by
          simp [insertOp, hm0, hgt]
        rw [he] at hmr
        cases hmr
        constructor
        · have hmem : Node.mk h.nextId v p false 0 [] ∈ (insertOp h v p).roots := by
            simp [insertOp]
          exact rootPair_mem_forestPris hmem
        · intro t ht
          have ht2 : t ∈ h.roots ++ [Node.mk h.nextId v p false 0 []] := ht
          rcases List.mem_append.1 ht2 with ht2 | ht2
          · exact le_trans (le_of_lt hgt) (hm0min t ht2)
          · rcases List.mem_singleton.1 ht2 with rfl
            exact le_refl _
      · have he : (insertOp h v p).minRef = some m0 := by
          simp [insertOp, hm0, hgt]
        rw [he] at hmr
        cases hmr
        constructor
        · show mr ∈ forestPris (h.roots ++ [Node.mk h.nextId v p false 0 []])
          rw [forestPris_append]
          exact List.mem_append.2 (Or.inl hm0mem)
        · intro t ht
          have ht2 : t ∈ h.roots ++ [Node.mk h.nextId v p false 0 []] := ht
          rcases List.mem_append.1 ht2 with ht2 | ht2
          · exact hm0min t ht2
          · rcases List.mem_singleton.1 ht2 with rfl
            exact le_of_not_lt hgt

theorem changePriority_minOk (h : Heap) (key : Nat) (oldP newP : Int)
    (hm : MinOk h) : MinOk (changePriority h key oldP newP) := by
  rcases hf : findPath h.roots key oldP with _ | ⟨ri, n, spine⟩
  · rw [changePriority, hf]
    exact hm
  · rw [changePriority]
    simp only [hf]
    by_cases h1 : newP < oldP
    · rw [changePriorityFound_dec h1]
      exact setMinOp_minOk _
    · by_cases h2 : oldP < newP
      · rw [changePriorityFound_inc h1 h2]
        exact setMinOp_minOk _
      · rw [changePriorityFound_same h1 h2]
        exact setMinOp_minOk _

theorem deleteMin_minOk {h h' : Heap} (hd : deleteMin h = some h')
    (hnd : (forestIds h.roots).Nodup) (hm : MinOk h) : MinOk h' := by
  rw [deleteMin] at hd
  rcases hmr : h.minRef with _ | mr
  · simp only [hmr] at hd
    cases hd
    exact hm
  · simp only [hmr] at hd
    rcases hcl : clearChildrenList mr.1 h.roots with _ | ⟨forest1, kids⟩
    · simp only [hcl] at hd
      exact Option.noConfusion hd
    · simp only [hcl] at hd
      rcases hfi : (forest1 ++ kids).findIdx? (fun r => r.id == mr.1) with _ | j
      · simp only [hfi] at hd
        exact Option.noConfusion hd
      · simp only [hfi, setMinOp_roots] at hd
        obtain ⟨hjlen, -⟩ := List.findIdx?_eq_some_iff_findIdx_eq.mp hfi
        have e1 : (↑(forestIds (forest1 ++ kids)) : Multiset Nat) =
            ↑(forestIds h.roots) := by
          rw [forestIds_append]
          simp only [← Multiset.coe_add]
          exact clearChildren_ids mr.1 h.roots (forest1, kids) hcl
        have e2 := forestIds_eraseIdx (forest1 ++ kids) j (by simpa using hjlen)
        have hle : (↑(forestIds ((forest1 ++ kids).eraseIdx j)) : Multiset Nat) ≤
            ↑(forestIds h.roots) := by
          rw [← e1, ← e2, add_comm]
          exact le_add_self
        have hnd2 : (forestIds ((forest1 ++ kids).eraseIdx j)).Nodup := by
          rw [← Multiset.coe_nodup] at hnd ⊢
          exact Multiset.nodup_of_le hle hnd
        rcases hcons : consolidate ((forest1 ++ kids).eraseIdx j) with _ | roots2
        · simp only [hcons] at hd
          exact Option.noConfusion hd
        · simp only [hcons] at hd
          cases hd
          obtain ⟨ePris, -, hPriOrigin⟩ := consolidate_main hnd2 hcons
          obtain ⟨hiff, hsome⟩ := setMinOp_minRef_spec
            { h with roots := (forest1 ++ kids).eraseIdx j, size := h.size - 1 }
          have hiff2 : ((forest1 ++ kids).eraseIdx j) = [] ↔ roots2 = [] := by
            constructor
            · intro hc
              have : (↑(forestPris roots2) : Multiset (Nat × Int)) = 0 := by
                rw [ePris, hc]
                simp [forestPris]
              rw [← forestPris_eq_nil_iff]
              simpa using this
            · intro hc
              rw [hc] at ePris
              have : (↑(forestPris ((forest1 ++ kids).eraseIdx j)) :
                  Multiset (Nat × Int)) = 0 := by
                rw [← ePris]
                simp [forestPris]
              rw [← forestPris_eq_nil_iff]
              simpa using this
          constructor
          · show (setMinOp { roots := (forest1 ++ kids).eraseIdx j, minRef := h.minRef, size := h.size - 1, nextId := h.nextId }).minRef = none ↔ roots2 = []
            rw [hiff]
            exact hiff2
          · intro mr2 hmr2
            have hmr2b : (setMinOp { roots := (forest1 ++ kids).eraseIdx j, minRef := h.minRef, size := h.size - 1, nextId := h.nextId }).minRef = some mr2 := hmr2
            obtain ⟨⟨r, hrm, rfl⟩, hmin⟩ := hsome mr2 hmr2b
            constructor
            · show _ ∈ forestPris roots2
              have h9 : (r.id, r.priority) ∈
                  (↑(forestPris ((forest1 ++ kids).eraseIdx j)) :
                    Multiset (Nat × Int)) := by
                simpa using rootPair_mem_forestPris hrm
              rw [← ePris] at h9
              simpa using h9
            · intro x hx
              obtain ⟨y, hy, hypri⟩ := hPriOrigin x hx
              rw [← hypri]
              exact hmin y hy

theorem heapAdd_minOk {a b c : Heap} (hadd : heapAdd a b = some c)
    (hma : MinOk a) (hmb : MinOk b) : MinOk c := by
  rw [heapAdd] at hadd
  rcases hbm : b.minRef with _ | bm
  · simp only [hbm] at hadd
    exact Option.noConfusion hadd
  · simp only [hbm] at hadd
    rcases ham : a.minRef with _ | am
    · simp only [ham] at hadd
      exact Option.noConfusion hadd
    · simp only [ham] at hadd
      cases hadd
      obtain ⟨hiffa, hsomea⟩ := hma
      obtain ⟨hiffb, hsomeb⟩ := hmb
      obtain ⟨hamem, hamin⟩ := hsomea am ham
      obtain ⟨hbmem, hbmin⟩ := hsomeb bm hbm
      have hane : a.roots ≠ [] := fun hc =>
        Option.noConfusion (ham.symm.trans (hiffa.mpr hc))
      constructor
      · refine iff_of_false ?_ ?_
        · show ¬(if bm.2 < am.2 then some bm else some am) = none
          by_cases hlt : bm.2 < am.2 <;> simp [hlt]
        · show ¬a.roots ++ b.roots = []
          simp [hane]
      · intro mr hmr
        show mr ∈ forestPris (a.roots ++ b.roots) ∧ ∀ t ∈ a.roots ++ b.roots, _
        rw [forestPris_append]
        have hsplit : ∀ t ∈ a.roots ++ b.roots,
            (am.2 ≤ t.priority ∧ t ∈ a.roots) ∨ (bm.2 ≤ t.priority ∧ t ∈ b.roots) := by
          intro t ht
          rcases List.mem_append.1 ht with ht | ht
          · exact Or.inl ⟨hamin t ht, ht⟩
          · exact Or.inr ⟨hbmin t ht, ht⟩
        by_cases hlt : bm.2 < am.2
        · rw [show mr = bm from Option.some.inj ((if_pos hlt) ▸ hmr).symm]
          refine ⟨List.mem_append.2 (Or.inr hbmem), ?_⟩
          intro t ht
          rcases hsplit t ht with ⟨h9, -⟩ | ⟨h9, -⟩
          · exact le_trans (le_of_lt hlt) h9
          · exact h9
        · rw [show mr = am from Option.some.inj ((if_neg hlt) ▸ hmr).symm]
          refine ⟨List.mem_append.2 (Or.inl hamem), ?_⟩
          intro t ht
          rcases hsplit t ht with ⟨h9, -⟩ | ⟨h9, -⟩
          · exact h9
          · exact le_trans (le_of_not_lt hlt) h9

/-- Every reachable heap satisfies the weak cached-minimum invariant. -/
theorem reachable_minOk {h : Heap} (hr : Reachable h) : MinOk h := by
  induction hr with
  | empty n =>
    exact ⟨by simp [emptyHeap], fun mr hmr => by simp [emptyHeap] at hmr⟩
  | insert v p hr ih => exact insertOp_minOk v p ih
  | deleteMin hr hd ih => exact deleteMin_minOk hd (reachable_invIds hr).1 ih
  | changePriority k oldP newP hr ih => exact changePriority_minOk _ k oldP newP ih
  | union hra hrb hdisj hadd iha ihb => exact heapAdd_minOk hadd iha ihb
  | unionAssign hra hrb hdisj hadd iha ihb =>
    rw [heapAddAssign_eq_heapAdd] at hadd
    exact heapAdd_minOk hadd iha ihb

/-- C2: for every reachable heap and every `extract_min`/`delete_min`
call on it that returns with the heap non-empty at entry, the degrees of
the trees in the result's root list are pairwise distinct (the
consolidation post-condition). -/
theorem c2_distinct_root_degrees {h h' : Heap} (hr : Reachable h)
    (hne : h.roots ≠ []) (hd : deleteMin h = some h') :
    (h'.roots.map Node.degree).Nodup := by
  have hnd := (reachable_invIds hr).1
  obtain ⟨mr, hm0⟩ : ∃ mr, h.minRef = some mr := by
    rcases hm9 : h.minRef with _ | mr
    · exact absurd ((reachable_minOk hr).1.mp hm9) hne
    · exact ⟨mr, rfl⟩
  rw [deleteMin] at hd
  simp only [hm0] at hd
  rcases hcl : clearChildrenList mr.1 h.roots with _ | ⟨forest1, kids⟩
  · simp only [hcl] at hd
    exact Option.noConfusion hd
  · simp only [hcl] at hd
    rcases hfi : (forest1 ++ kids).findIdx? (fun r => r.id == mr.1) with _ | j
    · simp only [hfi] at hd
      exact Option.noConfusion hd
    · simp only [hfi, setMinOp_roots] at hd
      obtain ⟨hjlen, -⟩ := List.findIdx?_eq_some_iff_findIdx_eq.mp hfi
      have e1 : (↑(forestIds (forest1 ++ kids)) : Multiset Nat) =
          ↑(forestIds h.roots) := by
        rw [forestIds_append]
        simp only [← Multiset.coe_add]
        exact clearChildren_ids mr.1 h.roots (forest1, kids) hcl
      have e2 := forestIds_eraseIdx (forest1 ++ kids) j (by simpa using hjlen)
      have hle : (↑(forestIds ((forest1 ++ kids).eraseIdx j)) : Multiset Nat) ≤
          ↑(forestIds h.roots) := by
        rw [← e1, ← e2, add_comm]
        exact le_add_self
      have hnd2 : (forestIds ((forest1 ++ kids).eraseIdx j)).Nodup := by
        rw [← Multiset.coe_nodup] at hnd ⊢
        exact Multiset.nodup_of_le hle hnd
      rcases hcons : consolidate ((forest1 ++ kids).eraseIdx j) with _ | roots2
      · simp only [hcons] at hd
        exact Option.noConfusion hd
      · simp only [hcons] at hd
        cases hd
        exact (consolidate_main hnd2 hcons).2.1

theorem c2_distinct_root_degrees_witness : (hB.roots.map Node.degree).Nodup :=
  c2_distinct_root_degrees
    (.insert 7 0 (.insert 6 7 (.insert 5 6 (.insert 4 5 (.insert 3 1 (.empty 10))))))
    (by simp [hB0, insertOp, emptyHeap]) hB_eq

/-- C3 (amended): after every public operation returns, the cached
minimum reference is empty exactly when the root list is empty; when it
holds a pair, that pair is the id and current priority of a node still
present in the heap, and its priority is at most the priority of every
root — but the referenced node need not itself be a root. -/
theorem c3_min_ref_weak {h : Heap} (hr : Reachable h) :
    (h.minRef = none ↔ h.roots = []) ∧
    ∀ mr, h.minRef = some mr →
      mr ∈ forestPris h.roots ∧ ∀ t ∈ h.roots, mr.2 ≤ t.priority :=
  reachable_minOk hr

theorem c3_min_ref_weak_witness : (10, (1 : Int)) ∈ forestPris badHeap.roots :=
  ((c3_min_ref_weak reachable_badHeap).2 (10, 1) rfl).1

/-- C8: calling `extract_min` (and so `delete_min`) on an empty reachable
heap is a harmless no-op: it returns an empty result and the heap
unchanged (same root list, same size, same cached minimum). -/
theorem c8_extract_min_empty {h : Heap} (hr : Reachable h) (he : h.roots = []) :
    extractMin h = (none, some h) := by
  have hmr : h.minRef = none := (reachable_minOk hr).1.mpr he
  rw [extractMin, deleteMin]
  simp only [hmr]

theorem c8_extract_min_empty_witness : extractMin (emptyHeap 0) = (none, some (emptyHeap 0)) :=
  c8_extract_min_empty (.empty 0) rfl

/-! ## Toolkit: degree consistency through the zipper -/

/-- `computeDeg` only reads the children's degree fields. -/
theorem computeDeg_eq_foldl_map (l : List Node) :
    computeDeg l = (l.map Node.degree).foldl (fun d x => if d ≤ x then x + 1 else d) 0 := by
  rw [computeDeg, List.foldl_map]

/-- Lists with the same degree fields compute the same degree. -/
theorem computeDeg_congr {l l' : List Node}
    (h : l.map Node.degree = l'.map Node.degree) : computeDeg l = computeDeg l' := by
  rw [computeDeg_eq_foldl_map, computeDeg_eq_foldl_map, h]

/-- Degree consistency ignores id, value, priority and mark. -/
theorem DegOk_remk {n : Node} {i' v' : Nat} {p' : Int} {m' : Bool} :
    DegOk (.mk i' v' p' m' n.degree n.children) ↔ DegOk n := by
  cases n with
  | mk i v p m d cs =>
    simp only [Node.degree, Node.children]
    rw [DegOk_mk, DegOk_mk]

/-- One ancestor level whose stored degree matches the recomputation from
its children (with the spine child in the hole). -/
def ctxDeg (c : Ctx) (n : Node) : Prop :=
  c.degree = computeDeg (c.pre ++ n :: c.post)

/-- The whole ancestor chain has consistent degrees, given the hole
content at each level. -/
def spineDegOk : Node → List Ctx → Prop
  | _, [] => True
  | n, c :: rest => ctxDeg c n ∧ spineDegOk (c.fill n) rest

/-- The sibling forests hanging off the ancestor chain are degree
consistent. -/
def ctxForestDeg (spine : List Ctx) : Prop :=
  ∀ c ∈ spine, (∀ x ∈ c.pre, DegOk x) ∧ ∀ x ∈ c.post, DegOk x

/-- `spineDegOk` only depends on the hole content's degree. -/
theorem spineDegOk_congr {n n' : Node} (hd : n.degree = n'.degree) :
    ∀ {spine : List Ctx}, spineDegOk n spine → spineDegOk n' spine := by
  intro spine
  induction spine generalizing n n' with
  | nil => intro a; trivial
  | cons c rest ih =>
    intro hs
    obtain ⟨hc, hrest⟩ := hs
    constructor
    · rw [ctxDeg] at hc ⊢
      rw [hc]
      refine computeDeg_congr ?_
      simp [hd]
    · refine ih ?_ hrest
      rfl

theorem DegOk_fill {c : Ctx} {n : Node} (hc : ctxDeg c n)
    (hpre : ∀ x ∈ c.pre, DegOk x) (hpost : ∀ x ∈ c.post, DegOk x)
    (hn : DegOk n) : DegOk (c.fill n) := by
  rw [Ctx.fill, DegOk_mk]
  refine ⟨hc, ?_⟩
  intro x hx
  rcases List.mem_append.1 hx with hx | hx
  · exact hpre x hx
  · rcases List.mem_cons.1 hx with rfl | hx
    · exact hn
    · exact hpost x hx

theorem DegOk_plug {n : Node} {spine : List Ctx} (hn : DegOk n)
    (hs : spineDegOk n spine) (hf : ctxForestDeg spine) : DegOk (plug n spine) := by
  induction spine generalizing n with
  | nil => exact hn
  | cons c rest ih =>
    obtain ⟨hc, hrest⟩ := hs
    rw [plug]
    refine ih ?_ hrest ?_
    · exact DegOk_fill hc (hf c (by simp)).1 (hf c (by simp)).2 hn
    · intro c2 hc2
      exact hf c2 (by simp [hc2])

/-- Inverse direction: a degree-consistent tree decomposes along any
zipper into a consistent node, chain and sibling forests. -/
theorem DegOk_plug_iff {n : Node} {spine : List Ctx} :
    DegOk (plug n spine) ↔ DegOk n ∧ spineDegOk n spine ∧ ctxForestDeg spine := by
  induction spine generalizing n with
  | nil =>
    simp only [plug, spineDegOk, ctxForestDeg]
    refine ⟨fun h => ⟨h, trivial, by simp⟩, fun h => h.1⟩
  | cons c rest ih =>
    rw [plug, ih]
    constructor
    · rintro ⟨hfill, hrest, hf⟩
      rw [Ctx.fill, DegOk_mk] at hfill
      obtain ⟨hdeg, hall⟩ := hfill
      refine ⟨hall n (by simp), ⟨hdeg, ?_⟩, ?_⟩
      · exact spineDegOk_congr rfl hrest
      · intro c2 hc2
        rcases List.mem_cons.1 hc2 with rfl | hc2
        · constructor
          · exact fun x hx => hall x (by simp [hx])
          · exact fun x hx => hall x (by simp [hx])
        · exact hf c2 hc2
    · rintro ⟨hn, ⟨hc2, hrest⟩, hf⟩
      refine ⟨?_, hrest, ?_⟩
      · exact DegOk_fill hc2 (hf c (by simp)).1 (hf c (by simp)).2 hn
      · intro c2 hc2m
        exact hf c2 (by simp [hc2m])

/-- `set_degree`'s upward propagation restores chain consistency for the
new hole content, whatever it is. -/
theorem setDegreeCtxs_deg : ∀ (spine : List Ctx) (child0 child : Node),
    spineDegOk child0 spine → spineDegOk child (setDegreeCtxs child spine) := by
  intro spine
  induction spine with
  | nil =>
    intro child0 child hs
    rw [setDegreeCtxs]
    trivial
  | cons ctx rest ih =>
    intro child0 child hs
    obtain ⟨hc, hrest⟩ := hs
    rw [setDegreeCtxs]
    by_cases hd : computeDeg (ctx.pre ++ child :: ctx.post) = ctx.degree
    · simp only [hd, if_true]
      refine ⟨hd.symm, ?_⟩
      exact @spineDegOk_congr (ctx.fill child0) (ctx.fill child) rfl rest hrest
    · simp only [hd, if_false]
      refine ⟨rfl, ?_⟩
      exact ih (ctx.fill child0) _ hrest

/-- `set_degree`'s propagation does not touch the sibling forests. -/
theorem setDegreeCtxs_ctxForest (child : Node) (spine : List Ctx)
    (hf : ctxForestDeg spine) : ctxForestDeg (setDegreeCtxs child spine) := by
  induction spine generalizing child with
  | nil => rw [setDegreeCtxs]; exact hf
  | cons ctx rest ih =>
    rw [setDegreeCtxs]
    by_cases hd : computeDeg (ctx.pre ++ child :: ctx.post) = ctx.degree
    · simp only [hd, if_true]
      exact hf
    · simp only [hd, if_false]
      intro c2 hc2
      rcases List.mem_cons.1 hc2 with rfl | hc2
      · exact hf ctx (by simp)
      · exact ih _ (fun c3 hc3 => hf c3 (by simp [hc3])) c2 hc2

/-- Full `set_degree` call on a node with an ancestor chain: the node's
degree is repaired and the chain stays consistent, provided the chain was
consistent for some hole content of the node's (possibly stale) recorded
degree. -/
theorem setDegreeFull_deg {n : Node} {spine : List Ctx} {n0 : Node}
    (hn : ∀ c ∈ n.children, DegOk c) (h0 : n0.degree = n.degree)
    (hs : spineDegOk n0 spine) :
    DegOk (setDegreeFull n spine).1 ∧
    spineDegOk (setDegreeFull n spine).1 (setDegreeFull n spine).2 := by
  rw [setDegreeFull]
  constructor
  · rw [DegOk_mk]
    exact ⟨rfl, hn⟩
  · by_cases hd : computeDeg n.children = n.degree
    · simp only [hd, if_true]
      refine spineDegOk_congr ?_ hs
      exact h0
    · simp only [hd, if_false]
      exact setDegreeCtxs_deg spine n0 _ hs

theorem setDegreeFull_ctxForest (n : Node) (spine : List Ctx)
    (hf : ctxForestDeg spine) : ctxForestDeg (setDegreeFull n spine).2 := by
  rw [setDegreeFull]
  by_cases hd : computeDeg n.children = n.degree
  · simp only [hd, if_true]
    exact hf
  · simp only [hd, if_false]
    exact setDegreeCtxs_ctxForest _ spine hf

/-- `mark_utility` preserves degree consistency of the zipper state. -/
theorem markUtilSpine_deg (n : Node) (spine : List Ctx) (acc : List Node)
    (hn : DegOk n) (hs : spineDegOk n spine) (hf : ctxForestDeg spine)
    (ha : ∀ r ∈ acc, DegOk r) :
    DegOk (plug (markUtilSpine n spine acc).1 (markUtilSpine n spine acc).2.1) ∧
      ∀ r ∈ (markUtilSpine n spine acc).2.2, DegOk r := by
  revert hn hs hf ha
  induction n, spine, acc using markUtilSpine.induct with
  | case1 n acc =>
    intro hn _ _ ha
    rw [markUtilSpine]
    exact ⟨by simpa [plug] using hn, ha⟩
  | case2 n acc ctx rest hm =>
    intro hn hs hf ha
    rw [markUtilSpine, if_pos hm]
    refine ⟨DegOk_plug ?_ ?_ hf, ha⟩
    · exact (DegOk_remk (n := n)).2 hn
    · exact @spineDegOk_congr n (Node.mk n.id n.value n.priority true n.degree n.children)
        rfl (ctx :: rest) hs
  | case3 n acc ctx rest hm cut pr ih =>
    intro hn hs hf ha
    rw [markUtilSpine, if_neg hm]
    obtain ⟨hc, hrest⟩ := hs
    have hdrop : ∀ c2 ∈ ctx.dropHole.children, DegOk c2 := by
      intro c2 hc2
      rcases List.mem_append.1 hc2 with hc2 | hc2
      · exact (hf ctx (by simp)).1 c2 hc2
      · exact (hf ctx (by simp)).2 c2 hc2
    have hfd := setDegreeFull_deg hdrop
      (show (ctx.fill n).degree = ctx.dropHole.degree from rfl) hrest
    refine ih hfd.1 hfd.2 ?_ ?_
    · exact setDegreeFull_ctxForest _ _ (fun c2 hc2 => hf c2 (by simp [hc2]))
    · intro r hr
      rcases List.mem_append.1 hr with hr | hr
      · exact ha r hr
      · rcases List.mem_singleton.1 hr with rfl
        exact (DegOk_remk (n := n)).2 hn

/-- The decrease-branch cut loop preserves degree consistency. -/
theorem decreaseLoop_deg (curr : Node) (spine : List Ctx) (acc : List Node)
    (hn : DegOk curr) (hs : spineDegOk curr spine) (hf : ctxForestDeg spine)
    (ha : ∀ r ∈ acc, DegOk r) :
    DegOk (plug (decreaseLoop curr spine acc).1 (decreaseLoop curr spine acc).2.1) ∧
      ∀ r ∈ (decreaseLoop curr spine acc).2.2, DegOk r := by
  revert hn hs hf ha
  induction curr, spine, acc using decreaseLoop.induct with
  | case1 curr acc =>
    intro hn _ _ ha
    rw [decreaseLoop]
    exact ⟨by simpa [plug] using hn, ha⟩
  | case2 curr acc ctx hlt =>
    intro hn hs hf ha
    obtain ⟨hc, -⟩ := hs
    rw [decreaseLoop, if_pos hlt]
    have hdrop : ∀ c2 ∈ ctx.dropHole.children, DegOk c2 := by
      intro c2 hc2
      rcases List.mem_append.1 hc2 with hc2 | hc2
      · exact (hf ctx (by simp)).1 c2 hc2
      · exact (hf ctx (by simp)).2 c2 hc2
    have hfd := setDegreeFull_deg hdrop
      (show (ctx.fill curr).degree = ctx.dropHole.degree from rfl)
      (show spineDegOk (ctx.fill curr) [] from trivial)
    refine ⟨by simpa [plug] using hfd.1, ?_⟩
    intro r hr
    rcases List.mem_append.1 hr with hr | hr
    · exact ha r hr
    · rcases List.mem_singleton.1 hr with rfl
      exact (DegOk_remk (n := curr)).2 hn
  | case3 curr acc ctx hlt =>
    intro hn hs hf ha
    rw [decreaseLoop, if_neg hlt]
    exact ⟨DegOk_plug hn hs hf, ha⟩
  | case4 curr acc ctx c2 rest2 hlt cut pr hm ih =>
    intro hn hs hf ha
    rw [decreaseLoop, if_pos hlt, if_pos hm]
    obtain ⟨hc, hrest⟩ := hs
    have hdrop : ∀ c3 ∈ ctx.dropHole.children, DegOk c3 := by
      intro c3 hc3
      rcases List.mem_append.1 hc3 with hc3 | hc3
      · exact (hf ctx (by simp)).1 c3 hc3
      · exact (hf ctx (by simp)).2 c3 hc3
    have hfd := setDegreeFull_deg hdrop
      (show (ctx.fill curr).degree = ctx.dropHole.degree from rfl) hrest
    refine ih ((DegOk_remk (n := pr.1)).2 hfd.1) ?_ ?_ ?_
    · exact @spineDegOk_congr pr.1
        (Node.mk pr.1.id pr.1.value pr.1.priority true pr.1.degree pr.1.children)
        rfl pr.2 hfd.2
    · exact setDegreeFull_ctxForest _ _ (fun c3 hc3 => hf c3 (by simp [hc3]))
    · intro r hr
      rcases List.mem_append.1 hr with hr | hr
      · exact ha r hr
      · rcases List.mem_singleton.1 hr with rfl
        exact (DegOk_remk (n := curr)).2 hn
  | case5 curr acc ctx c2 rest2 hlt pr hm =>
    intro hn hs hf ha
    rw [decreaseLoop, if_pos hlt, if_neg hm]
    obtain ⟨hc, hrest⟩ := hs
    have hdrop : ∀ c3 ∈ ctx.dropHole.children, DegOk c3 := by
      intro c3 hc3
      rcases List.mem_append.1 hc3 with hc3 | hc3
      · exact (hf ctx (by simp)).1 c3 hc3
      · exact (hf ctx (by simp)).2 c3 hc3
    have hfd := setDegreeFull_deg hdrop
      (show (ctx.fill curr).degree = ctx.dropHole.degree from rfl) hrest
    refine markUtilSpine_deg _ _ _ hfd.1 hfd.2 ?_ ?_
    · exact setDegreeFull_ctxForest _ _ (fun c3 hc3 => hf c3 (by simp [hc3]))
    · intro r hr
      rcases List.mem_append.1 hr with hr | hr
      · exact ha r hr
      · rcases List.mem_singleton.1 hr with rfl
        exact (DegOk_remk (n := curr)).2 hn
  | case6 curr acc ctx c2 rest2 hlt =>
    intro hn hs hf ha
    rw [decreaseLoop, if_neg hlt]
    exact ⟨DegOk_plug hn hs hf, ha⟩

/-- The rooted child scan of the increase branch keeps degrees
consistent (the running degree always matches the remaining children). -/
theorem increaseRooted_deg (i v : Nat) (p : Int) (m : Bool) (d : Nat)
    (kept todo accPost : List Node)
    (hkd : d = computeDeg (kept ++ todo))
    (hk : ∀ c ∈ kept, DegOk c) (ht : ∀ c ∈ todo, DegOk c)
    (ha : ∀ r ∈ accPost, DegOk r) :
    DegOk (increaseRooted i v p m d kept todo accPost).1 ∧
      ∀ r ∈ (increaseRooted i v p m d kept todo accPost).2, DegOk r := by
  induction todo generalizing d kept accPost with
  | nil =>
    rw [increaseRooted]
    refine ⟨DegOk_mk.2 ⟨by simpa using hkd, hk⟩, ha⟩
  | cons c rest ih =>
    rw [increaseRooted]
    by_cases hc : c.priority < p
    · rw [if_pos hc]
      refine ih _ _ _ rfl hk (fun x hx => ht x (by simp [hx])) ?_
      intro r hr
      rcases List.mem_append.1 hr with hr | hr
      · exact ha r hr
      · rcases List.mem_singleton.1 hr with rfl
        exact (DegOk_remk (n := c)).2 (ht c (by simp))
    · rw [if_neg hc]
      refine ih _ _ _ (by simpa using hkd) ?_ (fun x hx => ht x (by simp [hx])) ha
      intro x hx
      rcases List.mem_append.1 hx with hx | hx
      · exact hk x hx
      · rcases List.mem_singleton.1 hx with rfl
        exact ht x (by simp)

/-- The in-tree child scan of the increase branch preserves degree
consistency, including the cascading-cut case. -/
theorem increaseInTree_deg (i v : Nat) (p : Int) (m : Bool) (d : Nat)
    (kept todo : List Node) (spine : List Ctx) (acc : List Node)
    (hkd : d = computeDeg (kept ++ todo))
    (hk : ∀ c ∈ kept, DegOk c) (ht : ∀ c ∈ todo, DegOk c)
    (hs : spineDegOk (Node.mk i v p m d (kept ++ todo)) spine)
    (hf : ctxForestDeg spine) (ha : ∀ r ∈ acc, DegOk r) :
    DegOk (increaseInTree i v p m d kept todo spine acc).1 ∧
      ∀ r ∈ (increaseInTree i v p m d kept todo spine acc).2, DegOk r := by
  induction todo generalizing m d kept spine acc with
  | nil =>
    rw [increaseInTree]
    refine ⟨DegOk_plug (DegOk_mk.2 ⟨by simpa using hkd, hk⟩) ?_ hf, ha⟩
    exact @spineDegOk_congr (Node.mk i v p m d (kept ++ []))
      (Node.mk i v p m d kept) rfl spine hs
  | cons c rest ih =>
    rw [increaseInTree_cons_eq]
    by_cases hc : c.priority < p
    · rw [if_pos hc]
      have hcut : DegOk (Node.mk c.id c.value c.priority false c.degree c.children) :=
        (DegOk_remk (n := c)).2 (ht c (by simp))
      have hacc : ∀ r ∈ acc ++ [Node.mk c.id c.value c.priority false c.degree c.children],
          DegOk r := by
        intro r hr
        rcases List.mem_append.1 hr with hr | hr
        · exact ha r hr
        · rcases List.mem_singleton.1 hr with rfl
          exact hcut
      have hrest : ∀ x ∈ rest, DegOk x := fun x hx => ht x (by simp [hx])
      have hs1 : spineDegOk (Node.mk i v p m (computeDeg (kept ++ rest)) (kept ++ rest))
          (if computeDeg (kept ++ rest) = d then spine
            else setDegreeCtxs (Node.mk i v p m (computeDeg (kept ++ rest))
              (kept ++ rest)) spine) := by
        by_cases hd9 : computeDeg (kept ++ rest) = d
        · rw [if_pos hd9]
          refine @spineDegOk_congr (Node.mk i v p m d (kept ++ c :: rest))
            (Node.mk i v p m (computeDeg (kept ++ rest)) (kept ++ rest)) ?_ spine hs
          show d = computeDeg (kept ++ rest)
          exact hd9.symm
        · rw [if_neg hd9]
          exact setDegreeCtxs_deg spine _ _ hs
      have hf1 : ctxForestDeg (if computeDeg (kept ++ rest) = d then spine
          else setDegreeCtxs (Node.mk i v p m (computeDeg (kept ++ rest))
            (kept ++ rest)) spine) := by
        by_cases hd9 : computeDeg (kept ++ rest) = d
        · rw [if_pos hd9]
          exact hf
        · rw [if_neg hd9]
          exact setDegreeCtxs_ctxForest _ _ hf
      rcases hsp : (if computeDeg (kept ++ rest) = d then spine
          else setDegreeCtxs (Node.mk i v p m (computeDeg (kept ++ rest))
            (kept ++ rest)) spine) with _ | ⟨ctx1, rest1⟩
      · exact ih m _ kept [] _ rfl hk hrest trivial (by simp [ctxForestDeg]) hacc
      · have hs2 : spineDegOk (Node.mk i v p m (computeDeg (kept ++ rest))
            (kept ++ rest)) (ctx1 :: rest1) := hsp ▸ hs1
        have hf2 : ctxForestDeg (ctx1 :: rest1) := hsp ▸ hf1
        by_cases hm9 : m = false
        · subst hm9
          refine ih true _ kept (ctx1 :: rest1) _ rfl hk hrest ?_ hf2 hacc
          exact @spineDegOk_congr
            (Node.mk i v p false (computeDeg (kept ++ rest)) (kept ++ rest))
            (Node.mk i v p true (computeDeg (kept ++ rest)) (kept ++ rest))
            rfl (ctx1 :: rest1) hs2
        · have hmt : m = true := by cases m <;> simp_all
          subst hmt
          obtain ⟨hctx1, hrest1⟩ := hs2
          have hdrop : ∀ c3 ∈ ctx1.dropHole.children, DegOk c3 := by
            intro c3 hc3
            rcases List.mem_append.1 hc3 with hc3 | hc3
            · exact (hf2 ctx1 (by simp)).1 c3 hc3
            · exact (hf2 ctx1 (by simp)).2 c3 hc3
          have hfd := setDegreeFull_deg hdrop
            (show (ctx1.fill (Node.mk i v p true (computeDeg (kept ++ rest))
              (kept ++ rest))).degree = ctx1.dropHole.degree from rfl) hrest1
          have hmu := markUtilSpine_deg (setDegreeFull ctx1.dropHole rest1).1
            (setDegreeFull ctx1.dropHole rest1).2 [] hfd.1 hfd.2
            (setDegreeFull_ctxForest _ _ (fun c3 hc3 => hf2 c3 (by simp [hc3])))
            (by simp)
          have hfin := increaseRooted_deg i v p false (computeDeg (kept ++ rest))
            kept rest [] rfl hk hrest (by simp)
          refine ⟨hmu.1, ?_⟩
          intro r hr
          have hr9 : r ∈ acc ∨
              r = Node.mk c.id c.value c.priority false c.degree c.children ∨
              r = (increaseRooted i v p false (computeDeg (kept ++ rest)) kept rest []).1 ∨
              r ∈ (markUtilSpine (setDegreeFull ctx1.dropHole rest1).1
                    (setDegreeFull ctx1.dropHole rest1).2 []).2.2 ∨
              r ∈ (increaseRooted i v p false (computeDeg (kept ++ rest)) kept rest []).2 := by
            simpa [List.mem_append, List.mem_singleton, or_assoc] using hr
          rcases hr9 with hr9 | hr9 | hr9 | hr9 | hr9
          · exact ha r hr9
          · subst hr9
            exact hcut
          · subst hr9
            exact hfin.1
          · exact hmu.2 r hr9
          · exact hfin.2 r hr9
    · rw [if_neg hc]
      refine ih m d _ spine acc (by simpa using hkd) ?_
        (fun x hx => ht x (by simp [hx])) ?_ hf ha
      · intro x hx
        rcases List.mem_append.1 hx with hx | hx
        · exact hk x hx
        · rcases List.mem_singleton.1 hx with rfl
          exact ht x (by simp)
      · exact @spineDegOk_congr (Node.mk i v p m d (kept ++ c :: rest))
          (Node.mk i v p m d ((kept ++ [c]) ++ rest)) rfl spine hs

/-- `changePriorityFound` preserves degree consistency given a
decomposition of a consistent root. -/
theorem changePriorityFound_deg (h : Heap) (ri : Nat) (n : Node) (spine : List Ctx)
    (oldP newP : Int) (hord : ∀ t ∈ h.roots, DegOk t)
    (hR : DegOk (plug n spine)) :
    ∀ t ∈ (changePriorityFound h ri n spine oldP newP).roots, DegOk t := by
  obtain ⟨hn, hs, hf⟩ := DegOk_plug_iff.1 hR
  have hdn : n.degree = computeDeg n.children := by
    cases n with
    | mk ni nv np nm nd ncs => exact (DegOk_mk.1 hn).1
  have hcs : ∀ c ∈ n.children, DegOk c := by
    cases n with
    | mk ni nv np nm nd ncs =>
      simp only [Node.children]
      exact (DegOk_mk.1 hn).2
  by_cases h1 : newP < oldP
  · rw [changePriorityFound_dec h1]
    have hd := decreaseLoop_deg (Node.mk n.id n.value newP n.marked n.degree n.children)
      spine [] ((DegOk_remk (n := n)).2 hn)
      (@spineDegOk_congr n (Node.mk n.id n.value newP n.marked n.degree n.children)
        rfl spine hs) hf (by simp)
    intro t ht
    rw [setMinOp_roots] at ht
    rcases List.mem_append.1 ht with ht | ht
    · rcases List.mem_or_eq_of_mem_set ht with ht | rfl
      · exact hord t ht
      · exact hd.1
    · exact hd.2 t ht
  · by_cases h2 : oldP < newP
    · rw [changePriorityFound_inc h1 h2]
      have hi := increaseInTree_deg n.id n.value newP n.marked n.degree [] n.children
        spine [] (by simpa using hdn) (by simp) hcs
        (@spineDegOk_congr n
          (Node.mk n.id n.value newP n.marked n.degree ([] ++ n.children))
          rfl spine hs) hf (by simp)
      intro t ht
      rw [setMinOp_roots] at ht
      rcases List.mem_append.1 ht with ht | ht
      · rcases List.mem_or_eq_of_mem_set ht with ht | rfl
        · exact hord t ht
        · exact hi.1
      · exact hi.2 t ht
    · rw [changePriorityFound_same h1 h2]
      intro t ht
      rw [setMinOp_roots] at ht
      rcases List.mem_or_eq_of_mem_set ht with ht | rfl
      · exact hord t ht
      · refine DegOk_plug ((DegOk_remk (n := n)).2 hn) ?_ hf
        exact @spineDegOk_congr n
          (Node.mk n.id n.value newP n.marked n.degree n.children) rfl spine hs

/-- `change_priority` keeps every tree's degrees consistent. -/
theorem changePriority_degOk (h : Heap) (key : Nat) (oldP newP : Int)
    (hord : ∀ t ∈ h.roots, DegOk t) :
    ∀ t ∈ (changePriority h key oldP newP).roots, DegOk t := by
  rcases hf : findPath h.roots key oldP with _ | ⟨ri, n, spine⟩
  · rw [changePriority, hf]
    exact hord
  · rw [changePriority]
    simp only [hf]
    obtain ⟨hroot, -, -⟩ := findPath_spec hf
    exact changePriorityFound_deg h ri n spine oldP newP hord
      (hord _ (List.getElem?_mem hroot))

/-- An id occurring anywhere in a member tree occurs in the forest ids. -/
theorem mem_forestIds_of_mem {a : Nat} {x : Node} {l : List Node}
    (hx : x ∈ l) (ha : a ∈ nodeIds x) : a ∈ forestIds l := by
  induction l with
  | nil => cases hx
  | cons y rest ih =>
    rw [forestIds_cons]
    rcases List.mem_cons.1 hx with rfl | hx
    · exact List.mem_append.2 (Or.inl ha)
    · exact List.mem_append.2 (Or.inr (ih hx))

/-- With globally distinct ids, an id cannot occur in the trees at two
different root positions. -/
theorem id_two_positions {l : List Node} (hnd : (forestIds l).Nodup)
    {a : Nat} {k j : Nat} (hk : k < l.length) (hj : j < l.length) (hne : k ≠ j)
    (hak : a ∈ nodeIds (l[k])) (haj : a ∈ nodeIds (l[j])) : False := by
  have e2 := forestIds_eraseIdx l j hj
  have hklen2 : l[k] ∈ l.eraseIdx j := by
    rcases Nat.lt_or_ge k j with hlt | hge
    · have h5 : (l.eraseIdx j)[k]? = l[k]? := List.getElem?_eraseIdx_of_lt l j k hlt
      have h6 : (l.eraseIdx j)[k]? = some (l[k]) := by
        rw [h5]
        exact List.getElem?_eq_some_iff.mpr ⟨hk, rfl⟩
      exact List.getElem?_mem h6
    · have hk1 : k - 1 + 1 = k := by omega
      have h5 : (l.eraseIdx j)[k - 1]? = l[k]? := by
        rw [List.getElem?_eraseIdx_of_ge l j (k - 1) (by omega), hk1]
      have h6 : (l.eraseIdx j)[k - 1]? = some (l[k]) := by
        rw [h5]
        exact List.getElem?_eq_some_iff.mpr ⟨hk, rfl⟩
      exact List.getElem?_mem h6
  have hmem1 : a ∈ (↑(forestIds (l.eraseIdx j)) : Multiset Nat) := by
    have := mem_forestIds_of_mem hklen2 hak
    simpa using this
  have hmem2 : a ∈ (↑(nodeIds (l[j])) : Multiset Nat) := by simpa using haj
  have hcount : 2 ≤ Multiset.count a ((↑(forestIds l)) : Multiset Nat) := by
    rw [← e2]
    rw [Multiset.count_add]
    have c1 := Multiset.one_le_count_iff_mem.2 hmem1
    have c2 := Multiset.one_le_count_iff_mem.2 hmem2
    omega
  have hnd2 : ((↑(forestIds l)) : Multiset Nat).Nodup := Multiset.coe_nodup.2 hnd
  have := Multiset.nodup_iff_count_le_one.1 hnd2 a
  omega

/-- Clearing a node's children keeps every untouched tree consistent;
the rebuilt tree can only be inconsistent if it still contains the
cleared id (i.e. the cleared node was interior). -/
theorem clearChildren_deg (i : Nat) :
    ∀ l : List Node, ∀ res : List Node × List Node,
      clearChildrenList i l = some res → (∀ t ∈ l, DegOk t) →
        (∀ k ∈ res.2, DegOk k) ∧ i ∈ forestIds res.1 ∧
          ∀ t ∈ res.1, DegOk t ∨ i ∈ nodeIds t := by
  have tree : ∀ n : Node, ∀ res : Node × List Node,
      clearChildrenTree i n = some res → DegOk n →
        (∀ k ∈ res.2, DegOk k) ∧ i ∈ nodeIds res.1 := by
    intro a
    refine clearChildrenTree.induct i
      (fun n => ∀ res : Node × List Node,
        clearChildrenTree i n = some res → DegOk n →
          (∀ k ∈ res.2, DegOk k) ∧ i ∈ nodeIds res.1)
      (fun l => ∀ res : List Node × List Node,
        clearChildrenList i l = some res → (∀ t ∈ l, DegOk t) →
          (∀ k ∈ res.2, DegOk k) ∧ i ∈ forestIds res.1 ∧
            ∀ t ∈ res.1, DegOk t ∨ i ∈ nodeIds t)
      ?_ ?_ ?_ ?_ ?_ ?_ ?_ a
    · intro v p m d cs res h hn
      rw [clearChildrenTree, if_pos rfl] at h
      cases h
      refine ⟨fun k hk => (DegOk_mk.1 hn).2 k hk, ?_⟩
      rw [nodeIds_mk]
      simp
    · intro i1 v p m d cs hne cs' out0 hcl ih res h hn
      rw [clearChildrenTree, if_neg hne, hcl] at h
      cases h
      obtain ⟨hout, hmem, -⟩ := ih (cs', out0) hcl (DegOk_mk.1 hn).2
      refine ⟨hout, ?_⟩
      rw [nodeIds_mk]
      right
      have e1 : (cs'.map nodeIds).flatten = forestIds cs' := rfl
      rw [e1]
      exact hmem
    · intro i1 v p m d cs hne hcl ih res h hn
      rw [clearChildrenTree, if_neg hne, hcl] at h
      exact absurd h (by simp)
    · intro res h ho
      rw [clearChildrenList] at h
      exact absurd h (by simp)
    · intro c rest n' out hct ih res h ho
      rw [clearChildrenList, hct] at h
      cases h
      obtain ⟨hout, hmem⟩ := ih (n', out) hct (ho c (by simp))
      refine ⟨hout, ?_, ?_⟩
      · rw [forestIds_cons]
        exact List.mem_append.2 (Or.inl hmem)
      · intro t ht
        rcases List.mem_cons.1 ht with rfl | ht
        · exact Or.inr hmem
        · exact Or.inl (ho t (by simp [ht]))
    · intro c rest hct rest' out0 hcl ih1 ih2 res h ho
      rw [clearChildrenList, hct, hcl] at h
      cases h
      obtain ⟨hout, hmem, hdisj⟩ := ih2 (rest', out0) hcl (fun t ht => ho t (by simp [ht]))
      refine ⟨hout, ?_, ?_⟩
      · rw [forestIds_cons]
        exact List.mem_append.2 (Or.inr hmem)
      · intro t ht
        rcases List.mem_cons.1 ht with rfl | ht
        · exact Or.inl (ho t (by simp))
        · exact hdisj t ht
    · intro c rest hct hcl ih1 ih2 res h ho
      rw [clearChildrenList, hct, hcl] at h
      exact absurd h (by simp)
  intro l
  induction l with
  | nil =>
    intro res h ho
    rw [clearChildrenList] at h
    exact absurd h (by simp)
  | cons c rest ih =>
    intro res h ho
    rw [clearChildrenList] at h
    cases hct : clearChildrenTree i c with
    | some pr =>
      obtain ⟨n', out⟩ := pr
      rw [hct] at h
      cases h
      obtain ⟨hout, hmem⟩ := tree c (n', out) hct (ho c (by simp))
      refine ⟨hout, ?_, ?_⟩
      · rw [forestIds_cons]
        exact List.mem_append.2 (Or.inl hmem)
      · intro t ht
        rcases List.mem_cons.1 ht with rfl | ht
        · exact Or.inr hmem
        · exact Or.inl (ho t (by simp [ht]))
    | none =>
      rw [hct] at h
      cases hcl : clearChildrenList i rest with
      | some pr =>
        obtain ⟨rest', out0⟩ := pr
        rw [hcl] at h
        cases h
        obtain ⟨hout, hmem, hdisj⟩ := ih (rest', out0) hcl (fun t ht => ho t (by simp [ht]))
        refine ⟨hout, ?_, ?_⟩
        · rw [forestIds_cons]
          exact List.mem_append.2 (Or.inr hmem)
        · intro t ht
          rcases List.mem_cons.1 ht with rfl | ht
          · exact Or.inl (ho t (by simp))
          · exact hdisj t ht
      | none =>
        rw [hcl] at h
        exact absurd h (by simp)

/-- Linking two degree-consistent trees with the degree update
`consolidate_tree` performs yields a degree-consistent tree. -/
theorem DegOk_link {s t : Node} (hs : DegOk s) (ht : DegOk t) :
    DegOk (Node.mk s.id s.value s.priority s.marked
      (if s.degree ≤ t.degree then t.degree + 1 else s.degree) (s.children ++ [t])) := by
  have hd : s.degree = computeDeg s.children := by
    cases s with
    | mk si sv sp sm sd scs => exact (DegOk_mk.1 hs).1
  have hcs : ∀ c ∈ s.children, DegOk c := by
    cases s with
    | mk si sv sp sm sd scs =>
      simp only [Node.children]
      exact (DegOk_mk.1 hs).2
  rw [DegOk_mk]
  constructor
  · rw [computeDeg_append_singleton, ← hd]
  · intro c hc
    rcases List.mem_append.1 hc with hc | hc
    · exact hcs c hc
    · rcases List.mem_singleton.1 hc with rfl
      exact ht

/-- Writing a degree-consistent (or null) entry into the grown table
keeps every slot consistent. -/
theorem rank_set_deg {rank : List (Option Node)} {d d' : Nat} {v : Option Node}
    (hrk : ∀ os ∈ rank, ∀ x : Node, os = some x → DegOk x)
    (hv : ∀ x : Node, v = some x → DegOk x) :
    ∀ os ∈ (growRank rank d).set d' v, ∀ x : Node, os = some x → DegOk x := by
  intro os hos x hx
  rcases List.mem_or_eq_of_mem_set hos with hos | rfl
  · rcases mem_growRank hos with hm | rfl
    · exact hrk os hm x hx
    · exact absurd hx (by simp)
  · exact hv x hx

/-- Consolidation preserves degree consistency: every link updates the
parent's degree exactly as `set_degree` would. -/
theorem consolidateGo_degOk :
    ∀ roots : List Node, ∀ idx : Nat, ∀ rank : List (Option Node),
      (∀ t ∈ roots, DegOk t) →
        (∀ os ∈ rank, ∀ s : Node, os = some s → DegOk s) →
        ∀ out : List Node, consolidateGo roots idx rank = some out →
          ∀ t ∈ out, DegOk t := by
  intro roots idx rank
  induction roots, idx, rank using consolidateGo.induct with
  | case1 roots idx rank hidx hslot ih =>
    intro hro hrk out hout
    rw [consolidateGo, dif_pos hidx] at hout
    simp only [hslot] at hout
    refine ih hro (rank_set_deg hrk ?_) out hout
    intro x hx
    cases hx
    exact hro _ (List.mem_iff_getElem.mpr ⟨idx, hidx, rfl⟩)
  | case2 roots idx rank hidx s hslot hj hlt ih =>
    intro hro hrk out hout
    rw [consolidateGo, dif_pos hidx] at hout
    simp only [hslot] at hout
    rw [dif_pos hj, if_pos hlt] at hout
    have hsOrd : DegOk s := hrk _ (growRank_slot_some hslot) s rfl
    have hw := DegOk_link hsOrd (hro _ (List.mem_iff_getElem.mpr ⟨idx, hidx, rfl⟩))
    refine ih ?_ (rank_set_deg hrk (fun x hx => absurd hx (by simp))) out hout
    intro x hx2
    have hx3 := (List.eraseIdx_sublist _ _).mem hx2
    rcases List.mem_or_eq_of_mem_set hx3 with hx3 | rfl
    · exact hro x hx3
    · exact hw
  | case3 roots idx rank hidx s hslot hj hlt ih =>
    intro hro hrk out hout
    rw [consolidateGo, dif_pos hidx] at hout
    simp only [hslot] at hout
    rw [dif_pos hj, if_neg hlt] at hout
    have hsOrd : DegOk s := hrk _ (growRank_slot_some hslot) s rfl
    have hw := DegOk_link (hro _ (List.mem_iff_getElem.mpr ⟨idx, hidx, rfl⟩)) hsOrd
    refine ih ?_ (rank_set_deg hrk (fun x hx => absurd hx (by simp))) out hout
    intro x hx2
    have hx3 := (List.eraseIdx_sublist _ _).mem hx2
    rcases List.mem_or_eq_of_mem_set hx3 with hx3 | rfl
    · exact hro x hx3
    · exact hw
  | case4 roots idx rank hidx s hslot hj =>
    intro hro hrk out hout
    rw [consolidateGo, dif_pos hidx] at hout
    simp only [hslot] at hout
    rw [dif_neg hj] at hout
    exact absurd hout (by simp)
  | case5 roots idx rank hidx =>
    intro hro hrk out hout
    rw [consolidateGo, dif_neg hidx] at hout
    cases hout
    exact hro

theorem mem_eraseIdx_position {α : Type} (l : List α) (j : Nat) (hj : j < l.length)
    {x : α} (hx : x ∈ l.eraseIdx j) : ∃ k, k ≠ j ∧ ∃ hk : k < l.length, l[k] = x := by
  obtain ⟨k9, hk9, heq⟩ := List.mem_iff_getElem.1 hx
  have hlen : (l.eraseIdx j).length = l.length - 1 := List.length_eraseIdx_of_lt hj
  rcases Nat.lt_or_ge k9 j with hlt | hge
  · refine ⟨k9, by omega, by omega, ?_⟩
    have h5 : (l.eraseIdx j)[k9]? = l[k9]? := List.getElem?_eraseIdx_of_lt l j k9 hlt
    have h6 : (l.eraseIdx j)[k9]? = some x := List.getElem?_eq_some_iff.2 ⟨hk9, heq⟩
    rw [h5] at h6
    obtain ⟨hb9, h7⟩ := List.getElem?_eq_some_iff.1 h6
    exact h7
  · refine ⟨k9 + 1, by omega, by omega, ?_⟩
    have h5 : (l.eraseIdx j)[k9]? = l[k9 + 1]? := List.getElem?_eraseIdx_of_ge l j k9 hge
    have h6 : (l.eraseIdx j)[k9]? = some x := List.getElem?_eq_some_iff.2 ⟨hk9, heq⟩
    rw [h5] at h6
    obtain ⟨hb9, h7⟩ := List.getElem?_eq_some_iff.1 h6
    exact h7

/-- `delete_min` preserves degree consistency: the only tree whose
degrees could go stale is the one holding the cleared node, and (ids
being distinct) that is exactly the root the call erases. -/
theorem deleteMin_degOk {h h' : Heap} (hd : deleteMin h = some h')
    (hnd : (forestIds h.roots).Nodup) (hord : ∀ t ∈ h.roots, DegOk t) :
    ∀ t ∈ h'.roots, DegOk t := by
  rw [deleteMin] at hd
  rcases hmr : h.minRef with _ | mr
  · simp only [hmr] at hd
    cases hd
    exact hord
  · simp only [hmr] at hd
    rcases hcl : clearChildrenList mr.1 h.roots with _ | ⟨forest1, kids⟩
    · simp only [hcl] at hd
      exact Option.noConfusion hd
    · simp only [hcl] at hd
      rcases hfi : (forest1 ++ kids).findIdx? (fun r => r.id == mr.1) with _ | j
      · simp only [hfi] at hd
        exact Option.noConfusion hd
      · simp only [hfi, setMinOp_roots] at hd
        obtain ⟨hjlen, hjfix⟩ := List.findIdx?_eq_some_iff_findIdx_eq.mp hfi
        have hjid : ((forest1 ++ kids)[j]).id = mr.1 := by
          subst hjfix
          have h9 := List.findIdx_getElem (w := hjlen)
          simpa using h9
        have hnd1 : (forestIds (forest1 ++ kids)).Nodup := by
          have e1 : (↑(forestIds (forest1 ++ kids)) : Multiset Nat) =
              ↑(forestIds h.roots) := by
            rw [forestIds_append]
            simp only [← Multiset.coe_add]
            exact clearChildren_ids mr.1 h.roots (forest1, kids) hcl
          rw [← Multiset.coe_nodup] at hnd ⊢
          rw [e1]
          exact hnd
        obtain ⟨hkids, -, hdisj⟩ := clearChildren_deg mr.1 h.roots (forest1, kids) hcl hord
        have herased : ∀ x ∈ (forest1 ++ kids).eraseIdx j, DegOk x := by
          intro x hx
          obtain ⟨k, hkj, hk, hkeq⟩ := mem_eraseIdx_position _ j hjlen hx
          have hxmem : x ∈ forest1 ++ kids := List.mem_iff_getElem.mpr ⟨k, hk, hkeq⟩
          rcases List.mem_append.1 hxmem with hxm | hxm
          · rcases hdisj x hxm with hok | hin
            · exact hok
            · exfalso
              have hjtop : mr.1 ∈ nodeIds ((forest1 ++ kids)[j]) := by
                rw [nodeIds_eta, hjid]
                simp
              have hkin : mr.1 ∈ nodeIds ((forest1 ++ kids)[k]) := by
                rw [hkeq]
                exact hin
              exact id_two_positions hnd1 hk hjlen hkj hkin hjtop
          · exact hkids x hxm
        rcases hcons : consolidate ((forest1 ++ kids).eraseIdx j) with _ | roots2
        · simp only [hcons] at hd
          exact Option.noConfusion hd
        · simp only [hcons] at hd
          cases hd
          exact consolidateGo_degOk _ 0 [] herased (by simp) roots2 hcons

theorem insertOp_degOk {h : Heap} (v : Nat) (p : Int)
    (hord : ∀ t ∈ h.roots, DegOk t) : ∀ t ∈ (insertOp h v p).roots, DegOk t := by
  intro t ht
  rcases List.mem_append.1 ht with ht | ht
  · exact hord t ht
  · rcases List.mem_singleton.1 ht with rfl
    exact DegOk_mk.2 ⟨rfl, by simp⟩

/-- Every reachable heap has every node's degree equal to its subtree
height. -/
theorem reachable_degOk {h : Heap} (hr : Reachable h) : ∀ t ∈ h.roots, DegOk t := by
  induction hr with
  | empty n => intro t ht; exact absurd ht (by simp [emptyHeap])
  | insert v p hr ih => exact insertOp_degOk v p ih
  | deleteMin hr hd ih => exact deleteMin_degOk hd (reachable_invIds hr).1 ih
  | changePriority k oldP newP hr ih => exact changePriority_degOk _ k oldP newP ih
  | union hra hrb hdisj hadd iha ihb =>
    rw [heapAdd_roots hadd]
    intro t ht
    rcases List.mem_append.1 ht with hm | hm
    · exact iha t hm
    · exact ihb t hm
  | unionAssign hra hrb hdisj hadd iha ihb =>
    rw [heapAddAssign_eq_heapAdd] at hadd
    rw [heapAdd_roots hadd]
    intro t ht
    rcases List.mem_append.1 ht with hm | hm
    · exact iha t hm
    · exact ihb t hm

/-- C5 (amended): after every public operation returns, every node's
`degree` field equals the value `set_degree` computes from its children —
`0` for a leaf and otherwise `max(child.degree) + 1`, i.e. the height of
the node's subtree (as the field's own comment in the source says), not
the number of direct children. -/
theorem c5_degree_is_height {h : Heap} (hr : Reachable h) :
    ∀ t ∈ h.roots, DegOk t :=
  reachable_degOk hr

theorem c5_degree_is_height_witness :
    DegOk (Node.mk 0 0 1 false 1 [Node.mk 1 1 5 false 0 [], Node.mk 2 2 6 true 0 []]) :=
  c5_degree_is_height reachable_c5Heap
    (Node.mk 0 0 1 false 1 [Node.mk 1 1 5 false 0 [], Node.mk 2 2 6 true 0 []])
    (by simp [c5Heap])

/-- Every root `mark_utility` pushes (beyond those already accumulated)
is pushed unmarked. -/
theorem markUtilSpine_marks (n : Node) (spine : List Ctx) (acc : List Node) :
    ∀ r ∈ (markUtilSpine n spine acc).2.2, r ∈ acc ∨ r.marked = false := by
  induction n, spine, acc using markUtilSpine.induct with
  | case1 n acc =>
    rw [markUtilSpine]
    exact fun r hr => Or.inl hr
  | case2 n acc ctx rest hm =>
    rw [markUtilSpine, if_pos hm]
    exact fun r hr => Or.inl hr
  | case3 n acc ctx rest hm cut pr ih =>
    rw [markUtilSpine, if_neg hm]
    intro r hr
    rcases ih r hr with hr2 | hr2
    · rcases List.mem_append.1 hr2 with hr3 | hr3
      · exact Or.inl hr3
      · rcases List.mem_singleton.1 hr3 with rfl
        exact Or.inr rfl
    · exact Or.inr hr2

/-- Every root the decrease-branch cut loop pushes is pushed unmarked. -/
theorem decreaseLoop_marks (curr : Node) (spine : List Ctx) (acc : List Node) :
    ∀ r ∈ (decreaseLoop curr spine acc).2.2, r ∈ acc ∨ r.marked = false := by
  induction curr, spine, acc using decreaseLoop.induct with
  | case1 curr acc =>
    rw [decreaseLoop]
    exact fun r hr => Or.inl hr
  | case2 curr acc ctx hlt =>
    rw [decreaseLoop, if_pos hlt]
    intro r hr
    rcases List.mem_append.1 hr with hr2 | hr2
    · exact Or.inl hr2
    · rcases List.mem_singleton.1 hr2 with rfl
      exact Or.inr rfl
  | case3 curr acc ctx hlt =>
    rw [decreaseLoop, if_neg hlt]
    exact fun r hr => Or.inl hr
  | case4 curr acc ctx c2 rest2 hlt cut pr hm ih =>
    rw [decreaseLoop, if_pos hlt, if_pos hm]
    intro r hr
    rcases ih r hr with hr2 | hr2
    · rcases List.mem_append.1 hr2 with hr3 | hr3
      · exact Or.inl hr3
      · rcases List.mem_singleton.1 hr3 with rfl
        exact Or.inr rfl
    · exact Or.inr hr2
  | case5 curr acc ctx c2 rest2 hlt pr hm =>
    rw [decreaseLoop, if_pos hlt, if_neg hm]
    intro r hr
    rcases markUtilSpine_marks _ _ _ r hr with hr2 | hr2
    · rcases List.mem_append.1 hr2 with hr3 | hr3
      · exact Or.inl hr3
      · rcases List.mem_singleton.1 hr3 with rfl
        exact Or.inr rfl
    · exact Or.inr hr2
  | case6 curr acc ctx c2 rest2 hlt =>
    rw [decreaseLoop, if_neg hlt]
    exact fun r hr => Or.inl hr

theorem increaseRooted_fst_marked (i v : Nat) (p : Int) (m : Bool) (d : Nat)
    (kept todo accPost : List Node) :
    (increaseRooted i v p m d kept todo accPost).1.marked = m := by
  induction todo generalizing d kept accPost with
  | nil => rw [increaseRooted]; rfl
  | cons c rest ih =>
    rw [increaseRooted]
    by_cases hc : c.priority < p
    · rw [if_pos hc]
      exact ih _ _ _
    · rw [if_neg hc]
      exact ih _ _ _

theorem increaseRooted_marks (i v : Nat) (p : Int) (m : Bool) (d : Nat)
    (kept todo accPost : List Node) :
    ∀ r ∈ (increaseRooted i v p m d kept todo accPost).2,
      r ∈ accPost ∨ r.marked = false := by
  induction todo generalizing d kept accPost with
  | nil =>
    rw [increaseRooted]
    exact fun r hr => Or.inl hr
  | cons c rest ih =>
    rw [increaseRooted]
    by_cases hc : c.priority < p
    · rw [if_pos hc]
      intro r hr
      rcases ih _ _ _ r hr with hr2 | hr2
      · rcases List.mem_append.1 hr2 with hr3 | hr3
        · exact Or.inl hr3
        · rcases List.mem_singleton.1 hr3 with rfl
          exact Or.inr rfl
      · exact Or.inr hr2
    · rw [if_neg hc]
      exact ih _ _ _

/-- Every root the increase-branch child scan pushes is pushed
unmarked. -/
theorem increaseInTree_marks (i v : Nat) (p : Int) (m : Bool) (d : Nat)
    (kept todo : List Node) (spine : List Ctx) (acc : List Node) :
    ∀ r ∈ (increaseInTree i v p m d kept todo spine acc).2,
      r ∈ acc ∨ r.marked = false := by
  induction todo generalizing m d kept spine acc with
  | nil =>
    rw [increaseInTree]
    exact fun r hr => Or.inl hr
  | cons c rest ih =>
    rw [increaseInTree_cons_eq]
    by_cases hc : c.priority < p
    · rw [if_pos hc]
      rcases hsp : (if computeDeg (kept ++ rest) = d then spine
          else setDegreeCtxs (Node.mk i v p m (computeDeg (kept ++ rest))
            (kept ++ rest)) spine) with _ | ⟨ctx1, rest1⟩
      · intro r hr
        rcases ih m _ kept [] _ r hr with hr2 | hr2
        · rcases List.mem_append.1 hr2 with hr3 | hr3
          · exact Or.inl hr3
          · rcases List.mem_singleton.1 hr3 with rfl
            exact Or.inr rfl
        · exact Or.inr hr2
      · by_cases hm9 : m = false
        · subst hm9
          intro r hr
          rcases ih true _ kept (ctx1 :: rest1) _ r hr with hr2 | hr2
          · rcases List.mem_append.1 hr2 with hr3 | hr3
            · exact Or.inl hr3
            · rcases List.mem_singleton.1 hr3 with rfl
              exact Or.inr rfl
          · exact Or.inr hr2
        · have hmt : m = true := by cases m <;> simp_all
          subst hmt
          intro r hr
          have hr9 : r ∈ acc ∨
              r = Node.mk c.id c.value c.priority false c.degree c.children ∨
              r = (increaseRooted i v p false (computeDeg (kept ++ rest)) kept rest []).1 ∨
              r ∈ (markUtilSpine (setDegreeFull ctx1.dropHole rest1).1
                    (setDegreeFull ctx1.dropHole rest1).2 []).2.2 ∨
              r ∈ (increaseRooted i v p false (computeDeg (kept ++ rest)) kept rest []).2 := by
            simpa [List.mem_append, List.mem_singleton, or_assoc] using hr
          rcases hr9 with hr9 | hr9 | hr9 | hr9 | hr9
          · exact Or.inl hr9
          · subst hr9
            exact Or.inr rfl
          · subst hr9
            exact Or.inr (increaseRooted_fst_marked _ _ _ _ _ _ _ _)
          · rcases markUtilSpine_marks _ _ _ r hr9 with hr2 | hr2
            · exact absurd hr2 (by simp)
            · exact Or.inr hr2
          · rcases increaseRooted_marks _ _ _ _ _ _ _ _ r hr9 with hr2 | hr2
            · exact absurd hr2 (by simp)
            · exact Or.inr hr2
    · rw [if_neg hc]
      exact ih m d _ spine acc

/-- C7 (amended): marks are only planted by `mark_utility` on a node
that stays inside its tree; every node the cut machinery pushes onto the
root list — the cascading cuts of `mark_utility`, the decrease-branch cut
loop, and the increase-branch child scan — arrives unmarked, as does
every freshly inserted root.  (But melding and consolidation do not clear
marks, so a tree root can still be marked — see `c7_counterexample`.) -/
theorem c7_cut_roots_unmarked :
    (∀ h : Heap, ∀ v : Nat, ∀ p : Int,
      ∀ x ∈ (insertOp h v p).roots, x ∈ h.roots ∨ x.marked = false) ∧
    (∀ n : Node, ∀ spine : List Ctx, ∀ acc : List Node,
      ∀ r ∈ (markUtilSpine n spine acc).2.2, r ∈ acc ∨ r.marked = false) ∧
    (∀ curr : Node, ∀ spine : List Ctx, ∀ acc : List Node,
      ∀ r ∈ (decreaseLoop curr spine acc).2.2, r ∈ acc ∨ r.marked = false) ∧
    (∀ i v : Nat, ∀ p : Int, ∀ m : Bool, ∀ d : Nat,
      ∀ kept todo : List Node, ∀ spine : List Ctx, ∀ acc : List Node,
      ∀ r ∈ (increaseInTree i v p m d kept todo spine acc).2,
        r ∈ acc ∨ r.marked = false) := by
  refine ⟨?_, markUtilSpine_marks, decreaseLoop_marks, increaseInTree_marks⟩
  intro h v p x hx
  rcases List.mem_append.1 hx with hx | hx
  · exact Or.inl hx
  · rcases List.mem_singleton.1 hx with rfl
    exact Or.inr rfl

theorem c7_cut_roots_unmarked_witness :
    Node.mk 0 5 7 false 0 [] ∈ (emptyHeap 0).roots ∨
      (Node.mk 0 5 7 false 0 []).marked = false :=
  c7_cut_roots_unmarked.1 (emptyHeap 0) 5 7 (Node.mk 0 5 7 false 0 [])
    (by simp [insertOp, emptyHeap])

end FH
